import Mathlib

/-!
# VAST: bitmap run iteration, the fragment indexing layer and the log sources

A shallow embedding of

* `src/src/vast/fragment.cc` (`fragment::append_value`, `type_fragment`,
  `argument_fragment`),
* `src/src/vast/bitstream.cc` (`null_bitstream`),
* `src/libvast/src/null_bitmap.cpp` (`null_bitmap`, `null_bitmap_range`),
* `src/src/vast/source/file.cc` (`bro2::parse`, `bro15conn::parse`),
* `src/src/vast/source/broccoli.cc` (`broccoli::subscribe`),

together with the properties of these functions.  Integers of the source
(`uint64_t` ids, `size_t` sizes) are natural numbers: every subtraction of the
embedded code is guarded by a comparison, so no wrap-around occurs.
-/

namespace vast

/-! ## Values and records -/

/-- The tag returned by `value::which()`.  The enumerators are the ones the
sources name (`fragment.cc`, `source/file.cc`). -/
inductive value_type where
  | invalid_type
  | bool_type
  | int_type
  | uint_type
  | double_type
  | time_range_type
  | time_point_type
  | string_type
  | regex_type
  | address_type
  | prefix_type
  | port_type
  | record_type
  deriving DecidableEq, Repr

/-- Modelled from the spec: the class `value` (`vast/value.h`) is not among the
sources.  A value is a tagged union over the primitive set plus a record
variant (spec §9); a record is an ordered tuple of values.  Payloads that the
indexing layer never inspects (floating point, addresses, time) are carried as
integers. -/
inductive value where
  | nil : value
  | bool (b : Bool) : value
  | int (i : Int) : value
  | uint (n : Nat) : value
  | double (d : Int) : value
  | time_range (t : Int) : value
  | time_point (t : Int) : value
  | string (s : String) : value
  | regex (s : String) : value
  | address (a : Nat) : value
  | pfx (a : Nat) (len : Nat) : value
  | port (p : Nat) : value
  | record (fields : List value) : value

/-- The accessor `value::which()`. -/
def value.which : value → value_type
  | .nil => .invalid_type
  | .bool _ => .bool_type
  | .int _ => .int_type
  | .uint _ => .uint_type
  | .double _ => .double_type
  | .time_range _ => .time_range_type
  | .time_point _ => .time_point_type
  | .string _ => .string_type
  | .regex _ => .regex_type
  | .address _ => .address_type
  | .pfx _ _ => .prefix_type
  | .port _ => .port_type
  | .record _ => .record_type

mutual
/-- Equality test of two values: same tag and same content. -/
def value.beq : value → value → Bool
  | .nil, .nil => true
  | .bool a, .bool b => a == b
  | .int a, .int b => a == b
  | .uint a, .uint b => a == b
  | .double a, .double b => a == b
  | .time_range a, .time_range b => a == b
  | .time_point a, .time_point b => a == b
  | .string a, .string b => a == b
  | .regex a, .regex b => a == b
  | .address a, .address b => a == b
  | .pfx a m, .pfx b n => a == b && m == n
  | .port a, .port b => a == b
  | .record a, .record b => value.beqList a b
  | _, _ => false
/-- Equality test of two records, field by field. -/
def value.beqList : List value → List value → Bool
  | [], [] => true
  | a :: as, b :: bs => value.beq a b && value.beqList as bs
  | _, _ => false
end

mutual
theorem value.eq_of_beq : ∀ (a b : value), value.beq a b = true → a = b
  | .nil, b, h => by cases b <;> simp_all [value.beq]
  | .bool x, b, h => by cases b <;> simp_all [value.beq]
  | .int x, b, h => by cases b <;> simp_all [value.beq]
  | .uint x, b, h => by cases b <;> simp_all [value.beq]
  | .double x, b, h => by cases b <;> simp_all [value.beq]
  | .time_range x, b, h => by cases b <;> simp_all [value.beq]
  | .time_point x, b, h => by cases b <;> simp_all [value.beq]
  | .string x, b, h => by cases b <;> simp_all [value.beq]
  | .regex x, b, h => by cases b <;> simp_all [value.beq]
  | .address x, b, h => by cases b <;> simp_all [value.beq]
  | .pfx x m, b, h => by cases b <;> simp_all [value.beq]
  | .port x, b, h => by cases b <;> simp_all [value.beq]
  | .record x, b, h => by
    cases b <;> simp only [value.beq, Bool.false_eq_true] at h
    rw [value.eqList_of_beq x _ h]
theorem value.eqList_of_beq :
    ∀ (a b : List value), value.beqList a b = true → a = b
  | [], b, h => by cases b <;> simp_all [value.beqList]
  | x :: xs, b, h => by
    cases b with
    | nil => simp [value.beqList] at h
    | cons y ys =>
      simp [value.beqList] at h
      rw [value.eq_of_beq x y h.1, value.eqList_of_beq xs ys h.2]
end

mutual
theorem value.beq_self : ∀ (a : value), value.beq a a = true
  | .nil => by simp [value.beq]
  | .bool x => by simp [value.beq]
  | .int x => by simp [value.beq]
  | .uint x => by simp [value.beq]
  | .double x => by simp [value.beq]
  | .time_range x => by simp [value.beq]
  | .time_point x => by simp [value.beq]
  | .string x => by simp [value.beq]
  | .regex x => by simp [value.beq]
  | .address x => by simp [value.beq]
  | .pfx x m => by simp [value.beq]
  | .port x => by simp [value.beq]
  | .record x => by simp [value.beq, value.beqList_self x]
theorem value.beqList_self : ∀ (a : List value), value.beqList a a = true
  | [] => by simp [value.beqList]
  | x :: xs => by simp [value.beqList, value.beq_self x, value.beqList_self xs]
end

instance : DecidableEq value := fun a b =>
  if h : value.beq a b = true then isTrue (value.eq_of_beq a b h)
  else isFalse (fun e => h (e ▸ value.beq_self a))

/-! ## The index collaborator -/

/-- Modelled from the spec: the class `bitmap_index` (`vast/bitmap_index.h`),
the ColumnIndex collaborator, is not among the sources.  Spec §3: a
monotonic-ID append-only index exposing `size()`, `append_absent(count)` and
`append_value(value)`; §6: `create(value_type)` is a factory keyed by the
primitive type.  Position `i` of `entries` is what the index holds for ID `i`:
`none` for an absent/false marker, `some v` for an appended value. -/
structure bitmap_index where
  kind : value_type
  entries : List (Option value)
  deriving DecidableEq

/-- The factory `bitmap_index::create(value_type)`: a fresh, empty index. -/
def bitmap_index.create (t : value_type) : bitmap_index := ⟨t, []⟩

/-- The accessor `bitmap_index::size()`. -/
def bitmap_index.size (bmi : bitmap_index) : Nat := bmi.entries.length

/-- Modelled from the spec: `bitmap_index::append(n, bit)`, the spec's
`append_absent(count)`; it adds `n` absent markers and reports success. -/
def bitmap_index.append (bmi : bitmap_index) (n : Nat) (_bit : Bool) :
    Bool × bitmap_index :=
  (true, { bmi with entries := bmi.entries ++ List.replicate n none })

/-- Modelled from the spec: `bitmap_index::push_back(value)`, the spec's
`append_value(value)`; it adds one entry holding the value and reports
success. -/
def bitmap_index.push_back (bmi : bitmap_index) (val : value) :
    Bool × bitmap_index :=
  (true, { bmi with entries := bmi.entries ++ [some val] })

/-! ## `fragment::append_value` -/

/-- `fragment::append_value(bmi, id, val)` of `fragment.cc`, lines 54-68.  The
result pairs the returned `bool` with the index after the call. -/
def fragment.append_value (bmi : bitmap_index) (id : Nat) (val : value) :
    Bool × bitmap_index :=
  if id < bmi.size then
    (false, bmi)
  else
    let delta := id - bmi.size
    if delta > 1 then
      let r := bmi.append (delta - 1) false
      if !r.1 then
        (false, r.2)
      else
        r.2.push_back val
    else
      bmi.push_back val

/-! ## Events -/

/-- Modelled from the spec: the class `event` (`vast/event.h`) is not among
the sources.  An event is a record (the sequence of its top-level values)
that carries an ID, a timestamp and a name. -/
structure event where
  id : Nat
  timestamp : Int
  name : String
  fields : List value

/-! ## `type_fragment` -/

/-- The nine index members of `type_fragment`, one per primitive type. -/
structure type_fragment where
  bool_ : bitmap_index
  int_ : bitmap_index
  uint_ : bitmap_index
  double_ : bitmap_index
  time_range_ : bitmap_index
  time_point_ : bitmap_index
  string_ : bitmap_index
  address_ : bitmap_index
  port_ : bitmap_index
  deriving DecidableEq

/-- A `type_fragment` whose nine indexes are empty. -/
def type_fragment.fresh : type_fragment where
  bool_ := bitmap_index.create .bool_type
  int_ := bitmap_index.create .int_type
  uint_ := bitmap_index.create .uint_type
  double_ := bitmap_index.create .double_type
  time_range_ := bitmap_index.create .time_range_type
  time_point_ := bitmap_index.create .time_point_type
  string_ := bitmap_index.create .string_type
  address_ := bitmap_index.create .address_type
  port_ := bitmap_index.create .port_type

mutual
/-- `type_fragment::index_impl(id, v)` of `fragment.cc`, lines 156-187: the
`switch` on `v.which()`.  The `default` label logs and breaks out of the
switch, so the function falls through to `return true`. -/
def type_fragment.index_impl :
    type_fragment → Nat → value → Bool × type_fragment
  | self, id, .bool b =>
    let r := fragment.append_value self.bool_ id (.bool b)
    (r.1, { self with bool_ := r.2 })
  | self, id, .int i =>
    let r := fragment.append_value self.int_ id (.int i)
    (r.1, { self with int_ := r.2 })
  | self, id, .uint n =>
    let r := fragment.append_value self.uint_ id (.uint n)
    (r.1, { self with uint_ := r.2 })
  | self, id, .double d =>
    let r := fragment.append_value self.double_ id (.double d)
    (r.1, { self with double_ := r.2 })
  | self, id, .time_range t =>
    let r := fragment.append_value self.time_range_ id (.time_range t)
    (r.1, { self with time_range_ := r.2 })
  | self, id, .time_point t =>
    let r := fragment.append_value self.time_point_ id (.time_point t)
    (r.1, { self with time_point_ := r.2 })
  | self, id, .string s =>
    let r := fragment.append_value self.string_ id (.string s)
    (r.1, { self with string_ := r.2 })
  | self, id, .address a =>
    let r := fragment.append_value self.address_ id (.address a)
    (r.1, { self with address_ := r.2 })
  | self, id, .port p =>
    let r := fragment.append_value self.port_ id (.port p)
    (r.1, { self with port_ := r.2 })
  | self, id, .record r => type_fragment.index_impl_for self id r
  | self, _, .nil => (true, self)
  | self, _, .regex _ => (true, self)
  | self, _, .pfx _ _ => (true, self)
/-- The loop of the `record_type` case: `for (auto& rv : v.get<record>())
if (! index_impl(id, rv)) return false;`, then the final `return true`. -/
def type_fragment.index_impl_for :
    type_fragment → Nat → List value → Bool × type_fragment
  | self, _, [] => (true, self)
  | self, id, rv :: rest =>
    let r := type_fragment.index_impl self id rv
    if !r.1 then (false, r.2) else type_fragment.index_impl_for r.2 id rest
end

/-- The values of a record at their first occurrence, in order: the head is
kept and every later value equal to it is dropped. -/
def first_occurrences : List value → List value
  | [] => []
  | v :: vs => v :: (first_occurrences vs).filter (fun x => decide (x ≠ v))

/-- The loop of `type_fragment::index`, lines 148-153.  `unique` is the
`std::set<value>` of the values seen so far in this call; by spec §4.3
membership is full equality of type and content. -/
def type_fragment.index_for (id : Nat) :
    List value → List value → type_fragment → type_fragment
  | [], _, self => self
  | v :: rest, unique, self =>
    if v ∈ unique then
      type_fragment.index_for id rest unique self
    else
      type_fragment.index_for id rest (v :: unique)
        (type_fragment.index_impl self id v).2

/-- `type_fragment::index(e)` of `fragment.cc`, lines 145-154. -/
def type_fragment.index (self : type_fragment) (e : event) : type_fragment :=
  type_fragment.index_for e.id e.fields [] self

/-! ## `argument_fragment` -/

/-- An offset-path (`vast/offset.h`): a sequence of `size_t`. -/
abbrev offset := List Nat

/-- The member `indexes_` of `argument_fragment`: the map from offset-path to
its index, kept as an association list with one entry per path. -/
structure argument_fragment where
  indexes_ : List (offset × bitmap_index)
  deriving DecidableEq

/-- An `argument_fragment` without any index. -/
def argument_fragment.fresh : argument_fragment := ⟨[]⟩

/-- The lookup `indexes_.find(o)`. -/
def argument_fragment.find (self : argument_fragment) (o : offset) :
    Option bitmap_index :=
  self.indexes_.lookup o

/-- The insertion `indexes_.emplace(o, bmi)`: no effect on a path that is
present. -/
def argument_fragment.emplace (self : argument_fragment) (o : offset)
    (bmi : bitmap_index) : argument_fragment :=
  if (self.indexes_.lookup o).isSome then self
  else ⟨self.indexes_ ++ [(o, bmi)]⟩

/-- Writing through the pointer `idx`, which addresses the index stored under
the path `o`. -/
def argument_fragment.assign (self : argument_fragment) (o : offset)
    (bmi : bitmap_index) : argument_fragment :=
  ⟨self.indexes_.map (fun p => if p.1 = o then (p.1, bmi) else p)⟩

/-- The increment `++o.back()`. -/
def offset_incr_back (o : offset) : offset :=
  match o.getLast? with
  | some x => o.dropLast ++ [x + 1]
  | none => o

mutual
/-- The body of the `for` loop of `argument_fragment::index_impl`, `fragment.cc`
lines 263-296, for one value `v`, run from the state `(fragment, o)`.  The
`bool` of the result is `false` exactly when the body executes `return false`.
The recursive call `index_impl(inner, id, o)` appears with the body of
`index_impl` in place: the test `o.empty()` of line 258, then the loop.  Its
result is discarded by the source.  In the scalar branch the pointer `idx`
addresses the entry of `o`, found or just emplaced; the branch without such an
entry is the failure of `assert(idx != nullptr)`. -/
def argument_fragment.index_impl_body :
    value → Nat → argument_fragment × offset →
      Bool × argument_fragment × offset
  | .record inner, id, st =>
    if !inner.isEmpty then
      let o1 := st.2 ++ [0]
      let r := if o1.isEmpty then (true, st.1, o1)
        else argument_fragment.index_impl_for inner id (st.1, o1)
      (true, r.2.1, r.2.2.dropLast)
    else
      (true, st)
  | v, id, st =>
    let self1 := match st.1.find st.2 with
      | some _ => st.1
      | none => st.1.emplace st.2 (bitmap_index.create v.which)
    match self1.find st.2 with
    | none => (false, self1, st.2)
    | some idx =>
      let r := fragment.append_value idx id v
      let self2 := self1.assign st.2 r.2
      if !r.1 then (false, self2, st.2)
      else (true, self2, offset_incr_back st.2)
/-- The `for` loop of `argument_fragment::index_impl`, lines 261-297, followed
by the `return true` of line 299. -/
def argument_fragment.index_impl_for :
    List value → Nat → argument_fragment × offset →
      Bool × argument_fragment × offset
  | [], _, st => (true, st)
  | v :: rest, id, st =>
    let r := argument_fragment.index_impl_body v id st
    if !r.1 then (false, r.2)
    else argument_fragment.index_impl_for rest id r.2
end

/-- `argument_fragment::index_impl(r, id, o)` of `fragment.cc`, lines
255-300. -/
def argument_fragment.index_impl (self : argument_fragment) (r : List value)
    (id : Nat) (o : offset) : Bool × argument_fragment × offset :=
  if o.isEmpty then (true, self, o)
  else argument_fragment.index_impl_for r id (self, o)

/-- `argument_fragment::index(e)` of `fragment.cc`, lines 241-247. -/
def argument_fragment.index (self : argument_fragment) (e : event) :
    argument_fragment :=
  if e.fields.isEmpty then self
  else (argument_fragment.index_impl self e.fields e.id [0]).2.1

/-! ## Error codes -/

/-- The error codes `ec` of `vast/error.hpp`. -/
inductive ec where
  | unspecified
  | filesystem_error
  | type_clash
  | unsupported_operator
  | parse_error
  | print_error
  | invalid_query
  | format_error
  | end_of_input
  | version_error
  deriving DecidableEq, Repr

/-! ## Words and bit vectors -/

/-- Modelled from the spec: `word_type::width` (`vast/word.hpp` is not among
the sources); §3 takes a block to be a fixed-width group of bits, 64 bits
wide. -/
def word.width : Nat := 64

/-- Modelled from the spec: `word_type::all`, the block with every bit set. -/
def word.all : Nat := 2 ^ word.width - 1

/-- Modelled from the spec: `word_type::all_or_none(x)`; §4.2 calls a block
homogeneous when it is all-0 or all-1. -/
def word.all_or_none (x : Nat) : Bool := x == word.all || x == 0

/-- Modelled from the spec: `word_type::mask(n)` as `scan` uses it; by §4.2
step 3 the comparison under the mask is that of the `n` valid low bits, so the
mask has exactly the `n` low bits set. -/
def word.mask (n : Nat) : Nat := 2 ^ n - 1

/-- The block whose bit `i` is the `i`-th element of the list (lowest bit
first). -/
def word.of_bits : List Bool → Nat
  | [] => 0
  | b :: bs => b.toNat + 2 * word.of_bits bs

/-- Modelled from the spec: the class `bitvector` (`vast/bitvector.hpp`) is not
among the sources.  Spec §3: an ordered sequence of `size` bits backed by a
sequence of blocks, the last of which may be partially filled. -/
structure bitvector where
  blocks : List Nat
  size : Nat
  deriving DecidableEq

/-- The accessor `bitvector::operator[]`: bit `i` is bit `i mod width` of block
`i / width`. -/
def bitvector.get (bv : bitvector) (i : Nat) : Bool :=
  (bv.blocks.getD (i / word.width) 0).testBit (i % word.width)

/-- The bit sequence a bit vector stands for: its bits `0 .. size - 1`. -/
def bitvector.bits (bv : bitvector) : List Bool :=
  (List.range bv.size).map bv.get

/-- The bit vector storing a bit sequence: block `k` packs the bits
`k * width .. k * width + width - 1`; the unused bits of the last block are
zero. -/
def bitvector.of_bits (l : List Bool) : bitvector where
  blocks := (List.range ((l.length + (word.width - 1)) / word.width)).map
    (fun k => word.of_bits ((l.drop (word.width * k)).take word.width))
  size := l.length

/-- The bits of a bit vector at the positions `a, a + 1, ..., a + m - 1`. -/
def bitvector.segment (bv : bitvector) (a m : Nat) : List Bool :=
  (List.range' a m).map bv.get

/-- A bit vector is well formed when it has exactly the blocks its size
needs. -/
def bitvector.wf (bv : bitvector) : Prop :=
  bv.blocks.length = (bv.size + (word.width - 1)) / word.width

/-- Modelled from the spec: `bitvector::empty()`; by the invariant of §3 the
block sequence is empty iff `size == 0`. -/
def bitvector.empty (bv : bitvector) : Bool := bv.size == 0

/-- Modelled from the spec: `bitvector::push_back(bit)`, §4.1 `append_bit`:
one more bit at the end. -/
def bitvector.push_back (bv : bitvector) (bit : Bool) : bitvector :=
  bitvector.of_bits (bv.bits ++ [bit])

/-- Modelled from the spec: `bitvector::resize(n, bit)`; growing adds copies
of `bit` (§4.1 `append_run`), shrinking keeps the first `n` bits. -/
def bitvector.resize (bv : bitvector) (n : Nat) (bit : Bool) : bitvector :=
  bitvector.of_bits (bv.bits.take n ++ List.replicate (n - bv.size) bit)

/-- Modelled from the spec: `bitvector::append_block(value, bits)`, §4.1
`append_raw_block`: the `bits` low bits of `value` are appended. -/
def bitvector.append_block (bv : bitvector) (value : Nat) (bits : Nat) :
    bitvector :=
  bitvector.of_bits (bv.bits ++ (List.range bits).map value.testBit)

/-- Modelled from the spec: `bitvector::flip()`, §4.1 `complement`: every bit
is flipped. -/
def bitvector.flip (bv : bitvector) : bitvector :=
  bitvector.of_bits (bv.bits.map not)

/-- Modelled from the spec: `operator==` on bit vectors, §4.1: a comparison of
the full bit sequence. -/
def bitvector.equals (x y : bitvector) : Bool := x.bits == y.bits

/-- What `bitvector::operator&=`, `|=`, `^=` or `-=` does with two operands of
unequal size: the error it reports, if any, and the left operand after the
call.  The operators are declared in `vast/bitvector.h`, which is not among
the sources, and §4.1 leaves this case undefined, so it is a parameter of the
operators below. -/
abbrev bitvector.unequal := bitvector → bitvector → Option ec × bitvector

/-- Modelled from the spec: the compound assignments `&=`, `|=`, `^=`, `-=` of
`bitvector`, §4.1: the operation `f` is applied elementwise to two bit vectors
of equal size, and no error is reported; on operands of unequal size the
outcome is `u`.  The result pairs the error, if any, with the left operand
after the call. -/
def bitvector.combine (u : bitvector.unequal) (f : Bool → Bool → Bool) (x y : bitvector) :
    Option ec × bitvector :=
  if x.size ≠ y.size then u x y
  else (none, bitvector.of_bits (List.zipWith f x.bits y.bits))

/-- Modelled from the spec: `bitvector::operator&=`. -/
def bitvector.and_assign (u : bitvector.unequal) (x y : bitvector) : Option ec × bitvector :=
  bitvector.combine u (fun a b => a && b) x y

/-- Modelled from the spec: `bitvector::operator|=`. -/
def bitvector.or_assign (u : bitvector.unequal) (x y : bitvector) : Option ec × bitvector :=
  bitvector.combine u (fun a b => a || b) x y

/-- Modelled from the spec: `bitvector::operator^=`. -/
def bitvector.xor_assign (u : bitvector.unequal) (x y : bitvector) : Option ec × bitvector :=
  bitvector.combine u (fun a b => a != b) x y

/-- Modelled from the spec: `bitvector::operator-=`. -/
def bitvector.sub_assign (u : bitvector.unequal) (x y : bitvector) : Option ec × bitvector :=
  bitvector.combine u (fun a b => a && !b) x y

/-! ## `null_bitstream` (`bitstream.cc`) -/

/-- The class `null_bitstream`: its member `bits_`. -/
structure null_bitstream where
  bits_ : bitvector
  deriving DecidableEq

/-- The accessor `size()` of a bitstream. -/
def null_bitstream.size (self : null_bitstream) : Nat := self.bits_.size

/-- The accessor `operator[]` of a bitstream. -/
def null_bitstream.get (self : null_bitstream) (i : Nat) : Bool :=
  self.bits_.get i

/-- `null_bitstream::operator&=`, `bitstream.cc` lines 5-9: the operator of
`bitvector` is applied to the two members `bits_`, without a test of the
operator's own. -/
def null_bitstream.and_assign (u : bitvector.unequal) (self other : null_bitstream) :
    Option ec × null_bitstream :=
  let r := self.bits_.and_assign u other.bits_
  (r.1, { self with bits_ := r.2 })

/-- `null_bitstream::operator|=`, `bitstream.cc` lines 11-15. -/
def null_bitstream.or_assign (u : bitvector.unequal) (self other : null_bitstream) :
    Option ec × null_bitstream :=
  let r := self.bits_.or_assign u other.bits_
  (r.1, { self with bits_ := r.2 })

/-- `null_bitstream::operator^=`, `bitstream.cc` lines 17-21. -/
def null_bitstream.xor_assign (u : bitvector.unequal) (self other : null_bitstream) :
    Option ec × null_bitstream :=
  let r := self.bits_.xor_assign u other.bits_
  (r.1, { self with bits_ := r.2 })

/-- `null_bitstream::operator-=`, `bitstream.cc` lines 23-27. -/
def null_bitstream.sub_assign (u : bitvector.unequal) (self other : null_bitstream) :
    Option ec × null_bitstream :=
  let r := self.bits_.sub_assign u other.bits_
  (r.1, { self with bits_ := r.2 })

/-- `null_bitstream::equals`, `bitstream.cc` lines 29-32. -/
def null_bitstream.equals (self other : null_bitstream) : Bool :=
  self.bits_.equals other.bits_

/-- `null_bitstream::append_impl(n, bit)`, `bitstream.cc` lines 34-37. -/
def null_bitstream.append_impl (self : null_bitstream) (n : Nat) (bit : Bool) :
    null_bitstream :=
  { self with bits_ := self.bits_.resize (self.bits_.size + n) bit }

/-- `null_bitstream::push_back_impl(bit)`, `bitstream.cc` lines 39-42. -/
def null_bitstream.push_back_impl (self : null_bitstream) (bit : Bool) :
    null_bitstream :=
  { self with bits_ := self.bits_.push_back bit }

/-- `null_bitstream::flip`, `bitstream.cc` lines 44-48. -/
def null_bitstream.flip (self : null_bitstream) : null_bitstream :=
  { self with bits_ := self.bits_.flip }

/-! ## `null_bitmap` (`null_bitmap.cpp`) -/

/-- The class `null_bitmap`: its member `bitvector_`. -/
structure null_bitmap where
  bitvector_ : bitvector
  deriving DecidableEq

/-- A default-constructed `null_bitmap`: no bits. -/
def null_bitmap.nil : null_bitmap := ⟨⟨[], 0⟩⟩

/-- `null_bitmap::empty`, lines 9-11. -/
def null_bitmap.empty (self : null_bitmap) : Bool := self.bitvector_.empty

/-- `null_bitmap::size`, lines 13-15. -/
def null_bitmap.size (self : null_bitmap) : Nat := self.bitvector_.size

/-- `null_bitmap::append_bit`, lines 17-19. -/
def null_bitmap.append_bit (self : null_bitmap) (bit : Bool) : null_bitmap :=
  { self with bitvector_ := self.bitvector_.push_back bit }

/-- `null_bitmap::append_bits`, lines 21-23. -/
def null_bitmap.append_bits (self : null_bitmap) (bit : Bool) (n : Nat) :
    null_bitmap :=
  { self with bitvector_ := self.bitvector_.resize (self.bitvector_.size + n) bit }

/-- `null_bitmap::append_block`, lines 25-27. -/
def null_bitmap.append_block (self : null_bitmap) (value : Nat) (bits : Nat) :
    null_bitmap :=
  { self with bitvector_ := self.bitvector_.append_block value bits }

/-- `null_bitmap::flip`, lines 29-31. -/
def null_bitmap.flip (self : null_bitmap) : null_bitmap :=
  { self with bitvector_ := self.bitvector_.flip }

/-- The constructor `null_bitmap::null_bitmap(n, bit)`, lines 5-7. -/
def null_bitmap.init (n : Nat) (bit : Bool) : null_bitmap :=
  null_bitmap.nil.append_bits bit n

/-- The `operator==` of `null_bitmap`, lines 33-35. -/
def null_bitmap.equals (x y : null_bitmap) : Bool :=
  x.bitvector_.equals y.bitvector_

/-- The bitmap built by appending the bits of the list one after the other
with `append_bit`. -/
def null_bitmap.of_appends (bs : List Bool) : null_bitmap :=
  bs.foldl null_bitmap.append_bit null_bitmap.nil

/-! ## `null_bitmap_range` (`null_bitmap.cpp`) -/

/-- A run, the class `bits` held in the member `bits_` of the range: a block
`data` and a length `size`. -/
structure bits where
  data : Nat
  size : Nat
  deriving DecidableEq, Repr

/-- The bit sequence a run stands for: a run of at most one block width holds
the `size` low bits of `data`; a longer run is uniform and holds `size` copies
of the bit value of its all-0 or all-1 block.  For a uniform run of exactly
one block width the two readings agree. -/
def bits.expand (b : bits) : List Bool :=
  if b.size ≤ word.width then (List.range b.size).map b.data.testBit
  else List.replicate b.size (b.data.testBit 0)

/-- The state of a `null_bitmap_range`: the pointer `bitvector_` (`none` for
`nullptr`), the block iterator `block_` as an index into the block sequence,
and the current run `bits_`. -/
structure null_bitmap_range where
  bitvector_ : Option bitvector
  block_ : Nat
  bits_ : bits
  deriving DecidableEq

/-- The loop `while (++block_ != last && *block_ == data) n += width;` of
`scan`, lines 75-76, from the state `(block_, n)`.  The first argument bounds
the number of iterations; the result is `none` when the bound is exhausted or
when the iterator is dereferenced outside the block sequence. -/
def null_bitmap_range.scan_while (blocks : List Nat) (last data : Nat) :
    Nat → Nat → Nat → Option (Nat × Nat)
  | 0, _, _ => none
  | fuel + 1, block_, n =>
    let block_ := block_ + 1
    if block_ ≠ last then
      match blocks[block_]? with
      | none => none
      | some w =>
        if w = data then
          null_bitmap_range.scan_while blocks last data fuel block_
            (n + word.width)
        else some (block_, n)
    else some (block_, n)

/-- `null_bitmap_range::scan`, lines 56-92.  The result is `none` when one of
the two entry assertions fails or when the iterator is dereferenced outside
the block sequence. -/
def null_bitmap_range.scan (self : null_bitmap_range) :
    Option null_bitmap_range :=
  match self.bitvector_ with
  | none => none
  | some bv =>
    let end_ := bv.blocks.length
    if self.block_ = end_ then none
    else
      let last := end_ - 1
      match bv.blocks[self.block_]? with
      | none => none
      | some cur =>
        if self.block_ = last then
          let partial_ := bv.size % word.width
          some { self with
            bits_ := ⟨cur, if partial_ = 0 then word.width else partial_⟩,
            block_ := self.block_ + 1 }
        else if !word.all_or_none cur then
          some { self with bits_ := ⟨cur, word.width⟩, block_ := self.block_ + 1 }
        else
          let data := cur
          match null_bitmap_range.scan_while bv.blocks last data end_
              self.block_ word.width with
          | none => none
          | some (block_, n) =>
            if block_ = last then
              match bv.blocks[block_]? with
              | none => none
              | some lastblock =>
                let partial_ := bv.size % word.width
                if partial_ > 0 then
                  let mask := word.mask partial_
                  if lastblock &&& mask = data &&& mask then
                    some { self with bits_ := ⟨data, n + partial_⟩, block_ := block_ + 1 }
                  else
                    some { self with bits_ := ⟨data, n⟩, block_ := block_ }
                else if lastblock = data then
                  some { self with bits_ := ⟨data, n + word.width⟩, block_ := block_ + 1 }
                else
                  some { self with bits_ := ⟨data, n⟩, block_ := block_ }
            else
              some { self with bits_ := ⟨data, n⟩, block_ := block_ }

/-- The constructor `null_bitmap_range::null_bitmap_range(bm)`, lines 38-43.
The member `bits_` starts as the run of length 0. -/
def null_bitmap_range.init (bm : null_bitmap) : Option null_bitmap_range :=
  let self : null_bitmap_range :=
    { bitvector_ := if bm.empty then none else some bm.bitvector_,
      block_ := 0,
      bits_ := ⟨0, 0⟩ }
  if self.bitvector_.isSome then self.scan else some self

/-- `null_bitmap_range::next`, lines 45-50; `none` when the null pointer is
dereferenced. -/
def null_bitmap_range.next (self : null_bitmap_range) :
    Option null_bitmap_range :=
  match self.bitvector_ with
  | none => none
  | some bv =>
    if self.block_ = bv.blocks.length then some { self with bitvector_ := none }
    else self.scan

/-- `null_bitmap_range::done`, lines 52-54. -/
def null_bitmap_range.done (self : null_bitmap_range) : Bool :=
  self.bitvector_.isNone

/-- The runs a range emits from its current state on: while the range is not
`done()`, take the run `bits_` and call `next()`.  The first argument bounds
the number of calls of `next()`; the result is `none` when the bound is
exhausted or a call fails. -/
def null_bitmap_range.collect : Nat → null_bitmap_range → Option (List bits)
  | 0, _ => none
  | fuel + 1, rng =>
    if rng.done then some []
    else
      match rng.next with
      | none => none
      | some rng1 =>
        match null_bitmap_range.collect fuel rng1 with
        | none => none
        | some rest => some (rng.bits_ :: rest)

/-- The runs of a bitmap: the range is constructed and consumed to
completion.  A bitmap with `k` blocks needs at most `k + 1` calls of
`next()`. -/
def null_bitmap.runs (bm : null_bitmap) : Option (List bits) :=
  match null_bitmap_range.init bm with
  | none => none
  | some rng => null_bitmap_range.collect (bm.bitvector_.blocks.length + 2) rng

/-! ## Leaves of a value and the columns of a `type_fragment` -/

mutual
/-- The scalar leaves of a value, in order: a value that is not a record is
its own single leaf, a record has the leaves of its fields. -/
def value.leaves : value → List value
  | .record r => value.leaves_list r
  | .nil => [.nil]
  | .bool b => [.bool b]
  | .int i => [.int i]
  | .uint n => [.uint n]
  | .double d => [.double d]
  | .time_range t => [.time_range t]
  | .time_point t => [.time_point t]
  | .string s => [.string s]
  | .regex s => [.regex s]
  | .address a => [.address a]
  | .pfx a len => [.pfx a len]
  | .port p => [.port p]
/-- The scalar leaves of the fields of a record, in order. -/
def value.leaves_list : List value → List value
  | [] => []
  | v :: vs => value.leaves v ++ value.leaves_list vs
end

/-- The leaves of a list are handed to `index_impl` one after the other, and
the first one for which `index_impl` returns `false` ends the processing: the
later leaves are not handed over.  The result pairs the success with the
fragment after the last call. -/
def type_fragment.append_leaves (id : Nat) :
    List value → type_fragment → Bool × type_fragment
  | [], self => (true, self)
  | l :: ls, self =>
    let r := type_fragment.index_impl self id l
    if !r.1 then (false, r.2) else type_fragment.append_leaves id ls r.2

/-- The index member of a `type_fragment` for a value type: one of the nine
members for a primitive type, none for any other type. -/
def type_fragment.column (self : type_fragment) : value_type → Option bitmap_index
  | .bool_type => some self.bool_
  | .int_type => some self.int_
  | .uint_type => some self.uint_
  | .double_type => some self.double_
  | .time_range_type => some self.time_range_
  | .time_point_type => some self.time_point_
  | .string_type => some self.string_
  | .address_type => some self.address_
  | .port_type => some self.port_
  | _ => none

/-! ## Strings and the file names of `argument_fragment` -/

/-- The character of a decimal digit `d`. -/
def digit_char (d : Nat) : Char := Char.ofNat (48 + d)

/-- The decimal digits of `n`, lowest first; the first argument bounds their
number. -/
def decimal_digits : Nat → Nat → List Nat
  | 0, _ => []
  | fuel + 1, n => if n < 10 then [n] else n % 10 :: decimal_digits fuel (n / 10)

/-- Modelled from the spec: the conversion `to<string>(size_t)` (`vast/to.h` is
not among the sources); by spec §6 a path component is written as an integer
in decimal.  Strings are lists of characters. -/
def to_string (n : Nat) : List Char :=
  (decimal_digits (n + 1) n).reverse.map digit_char

/-- One step of reading a decimal number: the digit `c` is added to the
number read so far; no result when `c` is not a digit. -/
def to_size_t_step (acc : Option Nat) (c : Char) : Option Nat :=
  match acc with
  | none => none
  | some a => if c.isDigit then some (10 * a + (c.toNat - 48)) else none

/-- Modelled from the spec: the conversion `to<size_t>(string)`: the number
that a non-empty string of decimal digits denotes; no result for any other
string. -/
def to_size_t (s : List Char) : Option Nat :=
  if s = [] then none else s.foldl to_size_t_step (some 0)

/-- Modelled from the spec: `string::split(sep)`: the pieces of the string
between the occurrences of `sep`, in order. -/
def split (sep : Char) : List Char → List (List Char)
  | [] => [[]]
  | c :: cs =>
    if c = sep then [] :: split sep cs
    else
      match split sep cs with
      | [] => [[c]]
      | p :: ps => (c :: p) :: ps

/-- Modelled from the spec: `path::basename(true)` on the name of a file: the
name without its extension, that is without its last `.` and what follows. -/
def basename_stripped (name : List Char) : List Char :=
  match name.reverse.dropWhile (fun c => c != '.') with
  | [] => name
  | _ :: rest => rest.reverse

/-- The loop of `argument_fragment::store`, `fragment.cc` lines 225-233: the
components of the path in decimal, a comma after each but the last. -/
def argument_fragment.store_offset : offset → List Char
  | [] => []
  | [x] => to_string x
  | x :: y :: rest => to_string x ++ ',' :: argument_fragment.store_offset (y :: rest)

/-- The file name `prefix + o + suffix` of `argument_fragment::store`, line
235. -/
def argument_fragment.store_filename (o : offset) : List Char :=
  "@".toList ++ argument_fragment.store_offset o ++ ".idx".toList

/-- The loop of `argument_fragment::load`, lines 210-211, over the pieces of
the split string: each piece is converted and pushed to the path; no result
when a conversion fails. -/
def argument_fragment.load_pieces : List (List Char) → Option offset
  | [] => some []
  | p :: ps =>
    match to_size_t p with
    | none => none
    | some n =>
      match argument_fragment.load_pieces ps with
      | none => none
      | some o => some (n :: o)

/-- The path that `argument_fragment::load` derives from a file name, lines
207-211; no result when the assertion `str[0] == '@'` fails or a piece is not
a number. -/
def argument_fragment.load_offset (name : List Char) : Option offset :=
  match basename_stripped name with
  | [] => none
  | c :: rest =>
    if c = '@' then argument_fragment.load_pieces (split ',' rest) else none

/-! ## Persistence -/

/-- Modelled from the spec: the files of the directory of a fragment, each a
name with the archived index it holds.  `io::archive` and `io::unarchive`
(`vast/io/serialization.h`) are not among the sources; reading a file back
gives the index that was written to it. -/
abbrev directory := List (List Char × bitmap_index)

/-- Modelled from the spec: `io::archive(dir_ / name, index)` writes the file,
replacing the content of a file of that name. -/
def serialization.archive (d : directory) (name : List Char) (bmi : bitmap_index) :
    directory :=
  if (d.lookup name).isSome then
    d.map (fun f => if f.1 = name then (f.1, bmi) else f)
  else d ++ [(name, bmi)]

/-- Modelled from the spec: `io::unarchive(dir_ / name, index)` reads the
file; no result when there is no file of that name. -/
def serialization.unarchive (d : directory) (name : List Char) : Option bitmap_index :=
  d.lookup name

/-- The two index members of `meta_fragment`. -/
structure meta_fragment where
  timestamp_ : bitmap_index
  name_ : bitmap_index
  deriving DecidableEq

/-- `meta_fragment::store`, `fragment.cc` lines 83-88. -/
def meta_fragment.store (self : meta_fragment) (d : directory) : directory :=
  let d := serialization.archive d "timestamp.idx".toList self.timestamp_
  serialization.archive d "name.idx".toList self.name_

/-- `meta_fragment::load`, `fragment.cc` lines 76-81; no result when a file is
missing. -/
def meta_fragment.load (self : meta_fragment) (d : directory) : Option meta_fragment :=
  match serialization.unarchive d "timestamp.idx".toList with
  | none => none
  | some ts =>
    match serialization.unarchive d "name.idx".toList with
    | none => none
    | some nm => some { self with timestamp_ := ts, name_ := nm }

/-- `type_fragment::store`, `fragment.cc` lines 132-143. -/
def type_fragment.store (self : type_fragment) (d : directory) : directory :=
  let d := serialization.archive d "bool.idx".toList self.bool_
  let d := serialization.archive d "int.idx".toList self.int_
  let d := serialization.archive d "uint.idx".toList self.uint_
  let d := serialization.archive d "double.idx".toList self.double_
  let d := serialization.archive d "time-range.idx".toList self.time_range_
  let d := serialization.archive d "time-point.idx".toList self.time_point_
  let d := serialization.archive d "string.idx".toList self.string_
  let d := serialization.archive d "address.idx".toList self.address_
  serialization.archive d "port.idx".toList self.port_

/-- `type_fragment::load`, `fragment.cc` lines 119-130; no result when a file
is missing. -/
def type_fragment.load (_self : type_fragment) (d : directory) : Option type_fragment :=
  (serialization.unarchive d "bool.idx".toList).bind fun b =>
  (serialization.unarchive d "int.idx".toList).bind fun i =>
  (serialization.unarchive d "uint.idx".toList).bind fun u =>
  (serialization.unarchive d "double.idx".toList).bind fun db =>
  (serialization.unarchive d "time-range.idx".toList).bind fun tr =>
  (serialization.unarchive d "time-point.idx".toList).bind fun tp =>
  (serialization.unarchive d "string.idx".toList).bind fun s =>
  (serialization.unarchive d "address.idx".toList).bind fun a =>
  (serialization.unarchive d "port.idx".toList).bind fun p =>
  some ⟨b, i, u, db, tr, tp, s, a, p⟩

/-- `argument_fragment::store`, `fragment.cc` lines 219-239: one file per
entry of `indexes_`. -/
def argument_fragment.store (self : argument_fragment) (d : directory) : directory :=
  self.indexes_.foldl
    (fun d p => serialization.archive d (argument_fragment.store_filename p.1) p.2) d

/-- The loop of `argument_fragment::load`, lines 205-216, over the collected
paths: the offset is derived from the name, the index is read, and the pair is
emplaced; no result when the name has no offset or the file cannot be read. -/
def argument_fragment.load_paths (d : directory) :
    List (List Char) → argument_fragment → Option argument_fragment
  | [], self => some self
  | p :: ps, self =>
    match argument_fragment.load_offset p with
    | none => none
    | some o =>
      match serialization.unarchive d p with
      | none => none
      | some bi => argument_fragment.load_paths d ps (self.emplace o bi)

/-- `argument_fragment::load`, `fragment.cc` lines 200-217.  The paths that
`traverse` collects are the names of the files of the directory. -/
def argument_fragment.load (self : argument_fragment) (d : directory) :
    Option argument_fragment :=
  argument_fragment.load_paths d (d.map Prod.fst) self

/-! ## `meta_fragment::index` and the `lookup` functions -/

/-- `meta_fragment::index(e)`, `fragment.cc` lines 90-105.  The result pairs
the fragment after the call with the number of calls of `quit()`.  `quit()` is
a call like any other: the second `if` runs after a failure of the first. -/
def meta_fragment.index (self : meta_fragment) (e : event) : meta_fragment × Nat :=
  let r1 := fragment.append_value self.timestamp_ e.id (.time_point e.timestamp)
  let q1 := if !r1.1 then 1 else 0
  let r2 := fragment.append_value self.name_ e.id (.string e.name)
  let q2 := if !r2.1 then 1 else 0
  ({ self with timestamp_ := r1.2, name_ := r2.2 }, q1 + q2)

/-- A `meta_fragment` whose two indexes are empty. -/
def meta_fragment.fresh : meta_fragment where
  timestamp_ := bitmap_index.create .time_point_type
  name_ := bitmap_index.create .string_type

/-- Modelled from the spec: the class `expression` (`vast/expression.h`) is not
among the sources; no function of the fragments inspects an expression. -/
structure expression where
  text : String
  deriving DecidableEq

/-- `meta_fragment::lookup`, `fragment.cc` lines 107-111: the result and the
fragment after the call. -/
def meta_fragment.lookup (self : meta_fragment) (_x : expression) :
    Option null_bitstream × meta_fragment :=
  (none, self)

/-- `type_fragment::lookup`, `fragment.cc` lines 189-193. -/
def type_fragment.lookup (self : type_fragment) (_x : expression) :
    Option null_bitstream × type_fragment :=
  (none, self)

/-- `argument_fragment::lookup`, `fragment.cc` lines 249-253. -/
def argument_fragment.lookup (self : argument_fragment) (_x : expression) :
    Option null_bitstream × argument_fragment :=
  (none, self)

/-! ## The behaviour of a fragment (`fragment::init`) -/

/-- The messages that the behaviour of `fragment::init` matches. -/
inductive message where
  | kill
  | store
  | event (e : vast.event)
  | expression (x : vast.expression)

/-- The member functions of a fragment that the behaviour calls. -/
inductive call where
  | load
  | mkdir
  | store
  | index
  | lookup
  | quit
  deriving DecidableEq, Repr

/-- What the sender of an expression is answered: the bitstream of the result,
or `atom("miss")`. -/
inductive reply where
  | result (b : null_bitstream)
  | miss
  deriving DecidableEq

/-- The virtual functions of `fragment` as one fragment kind implements them.
`index` also gives the number of its calls of `quit()`. -/
structure fragment_kind (σ : Type) where
  load : σ → directory → Option σ
  store : σ → directory → directory
  index : σ → vast.event → σ × Nat
  lookup : σ → vast.expression → Option null_bitstream × σ

/-- A running fragment: its members, its directory, whether `quit()` has been
called, and the member functions called so far, oldest first. -/
structure fragment_actor (σ : Type) where
  members : σ
  dir_ : directory
  exited : Bool
  calls : List call

/-- `fragment::init`, `fragment.cc` lines 17-25, before `become`: a directory
that exists is loaded, otherwise it is made.  No result when `load` fails. -/
def fragment.init {σ : Type} (k : fragment_kind σ) (self : σ) (dir : Option directory) :
    Option (fragment_actor σ) :=
  match dir with
  | some d =>
    match k.load self d with
    | none => none
    | some s => some ⟨s, d, false, [.load]⟩
  | none => some ⟨self, [], false, [.mkdir]⟩

/-- The behaviour installed by `fragment::init`, lines 26-46, on one message;
the result adds the reply, if one is sent.  A fragment that has called `quit()`
handles no further message. -/
def fragment.handle {σ : Type} (k : fragment_kind σ) (a : fragment_actor σ) :
    message → fragment_actor σ × Option reply
  | .kill =>
    if a.exited then (a, none)
    else
      ({ a with dir_ := k.store a.members a.dir_, exited := true,
                calls := a.calls ++ [.store, .quit] }, none)
  | .store =>
    if a.exited then (a, none)
    else ({ a with dir_ := k.store a.members a.dir_, calls := a.calls ++ [.store] }, none)
  | .event e =>
    if a.exited then (a, none)
    else
      let r := k.index a.members e
      ({ a with members := r.1, exited := decide (0 < r.2),
                calls := a.calls ++ .index :: List.replicate r.2 .quit }, none)
  | .expression x =>
    if a.exited then (a, none)
    else
      let r := k.lookup a.members x
      ({ a with members := r.2, calls := a.calls ++ [.lookup] },
        match r.1 with
        | some b => some (.result b)
        | none => some .miss)

/-- The fragment after a sequence of messages. -/
def fragment.run {σ : Type} (k : fragment_kind σ) (a : fragment_actor σ) :
    List message → fragment_actor σ
  | [] => a
  | m :: ms => fragment.run k (fragment.handle k a m).1 ms

/-- The class `meta_fragment` as a fragment kind. -/
def meta_fragment.kind : fragment_kind meta_fragment where
  load := meta_fragment.load
  store := meta_fragment.store
  index := meta_fragment.index
  lookup := meta_fragment.lookup

/-- The class `type_fragment` as a fragment kind; its `index` has no call of
`quit()`. -/
def type_fragment.kind : fragment_kind type_fragment where
  load := type_fragment.load
  store := type_fragment.store
  index := fun self e => (self.index e, 0)
  lookup := type_fragment.lookup

/-- The class `argument_fragment` as a fragment kind; its `index` has no call
of `quit()`. -/
def argument_fragment.kind : fragment_kind argument_fragment where
  load := argument_fragment.load
  store := argument_fragment.store
  index := fun self e => (self.index e, 0)
  lookup := argument_fragment.lookup

/-! ## How a call of `argument_fragment::load` ends -/

/-- The ways in which a call of `argument_fragment::load` (`fragment.cc`, lines
200-217) ends.  The function has the result type `void` and holds no `throw`
and no `return`: it reaches its end, or the assertion of line 208 fails, which
aborts the program (assertions are taken as compiled in, as for
`null_bitmap_range::scan`), or a helper that is not among the sources has no
result for its argument.

* `returned self`: the end of the function is reached, with the members `self`;
* `assertion_failed`: `assert(str[0] == '@')` fails;
* `conversion_failed`: `to<size_t>` has no number for a piece of the name;
* `unarchive_failed`: `io::unarchive` has no file to read;
* `error e`: the function reports the error `e` of `vast/error.hpp`. -/
inductive load_outcome where
  | returned (self : argument_fragment)
  | assertion_failed
  | conversion_failed
  | unarchive_failed
  | error (e : ec)
  deriving DecidableEq

/-- The members after a call that reached the end of the function. -/
def load_outcome.members : load_outcome → Option argument_fragment
  | .returned self => some self
  | _ => none

/-- The assertion `str[0] == '@'` of `argument_fragment::load`, line 208, on
the name of a file. -/
def argument_fragment.load_assert (name : List Char) : Bool :=
  match basename_stripped name with
  | [] => false
  | c :: _ => decide (c = '@')

/-- The loop of `argument_fragment::load`, lines 205-216, over the collected
paths, with the way it ends: at each path the assertion is tested, the pieces
of the name are converted, the index is read and the pair is emplaced. -/
def argument_fragment.load_paths_outcome (d : directory) :
    List (List Char) → argument_fragment → load_outcome
  | [], self => .returned self
  | p :: ps, self =>
    if argument_fragment.load_assert p = false then .assertion_failed
    else
      match argument_fragment.load_offset p with
      | none => .conversion_failed
      | some o =>
        match serialization.unarchive d p with
        | none => .unarchive_failed
        | some bi => argument_fragment.load_paths_outcome d ps (self.emplace o bi)

/-- `argument_fragment::load`, `fragment.cc` lines 200-217, with the way it
ends.  The paths that `traverse` collects are the names of the files of the
directory. -/
def argument_fragment.load_outcome (self : argument_fragment) (d : directory) :
    load_outcome :=
  argument_fragment.load_paths_outcome d (d.map Prod.fst) self

/-! ## Runs and indexes: auxiliary notions -/

/-- The first value that an index holds, if any. -/
def bitmap_index.first_value (bmi : bitmap_index) : Option value :=
  (bmi.entries.filterMap id).head?

/-- An index `b'` extends an index `b`: it has the type of `b`, and its
entries start with the entries of `b`. -/
def bitmap_index.extends_ (b b' : bitmap_index) : Prop :=
  b'.kind = b.kind ∧ b.entries <+: b'.entries

/-- The map `s'` grows out of the map `s` by appends of the values `leaves`:
every path of `s` is a path of `s'` with an index that extends the one of `s`,
and every path of `s'` that is new holds an index of the type of one of the
values, with that value as its first value. -/
def argument_fragment.grows (leaves : List value) (s s' : argument_fragment) : Prop :=
  (∀ o b, s.find o = some b → ∃ b', s'.find o = some b' ∧ b.extends_ b')
    ∧ (∀ o b', s.find o = none → s'.find o = some b' →
        ∃ v ∈ leaves, b'.kind = v.which ∧ b'.first_value = some v)

/-- A run is uniform with bit value `c` when all its bits equal `c`. -/
def bits.uniform (r : bits) (c : Bool) : Prop :=
  r.expand = List.replicate r.size c

/-- The blocks of a bit vector are words: each is below `2 ^ width`. -/
def bitvector.bounded (bv : bitvector) : Prop :=
  ∀ w ∈ bv.blocks, w < 2 ^ word.width

/-! ## The protocol of a range (`null_bitmap.cpp`) -/

/-- The two entry assertions of `null_bitmap_range::scan`, lines 57-58: the
range refers to a bit vector, and the block cursor is not at the end of the
blocks. -/
def null_bitmap_range.scan_asserts (self : null_bitmap_range) : Bool :=
  match self.bitvector_ with
  | none => false
  | some bv => self.block_ != bv.blocks.length

/-- The state in which the constructor of the range (lines 38-43) calls
`scan()` for a bitmap that is not empty. -/
def null_bitmap_range.start (bm : null_bitmap) : null_bitmap_range :=
  ⟨some bm.bitvector_, 0, ⟨0, 0⟩⟩

/-- The states of a range over the bitmap `bm` in the use the class is made
for: the state the constructor leaves, and the state after `next()` called on
such a state while `done()` is false. -/
inductive null_bitmap_range.reachable (bm : null_bitmap) : null_bitmap_range → Prop where
  | init (r : null_bitmap_range) :
      null_bitmap_range.init bm = some r → null_bitmap_range.reachable bm r
  | next (r r' : null_bitmap_range) :
      null_bitmap_range.reachable bm r → r.done = false → r.next = some r' →
      null_bitmap_range.reachable bm r'

/-! ## The library `ze` as the line parsers use it (`source/file.cc`) -/

/-- The value types of the library `ze` that `source/file.cc` names. -/
inductive ze.value_type where
  | invalid_type
  | bool_type
  | int_type
  | uint_type
  | double_type
  | duration_type
  | timepoint_type
  | string_type
  | regex_type
  | address_type
  | prefix_type
  | port_type
  | set_type
  deriving DecidableEq, Repr

/-- The transport protocols of `ze::port` that `bro15conn::parse` names. -/
inductive ze.port_type where
  | unknown
  | tcp
  | udp
  | icmp
  deriving DecidableEq, Repr

/-- The calls into the library `ze` made by the line parsers.  The library is
not among the sources, so the parsers are embedded over any implementation of
these calls; `α` stands for the class `ze::value`.

* `split sep max line`: `field_splitter::split` after `sep(...)` when a
  separator is given, with the limit `max` on the number of fields when one is
  given; the result lists, for each field, the positions `start(f)` and
  `end(f)` in the line.
* `value_parse t s`: `ze::value::parse(t, i, j)` on the text `s` between `i`
  and `j`; the result is the value and the text left between `i` and `j`
  afterwards (`i != j` when it is not empty).
* `string_parse s`: `ze::string::parse(i, j)`, likewise.
* `set_parse t s sep`: `ze::set::parse(t, start, end, sep)`.
* `construct t`: the value that `emplace_back(t)` builds from a type.
* `get_string v`: `v.get<ze::string>()`.
* `set_port_type v p`: `v.get<ze::port>().type(p)`.
* `now`: the reading of `ze::clock::now()`. -/
structure ze.library (α : Type) where
  split : Option (List Char) → Option Nat → List Char → List (Nat × Nat)
  nil : α
  construct : ze.value_type → α
  value_parse : ze.value_type → List Char → α × List Char
  string_parse : List Char → α × List Char
  set_parse : ze.value_type → List Char → List Char → α
  get_string : α → List Char
  set_port_type : α → ze.port_type → α
  now : Nat

/-- The class `ze::event` as the parsers fill it: a name, a timestamp and the
values pushed, in order. -/
structure ze.event (α : Type) where
  name : String
  timestamp : Nat
  values : List α

/-- The text of a line between the positions `start` and `end`. -/
def ze.field (line_ : List Char) (p : Nat × Nat) : List Char :=
  (line_.drop p.1).take (p.2 - p.1)

/-! ## `bro15conn::parse` (`source/file.cc`, lines 316-460) -/

/-- The pattern `v = parse(i, j); if (i != j) throw error::parse(msg)` of
`bro15conn::parse`. -/
def source.bro15conn.checked {α : Type} (r : α × List Char) (msg : String) :
    Except String α :=
  if r.2 ≠ [] then .error msg else .ok r.1

/-- The pattern of lines 336-345, 364-373, 411-420 and 424-433: the field is
nil when its first character `*i` is a question mark, and is parsed with the
type `t` otherwise. -/
def source.bro15conn.optional {α : Type} (z : ze.library α) (line_ : List Char)
    (p : Nat × Nat) (t : ze.value_type) (msg : String) : Except String α :=
  if line_[p.1]? = some '?' then .ok z.nil
  else source.bro15conn.checked (z.value_parse t (ze.field line_ p)) msg

/-- The body of `bro15conn::parse` after the line has been split, lines
323-459: `fs` lists the positions of the fields.  The result is the event, or
the message of the `error::parse` thrown. -/
def source.bro15conn.parse_fields {α : Type} (z : ze.library α) (line_ : List Char)
    (fs : List (Nat × Nat)) : Except String (ze.event α) :=
  if ¬ (fs.length = 12 ∨ fs.length = 13) then
    .error "not enough conn.log fields (at least 12 needed)"
  else do
    -- Timestamp
    let ts ← source.bro15conn.checked
      (z.value_parse .timepoint_type (ze.field line_ (fs.getD 0 (0, 0))))
      "invalid conn.log timestamp (field 1)"
    -- Duration
    let duration ← source.bro15conn.optional z line_ (fs.getD 1 (0, 0)) .duration_type
      "invalid conn.log duration (field 2)"
    -- Originator address
    let orig_h ← source.bro15conn.checked
      (z.value_parse .address_type (ze.field line_ (fs.getD 2 (0, 0))))
      "invalid conn.log originating address (field 3)"
    -- Responder address
    let resp_h ← source.bro15conn.checked
      (z.value_parse .address_type (ze.field line_ (fs.getD 3 (0, 0))))
      "invalid conn.log responding address (field 4)"
    -- Service
    let service ← source.bro15conn.optional z line_ (fs.getD 4 (0, 0)) .string_type
      "invalid conn.log service (field 5)"
    -- Ports and protocol
    let orig_p ← source.bro15conn.checked
      (z.value_parse .port_type (ze.field line_ (fs.getD 5 (0, 0))))
      "invalid conn.log originating port (field 6)"
    let resp_p ← source.bro15conn.checked
      (z.value_parse .port_type (ze.field line_ (fs.getD 6 (0, 0))))
      "invalid conn.log responding port (field 7)"
    let proto ← source.bro15conn.checked
      (z.value_parse .string_type (ze.field line_ (fs.getD 7 (0, 0))))
      "invalid conn.log proto (field 8)"
    let str := z.get_string proto
    let p : ze.port_type :=
      if str = "tcp".toList then .tcp
      else if str = "udp".toList then .udp
      else if str = "icmp".toList then .icmp
      else .unknown
    -- Originator and responder bytes
    let orig_bytes ← source.bro15conn.optional z line_ (fs.getD 8 (0, 0)) .uint_type
      "invalid conn.log originating bytes (field 9)"
    let resp_bytes ← source.bro15conn.optional z line_ (fs.getD 8 (0, 0)) .uint_type
      "invalid conn.log responding bytes (field 10)"
    -- Connection state
    let state ← source.bro15conn.checked
      (z.string_parse (ze.field line_ (fs.getD 10 (0, 0))))
      "invalid conn.log connection state (field 11)"
    -- Direction
    let direction ← source.bro15conn.checked
      (z.string_parse (ze.field line_ (fs.getD 11 (0, 0))))
      "invalid conn.log direction (field 12)"
    let vs := [ts, duration, orig_h, resp_h, service, z.set_port_type orig_p p,
      z.set_port_type resp_p p, proto, orig_bytes, resp_bytes, state, direction]
    -- Additional information
    if fs.length = 13 then do
      let addl ← source.bro15conn.checked
        (z.string_parse (ze.field line_ (fs.getD 12 (0, 0))))
        "invalid conn.log direction (field 12)"
      .ok ⟨"bro::conn", z.now, vs ++ [addl]⟩
    else
      .ok ⟨"bro::conn", z.now, vs⟩

/-- `bro15conn::parse`, lines 316-460: the line is split into at most 13
fields with the separator the splitter starts with. -/
def source.bro15conn.parse {α : Type} (z : ze.library α) (line_ : List Char) :
    Except String (ze.event α) :=
  source.bro15conn.parse_fields z line_ (z.split none (some 13) line_)

/-! ## `bro2::parse` (`source/file.cc`, lines 252-307) -/

/-- The members of `bro2` that the header of a log sets. -/
structure source.bro2 where
  separator_ : List Char
  set_separator_ : List Char
  empty_field_ : List Char
  unset_field_ : List Char
  path_ : String
  field_names_ : List (List Char)
  field_types_ : List ze.value_type
  set_types_ : List ze.value_type

/-- The loops of lines 269-276 and 284-291 from the index `i` on, `marker`
being the rest of the marker from that index: the flag stays `true` unless a
character of the marker differs from the character `*(start + i)` of the line;
a read behind the last character of the line differs from every character. -/
def source.bro2.marker_loop (line_ : List Char) (start : Nat) : List Char → Nat → Bool
  | [], _ => true
  | c :: cs, i =>
    if some c ≠ line_[start + i]? then false
    else source.bro2.marker_loop line_ start cs (i + 1)

/-- The positions of the line that the loop of lines 269-276 (284-291) reads,
in order. -/
def source.bro2.marker_reads (line_ : List Char) (start : Nat) : List Char → Nat → List Nat
  | [], _ => []
  | c :: cs, i =>
    (start + i) ::
      (if some c ≠ line_[start + i]? then []
       else source.bro2.marker_reads line_ start cs (i + 1))

/-- The loop over the fields of `bro2::parse`, lines 263-304, from the field
`f` on: `fs` and `types` are the positions and the types `field_types_[f]` of
the fields still to come, `sets` is the counter of the set fields met.  The
result is the list of the values pushed; there is none when `field_types_` or
`set_types_` is read outside its bounds. -/
def source.bro2.parse_loop {α : Type} (z : ze.library α) (self : source.bro2)
    (line_ : List Char) : List (Nat × Nat) → List ze.value_type → Nat → Option (List α)
  | [], _, _ => some []
  | _ :: _, [], _ => none
  | p :: fs, t :: types, sets =>
    if source.bro2.marker_loop line_ p.1 self.unset_field_ 0 then
      (source.bro2.parse_loop z self line_ fs types sets).map (fun vs => z.nil :: vs)
    else if source.bro2.marker_loop line_ p.1 self.empty_field_ 0 then
      (source.bro2.parse_loop z self line_ fs types sets).map (fun vs => z.construct t :: vs)
    else if t = .set_type then
      match self.set_types_[sets]? with
      | none => none
      | some st =>
        (source.bro2.parse_loop z self line_ fs types (sets + 1)).map
          (fun vs => z.set_parse st (ze.field line_ p) self.set_separator_ :: vs)
    else
      (source.bro2.parse_loop z self line_ fs types sets).map
        (fun vs => (z.value_parse t (ze.field line_ p)).1 :: vs)

/-- `bro2::parse`, lines 252-307.  The result is the event, or the message of
the `error::parse` thrown; there is none when a vector is read outside its
bounds. -/
def source.bro2.parse {α : Type} (z : ze.library α) (self : source.bro2)
    (line_ : List Char) : Option (Except String (ze.event α)) :=
  let fs := z.split (some self.separator_) none line_
  if fs.length ≠ self.field_types_.length then
    some (.error "inconsistent number of fields")
  else
    (source.bro2.parse_loop z self line_ fs self.field_types_ 0).map
      (fun vs => .ok ⟨self.path_, z.now, vs⟩)

/-! ## A small implementation of the library calls -/

/-- The fields of a line separated by the character `sep`, as positions; `m`
is the number of fields still allowed (0 for no limit): the last field allowed
takes the rest of the line.  `pos` is the position of the first character of
the list, `start` the position where the current field starts. -/
def ze.simple.split_at (sep : Char) : Nat → List Char → Nat → Nat → List (Nat × Nat)
  | _, [], pos, start => [(start, pos)]
  | m, c :: cs, pos, start =>
    if c = sep ∧ m ≠ 1 then
      (start, pos) :: ze.simple.split_at sep (m - 1) cs (pos + 1) (pos + 1)
    else ze.simple.split_at sep m cs (pos + 1) start

/-- A small implementation of the library calls, to run the parsers on
concrete lines: fields are separated by the first character of the separator
given (a blank when none is given); a field of the unsigned integer type is
read as a decimal number, a field of the integer type as a decimal number
with an optional minus sign, and a text that is no such number is left unread;
a field of any other type is read in full as a string. -/
def ze.simple : ze.library value where
  split := fun sep max line_ =>
    ze.simple.split_at (((sep.getD [' ']).head?).getD ' ') (max.getD 0) line_ 0 0
  nil := .nil
  construct := fun _ => .string ""
  value_parse := fun t s =>
    if t = .uint_type then
      match to_size_t s with
      | some n => (.uint n, [])
      | none => (.nil, s)
    else if t = .int_type then
      match s with
      | '-' :: ds =>
        match to_size_t ds with
        | some n => (.int (- (n : Int)), [])
        | none => (.nil, s)
      | _ =>
        match to_size_t s with
        | some n => (.int (n : Int), [])
        | none => (.nil, s)
    else (.string (String.mk s), [])
  string_parse := fun s => (.string (String.mk s), [])
  set_parse := fun _ s _ => .string (String.mk s)
  get_string := fun v =>
    match v with
    | .string s => s.toList
    | _ => []
  set_port_type := fun v _ => v
  now := 0

/-! ## `broccoli::subscribe` (`source/broccoli.cc`, lines 35-42) -/

/-- The position that `std::lower_bound(first, last, value)` returns on a
sorted range: the first position whose element is not less than `value`, the
end of the range when there is none.  A `std::string` is the list of its
characters, compared in lexicographic order. -/
def lower_bound (l : List (List Char)) (value : List Char) : Nat :=
  (l.takeWhile (fun x => decide (x < value))).length

/-- `broccoli::subscribe`, lines 35-42, on the member `event_names_`. -/
def source.broccoli.subscribe (event_names_ : List (List Char)) (event : List Char) :
    List (List Char) :=
  let i := lower_bound event_names_ event
  match event_names_[i]? with
  | none => event_names_ ++ [event]
  | some x =>
    if event < x then event_names_.take i ++ event :: event_names_.drop i
    else event_names_

/-! ## Properties of `fragment::append_value` -/

theorem fragment.append_value_gap (bmi : bitmap_index) (id : Nat) (v : value)
    (h : bmi.size < id) :
    fragment.append_value bmi id v =
      (true, ⟨bmi.kind, bmi.entries ++ List.replicate (id - bmi.size - 1) none ++ [some v]⟩) := by
  unfold fragment.append_value
  have h1 : ¬ id < bmi.size := by omega
  simp only [h1, if_false]
  by_cases h2 : id - bmi.size > 1
  · simp [h2, bitmap_index.append, bitmap_index.push_back]
  · have h3 : id - bmi.size - 1 = 0 := by omega
    simp [h2, h3, bitmap_index.push_back]

/-- C1, as the code behaves: on an empty index `append_value` at id 5 succeeds
but leaves the index with size 5, not 6; the value is at position 4 and no
entry exists at position 5. -/
theorem append_value_empty_at_5 (k : value_type) (v : value) :
    fragment.append_value (bitmap_index.create k) 5 v
        = (true, ⟨k, [none, none, none, none, some v]⟩)
      ∧ (fragment.append_value (bitmap_index.create k) 5 v).2.size = 5
      ∧ (fragment.append_value (bitmap_index.create k) 5 v).2.entries[4]? = some (some v)
      ∧ (fragment.append_value (bitmap_index.create k) 5 v).2.entries[5]? = none := by
  have h : fragment.append_value (bitmap_index.create k) 5 v
      = (true, ⟨k, [none, none, none, none, some v]⟩) := by
    simp [fragment.append_value, bitmap_index.create, bitmap_index.size,
      bitmap_index.append, bitmap_index.push_back, List.replicate]
  rw [h]
  simp [bitmap_index.size]

/-- C3: an `append_value` at an id below the current size of the index returns
`false` and leaves the index as it was. -/
theorem append_value_out_of_order (bmi : bitmap_index) (id : Nat) (v : value)
    (h : id < bmi.size) :
    fragment.append_value bmi id v = (false, bmi) := by
  simp [fragment.append_value, h]

theorem append_value_out_of_order_witness :
    2 < (bitmap_index.mk .int_type [none, none, some (.int 1)]).size
      ∧ fragment.append_value ⟨.int_type, [none, none, some (.int 1)]⟩ 2 (.int 9)
          = (false, ⟨.int_type, [none, none, some (.int 1)]⟩) :=
  ⟨by decide, append_value_out_of_order _ 2 (.int 9) (by decide)⟩

/-- C9, as the code behaves: from the empty index, `append_value` at id 5
succeeds and leaves size 5 (the highest id that succeeded, not that id plus
one), and a second `append_value` at the same id 5 succeeds again. -/
theorem append_value_same_id_twice (k : value_type) (v w : value) :
    (fragment.append_value (bitmap_index.create k) 5 v).1 = true
      ∧ (fragment.append_value (bitmap_index.create k) 5 v).2.size = 5
      ∧ fragment.append_value (fragment.append_value (bitmap_index.create k) 5 v).2 5 w
          = (true, ⟨k, [none, none, none, none, some v, some w]⟩) := by
  have h : fragment.append_value (bitmap_index.create k) 5 v
      = (true, ⟨k, [none, none, none, none, some v]⟩) := by
    simp [fragment.append_value, bitmap_index.create, bitmap_index.size,
      bitmap_index.append, bitmap_index.push_back, List.replicate]
  rw [h]
  simp [fragment.append_value, bitmap_index.size, bitmap_index.push_back]

/-! ## Properties of `type_fragment::index` -/

theorem first_occurrences_mem (r : List value) (v : value) :
    v ∈ first_occurrences r ↔ v ∈ r := by
  induction r with
  | nil => simp [first_occurrences]
  | cons x xs ih =>
    simp only [first_occurrences, List.mem_cons, List.mem_filter, ih, decide_eq_true_eq]
    by_cases h : v = x <;> simp [h]

theorem first_occurrences_nodup (r : List value) : (first_occurrences r).Nodup := by
  induction r with
  | nil => simp [first_occurrences]
  | cons x xs ih =>
    simp only [first_occurrences, List.nodup_cons, List.mem_filter, decide_eq_true_eq]
    exact ⟨fun h => h.2 rfl, ih.filter _⟩

theorem first_occurrences_sublist (r : List value) : (first_occurrences r).Sublist r := by
  induction r with
  | nil => simp [first_occurrences]
  | cons x xs ih =>
    simp only [first_occurrences]
    exact ((List.filter_sublist _).trans ih).cons₂ x

theorem type_fragment.index_for_eq (id : Nat) (r unique : List value)
    (self : type_fragment) :
    type_fragment.index_for id r unique self
      = ((first_occurrences r).filter (fun x => decide (x ∉ unique))).foldl
          (fun s v => (type_fragment.index_impl s id v).2) self := by
  induction r generalizing unique self with
  | nil => simp [type_fragment.index_for, first_occurrences]
  | cons v vs ih =>
    simp only [type_fragment.index_for, first_occurrences]
    by_cases h : v ∈ unique
    · simp only [h, if_true, ih, List.filter_cons, not_true_eq_false, decide_False,
        List.filter_filter]
      congr 1
      apply List.filter_congr
      intro x _
      by_cases hx : x ∈ unique
      · simp [hx]
      · have : x ≠ v := fun e => hx (e ▸ h)
        simp [hx, this]
    · simp only [h, if_false, ih, List.filter_cons, not_false_eq_true, decide_True,
        List.filter_filter, if_true, List.foldl_cons]
      congr 1
      apply List.filter_congr
      intro x _
      simp [List.mem_cons, not_or, Bool.and_comm]

/-- C5: `type_fragment::index` passes to `index_impl` exactly the top-level
values of the event at their first occurrence, each once and in order (a value
equal to an earlier one is skipped); these are pairwise different and every
top-level value is among them.  For the record `[5, 5, "x"]` at ID 0 on empty
indexes the integer index gains the single entry 5, the string index the
single entry "x", and the other indexes stay empty. -/
theorem type_fragment_index_first_occurrences :
    (∀ (self : type_fragment) (e : event),
        self.index e = (first_occurrences e.fields).foldl
          (fun s v => (type_fragment.index_impl s e.id v).2) self)
      ∧ (∀ r : List value, (first_occurrences r).Nodup
          ∧ (first_occurrences r).Sublist r
          ∧ ∀ v, v ∈ first_occurrences r ↔ v ∈ r)
      ∧ first_occurrences [.int 5, .int 5, .string "x"] = [.int 5, .string "x"]
      ∧ type_fragment.fresh.index ⟨0, 0, "e", [.int 5, .int 5, .string "x"]⟩
          = { type_fragment.fresh with
              int_ := ⟨.int_type, [some (.int 5)]⟩,
              string_ := ⟨.string_type, [some (.string "x")]⟩ } := by
  refine ⟨?_, ?_, by decide, by decide⟩
  · intro self e
    simp [type_fragment.index, type_fragment.index_for_eq]
  · intro r
    exact ⟨first_occurrences_nodup r, first_occurrences_sublist r,
      first_occurrences_mem r⟩

/-! ## Properties of `argument_fragment::index` -/

/-- C4, as the code behaves: for the record `[1, [2, 3], 4]` at ID 7 on a fresh
fragment the four values are appended under the offset-paths `[0]`, `[1,0]`,
`[1,1]` and `[1]`: the scalar after the nested record lands at `[1]`, and no
index exists for the path `[2]`. -/
theorem argument_fragment_index_nested_then_scalar :
    argument_fragment.fresh.index
        ⟨7, 0, "e", [.int 1, .record [.int 2, .int 3], .int 4]⟩
      = ⟨[([0], ⟨.int_type, [none, none, none, none, none, none, some (.int 1)]⟩),
          ([1, 0], ⟨.int_type, [none, none, none, none, none, none, some (.int 2)]⟩),
          ([1, 1], ⟨.int_type, [none, none, none, none, none, none, some (.int 3)]⟩),
          ([1], ⟨.int_type, [none, none, none, none, none, none, some (.int 4)]⟩)]⟩
      ∧ (argument_fragment.fresh.index
          ⟨7, 0, "e", [.int 1, .record [.int 2, .int 3], .int 4]⟩).find [2] = none := by
  decide

/-- C10, as the code behaves: for the record `[[2], [3]]` at ID 7 on a fresh
fragment the leaves of the two sibling nested records are both appended to the
index of the one offset-path `[0,0]`. -/
theorem argument_fragment_index_sibling_records_collide :
    argument_fragment.fresh.index ⟨7, 0, "e", [.record [.int 2], .record [.int 3]]⟩
      = ⟨[([0, 0], ⟨.int_type,
            [none, none, none, none, none, none, some (.int 2), some (.int 3)]⟩)]⟩ := by
  decide

/-! ## Bit vectors and their bit sequences -/

theorem word.testBit_of_bits (l : List Bool) (i : Nat) :
    (word.of_bits l).testBit i = l.getD i false := by
  induction l generalizing i with
  | nil => simp [word.of_bits]
  | cons b bs ih =>
    cases i with
    | zero =>
      cases b <;> simp [word.of_bits, Nat.testBit_zero, Nat.add_mod]
    | succ j =>
      have h : (b.toNat + 2 * word.of_bits bs) / 2 = word.of_bits bs := by
        cases b <;> simp only [Bool.toNat, cond_true, cond_false] <;> omega
      simp [word.of_bits, Nat.testBit_succ, h, ih]

theorem bitvector.size_of_bits (l : List Bool) : (bitvector.of_bits l).size = l.length := rfl

theorem bitvector.length_blocks_of_bits (l : List Bool) :
    (bitvector.of_bits l).blocks.length = (l.length + 63) / 64 := by
  simp [bitvector.of_bits, word.width]

theorem bitvector.get_of_bits (l : List Bool) (i : Nat) :
    (bitvector.of_bits l).get i = l.getD i false := by
  unfold bitvector.get bitvector.of_bits
  simp only [word.width]
  by_cases h : i / 64 < (l.length + (64 - 1)) / 64
  · rw [List.getD_eq_getElem _ _ (by simpa using h)]
    simp only [List.getElem_map, List.getElem_range, word.testBit_of_bits]
    have hm : i % 64 < 64 := Nat.mod_lt _ (by decide)
    have hi : 64 * (i / 64) + i % 64 = i := Nat.div_add_mod i 64
    simp only [List.getD_eq_getElem?_getD, List.getElem?_take, hm, if_true,
      List.getElem?_drop, hi]
  · have hi : l.length ≤ i := by omega
    rw [List.getD_eq_default _ _ (by simpa using h)]
    simp [List.getElem?_eq_none hi]

theorem bitvector.length_bits (bv : bitvector) : bv.bits.length = bv.size := by
  simp [bitvector.bits]

theorem bitvector.getD_bits (bv : bitvector) (i : Nat) (h : i < bv.size) :
    bv.bits.getD i false = bv.get i := by
  simp [bitvector.bits, List.getD_eq_getElem?_getD, List.getElem?_map, List.getElem?_range h]

theorem bitvector.bits_of_bits (l : List Bool) : (bitvector.of_bits l).bits = l := by
  apply List.ext_getElem
  · simp [bitvector.bits, bitvector.of_bits]
  · intro i h1 h2
    simp only [bitvector.bits, List.getElem_map, List.getElem_range, bitvector.get_of_bits]
    simp [List.getElem?_eq_getElem h2]

theorem bitvector.combine_spec (u : bitvector.unequal) (f : Bool → Bool → Bool)
    (x y : bitvector) (i : Nat) (hs : x.size = y.size) (hi : i < x.size) :
    (bitvector.combine u f x y).1 = none
      ∧ (bitvector.combine u f x y).2.size = x.size
      ∧ (bitvector.combine u f x y).2.get i = f (x.get i) (y.get i) := by
  have hy : i < y.size := hs ▸ hi
  simp only [bitvector.combine, hs, ne_eq, not_true_eq_false, if_false,
    bitvector.size_of_bits, bitvector.get_of_bits, List.length_zipWith,
    bitvector.length_bits, min_self, true_and]
  have h1 : i < (List.zipWith f x.bits y.bits).length := by
    simp [bitvector.length_bits, hs, hy]
  rw [List.getD_eq_getElem _ _ h1, List.getElem_zipWith]
  have hx' := bitvector.getD_bits x i hi
  have hy' := bitvector.getD_bits y i hy
  rw [List.getD_eq_getElem _ _ (by simpa [bitvector.length_bits] using hi)] at hx'
  rw [List.getD_eq_getElem _ _ (by simpa [bitvector.length_bits] using hy)] at hy'
  rw [hx', hy']

/-! ## Properties of the `null_bitstream` operators -/

/-- C7: for two bitstreams of equal size and every position `i` below that
size, each of `&=`, `|=`, `^=`, `-=` completes without error, leaves the left
operand with its size, and makes its bit `i` the conjunction, disjunction,
inequality, respectively difference of the two bits at `i` before the call;
this holds whatever the operators of `bitvector` do with operands of unequal
size. -/
theorem null_bitstream_combine_elementwise (u : bitvector.unequal) (x y : null_bitstream)
    (i : Nat) (hs : x.size = y.size) (hi : i < x.size) :
    ((x.and_assign u y).1 = none ∧ (x.and_assign u y).2.size = x.size
        ∧ (x.and_assign u y).2.get i = (x.get i && y.get i))
      ∧ ((x.or_assign u y).1 = none ∧ (x.or_assign u y).2.size = x.size
        ∧ (x.or_assign u y).2.get i = (x.get i || y.get i))
      ∧ ((x.xor_assign u y).1 = none ∧ (x.xor_assign u y).2.size = x.size
        ∧ (x.xor_assign u y).2.get i = (x.get i != y.get i))
      ∧ ((x.sub_assign u y).1 = none ∧ (x.sub_assign u y).2.size = x.size
        ∧ (x.sub_assign u y).2.get i = (x.get i && !y.get i)) :=
  ⟨bitvector.combine_spec u _ x.bits_ y.bits_ i hs hi,
   bitvector.combine_spec u _ x.bits_ y.bits_ i hs hi,
   bitvector.combine_spec u _ x.bits_ y.bits_ i hs hi,
   bitvector.combine_spec u _ x.bits_ y.bits_ i hs hi⟩

theorem null_bitstream_combine_elementwise_witness :
    (null_bitstream.mk (bitvector.of_bits [true, true, false])).size
        = (null_bitstream.mk (bitvector.of_bits [true, false, false])).size
      ∧ 1 < (null_bitstream.mk (bitvector.of_bits [true, true, false])).size
      ∧ ((null_bitstream.mk (bitvector.of_bits [true, true, false])).and_assign
          (fun a _ => (none, a)) ⟨bitvector.of_bits [true, false, false]⟩).2.get 1 = false
      ∧ ((null_bitstream.mk (bitvector.of_bits [true, true, false])).or_assign
          (fun a _ => (none, a)) ⟨bitvector.of_bits [true, false, false]⟩).2.get 1 = true
      ∧ ((null_bitstream.mk (bitvector.of_bits [true, true, false])).xor_assign
          (fun a _ => (none, a)) ⟨bitvector.of_bits [true, false, false]⟩).2.get 1 = true
      ∧ ((null_bitstream.mk (bitvector.of_bits [true, true, false])).sub_assign
          (fun a _ => (none, a)) ⟨bitvector.of_bits [true, false, false]⟩).2.get 1 = true :=
  have h := null_bitstream_combine_elementwise (fun a _ => (none, a))
    ⟨bitvector.of_bits [true, true, false]⟩ ⟨bitvector.of_bits [true, false, false]⟩ 1
    (by decide) (by decide)
  ⟨by decide, by decide, h.1.2.2.trans (by decide), h.2.1.2.2.trans (by decide),
    h.2.2.1.2.2.trans (by decide), h.2.2.2.2.2.trans (by decide)⟩

/-! ## Segments of a bit vector and the bits of a run -/

theorem bitvector.segment_zero (bv : bitvector) (a : Nat) : bv.segment a 0 = [] := by
  simp [bitvector.segment]

theorem bitvector.segment_add (bv : bitvector) (a m k : Nat) :
    bv.segment a (m + k) = bv.segment a m ++ bv.segment (a + m) k := by
  simp only [bitvector.segment, ← List.map_append]
  congr 1
  rw [Nat.add_comm m k]
  exact (List.range'_append_1 a m k).symm

theorem bitvector.bits_eq_segment (bv : bitvector) : bv.bits = bv.segment 0 bv.size := by
  simp [bitvector.bits, bitvector.segment, List.range_eq_range']

theorem bitvector.length_segment (bv : bitvector) (a m : Nat) :
    (bv.segment a m).length = m := by
  simp [bitvector.segment]

theorem bitvector.segment_eq_replicate (bv : bitvector) (a m : Nat) (c : Bool)
    (h : ∀ i, a ≤ i → i < a + m → bv.get i = c) :
    bv.segment a m = List.replicate m c := by
  rw [List.eq_replicate_iff]
  refine ⟨bv.length_segment a m, ?_⟩
  intro x hx
  simp only [bitvector.segment, List.mem_map, List.mem_range'_1] at hx
  obtain ⟨i, ⟨h1, h2⟩, rfl⟩ := hx
  exact h i h1 h2

theorem bitvector.get_block (bv : bitvector) (k j : Nat) (w : Nat)
    (hk : bv.blocks[k]? = some w) (hj : j < 64) :
    bv.get (64 * k + j) = w.testBit j := by
  have h1 : (64 * k + j) / 64 = k := by omega
  have h2 : (64 * k + j) % 64 = j := by omega
  simp [bitvector.get, word.width, h1, h2, List.getD_eq_getElem?_getD, hk]

theorem bitvector.segment_block (bv : bitvector) (k m : Nat) (w : Nat)
    (hk : bv.blocks[k]? = some w) (hm : m ≤ 64) :
    bv.segment (64 * k) m = (List.range m).map w.testBit := by
  apply List.ext_getElem
  · simp [bitvector.segment]
  · intro i h1 h2
    have hi : i < m := by simpa [bitvector.segment] using h1
    simp only [bitvector.segment, List.getElem_map, List.getElem_range', List.getElem_range,
      Nat.one_mul]
    exact bv.get_block k i w hk (by omega)

theorem word.all_or_none_testBit (data : Nat) (h : word.all_or_none data = true)
    (i : Nat) (hi : i < 64) : data.testBit i = data.testBit 0 := by
  simp only [word.all_or_none, word.all, word.width, Bool.or_eq_true, beq_iff_eq] at h
  rcases h with h | h
  · rw [h, Nat.testBit_two_pow_sub_one, Nat.testBit_two_pow_sub_one]
    simp [hi]
  · subst h
    simp

theorem word.testBit_eq_of_mask_eq (x y p j : Nat)
    (h : x &&& word.mask p = y &&& word.mask p) (hj : j < p) :
    x.testBit j = y.testBit j := by
  have h1 := congrArg (fun z => Nat.testBit z j) h
  simpa [word.mask, Nat.testBit_and, Nat.testBit_two_pow_sub_one, hj] using h1

theorem bits.length_expand (b : bits) : b.expand.length = b.size := by
  unfold bits.expand
  split <;> simp

theorem bits.expand_block (w k : Nat) (hk : k ≤ 64) :
    (bits.mk w k).expand = (List.range k).map w.testBit := by
  simp [bits.expand, word.width, hk]

theorem bits.expand_uniform (data n : Nat) (h : word.all_or_none data = true)
    (hn : 64 ≤ n) : (bits.mk data n).expand = List.replicate n (data.testBit 0) := by
  unfold bits.expand
  simp only [word.width]
  split
  · have : n = 64 := by omega
    subst this
    rw [List.eq_replicate_iff]
    refine ⟨by simp, ?_⟩
    intro x hx
    simp only [List.mem_map, List.mem_range] at hx
    obtain ⟨i, hi, rfl⟩ := hx
    exact word.all_or_none_testBit data h i hi
  · rfl

/-! ## The loop of `scan` -/

theorem null_bitmap_range.scan_while_spec (blocks : List Nat) (last data : Nat)
    (hl : last < blocks.length) :
    ∀ (fuel k n : Nat), k < last → last - k ≤ fuel →
      ∃ k', null_bitmap_range.scan_while blocks last data fuel k n
            = some (k', n + 64 * (k' - k - 1))
        ∧ k < k' ∧ k' ≤ last
        ∧ (∀ j, k < j → j < k' → blocks[j]? = some data)
        ∧ (k' ≠ last → blocks[k']? ≠ some data) := by
  intro fuel
  induction fuel with
  | zero => intro k n h1 h2; omega
  | succ f ih =>
    intro k n h1 h2
    unfold null_bitmap_range.scan_while
    by_cases h3 : k + 1 = last
    · refine ⟨k + 1, ?_, by omega, by omega, ?_, ?_⟩
      · have h0 : k + 1 - k - 1 = 0 := by omega
        simp [h3.symm, h0]
      · intro j h4 h5; omega
      · intro h; exact absurd h3 h
    · have h4 : k + 1 < blocks.length := by omega
      simp only [ne_eq, h3, not_false_eq_true, if_true, List.getElem?_eq_getElem h4]
      by_cases h5 : blocks[k + 1] = data
      · simp only [h5, if_true]
        obtain ⟨k', e, a1, a2, a3, a4⟩ := ih (k + 1) (n + word.width) (by omega) (by omega)
        refine ⟨k', ?_, by omega, a2, ?_, a4⟩
        · rw [e]
          have : n + word.width + 64 * (k' - (k + 1) - 1) = n + 64 * (k' - k - 1) := by
            simp only [word.width]; omega
          rw [this]
        · intro j h6 h7
          by_cases h8 : j = k + 1
          · subst h8; simp [List.getElem?_eq_getElem h4, h5]
          · exact a3 j (by omega) h7
      · refine ⟨k + 1, ?_, by omega, by omega, ?_, ?_⟩
        · simp [h5]
        · intro j h6 h7; omega
        · intro _; simp [List.getElem?_eq_getElem h4, h5]

theorem bitvector.wf_iff (bv : bitvector) :
    bv.wf ↔ bv.blocks.length = (bv.size + 63) / 64 := Iff.rfl

theorem bitvector.segment_uniform (bv : bitvector) (k k' data p : Nat)
    (hu : word.all_or_none data = true) (hp : p ≤ 64) (hk : k ≤ k')
    (hB : ∀ j, k ≤ j → j < k' → bv.blocks[j]? = some data)
    (hw : ∀ j, j < p → ∃ w, bv.blocks[k']? = some w ∧ w.testBit j = data.testBit j) :
    bv.segment (64 * k) (64 * (k' - k) + p)
      = List.replicate (64 * (k' - k) + p) (data.testBit 0) := by
  apply bitvector.segment_eq_replicate
  intro i h1 h2
  have hi : 64 * (i / 64) + i % 64 = i := Nat.div_add_mod i 64
  have hm : i % 64 < 64 := Nat.mod_lt _ (by decide)
  by_cases h3 : i / 64 < k'
  · rw [← hi, bv.get_block (i / 64) (i % 64) data (hB _ (by omega) h3) hm]
    exact word.all_or_none_testBit data hu _ hm
  · have h4 : i / 64 = k' := by omega
    obtain ⟨w, e1, e2⟩ := hw (i % 64) (by omega)
    rw [← hi, h4, bv.get_block k' (i % 64) w e1 hm, e2]
    exact word.all_or_none_testBit data hu _ hm

/-! ## One step of the range -/

set_option maxHeartbeats 800000 in
theorem null_bitmap_range.scan_spec (bv : bitvector) (hwf : bv.wf)
    (r : null_bitmap_range) (hb : r.bitvector_ = some bv)
    (hk : r.block_ < bv.blocks.length) :
    ∃ r', r.scan = some r' ∧ r'.bitvector_ = some bv ∧ r.block_ < r'.block_
      ∧ r'.block_ ≤ bv.blocks.length
      ∧ r'.bits_.size = min (64 * r'.block_) bv.size - 64 * r.block_
      ∧ r'.bits_.expand
          = bv.segment (64 * r.block_) (min (64 * r'.block_) bv.size - 64 * r.block_)
      ∧ (r'.block_ < bv.blocks.length →
          r.block_ < bv.blocks.length - 1
          ∧ (word.all_or_none (bv.blocks.getD r.block_ 0) = false
            ∨ (r'.block_ < bv.blocks.length - 1
                ∧ bv.blocks[r'.block_]? ≠ some (bv.blocks.getD r.block_ 0))
            ∨ (r'.block_ = bv.blocks.length - 1
                ∧ ¬ (if bv.size % 64 > 0 then
                      bv.blocks.getD (bv.blocks.length - 1) 0 &&& word.mask (bv.size % 64)
                        = bv.blocks.getD r.block_ 0 &&& word.mask (bv.size % 64)
                    else bv.blocks.getD (bv.blocks.length - 1) 0 = bv.blocks.getD r.block_ 0)))) := by
  obtain ⟨bvo, k, b0⟩ := r
  simp only at hb hk
  subst hb
  have hL := (bitvector.wf_iff bv).1 hwf
  have hne : k ≠ bv.blocks.length := by omega
  have hcur : bv.blocks[k]? = some bv.blocks[k] := List.getElem?_eq_getElem hk
  have hgk : bv.blocks.getD k 0 = bv.blocks[k] := List.getD_eq_getElem _ _ hk
  unfold null_bitmap_range.scan
  simp only [hne, if_false, hcur, word.width]
  by_cases h1 : k = bv.blocks.length - 1
  · -- the last block
    simp only [h1.symm, if_true]
    refine ⟨_, rfl, rfl, by simp, by simp; omega, ?_, ?_, ?_⟩
    · simp only
      split <;> omega
    rotate_left
    · simp only
      intro h; omega
    · have hm : min (64 * (k + 1)) bv.size - 64 * k
          = if bv.size % 64 = 0 then 64 else bv.size % 64 := by
        split <;> omega
      simp only [hm]
      rw [bits.expand_block _ _ (by split <;> omega)]
      exact (bv.segment_block k _ _ hcur (by split <;> omega)).symm
  · simp only [h1, if_false]
    by_cases h2 : word.all_or_none bv.blocks[k] = true
    · -- a run of homogeneous blocks
      simp only [h2, Bool.not_true, Bool.false_eq_true, if_false]
      obtain ⟨k', e, a1, a2, a3, a4⟩ :=
        null_bitmap_range.scan_while_spec bv.blocks (bv.blocks.length - 1) bv.blocks[k]
          (by omega) bv.blocks.length k 64 (by omega) (by omega)
      have hB : ∀ j, k ≤ j → j < k' → bv.blocks[j]? = some bv.blocks[k] := by
        intro j h3 h4
        by_cases h5 : j = k
        · subst h5; exact hcur
        · exact a3 j (by omega) h4
      have hn : 64 + 64 * (k' - k - 1) = 64 * (k' - k) := by omega
      simp only [e, hn]
      by_cases h3 : k' = bv.blocks.length - 1
      · have hlast : bv.blocks[k']? = some bv.blocks[k'] :=
          List.getElem?_eq_getElem (by omega)
        simp only [h3.symm, if_true, hlast]
        by_cases h4 : bv.size % 64 > 0
        · simp only [h4, if_true]
          by_cases h5 : bv.blocks[k'] &&& word.mask (bv.size % 64)
              = bv.blocks[k] &&& word.mask (bv.size % 64)
          · simp only [h5, if_true]
            have hm : min (64 * (k' + 1)) bv.size - 64 * k
                = 64 * (k' - k) + bv.size % 64 := by omega
            refine ⟨_, rfl, rfl, by simp; omega, by simp; omega, ?_, ?_, ?_⟩
            · simp only [hm]
            · simp only [hm]
              rw [bits.expand_uniform _ _ h2 (by omega)]
              refine (bv.segment_uniform k k' _ _ h2 (by omega) (by omega) hB ?_).symm
              intro j hj
              exact ⟨_, hlast, word.testBit_eq_of_mask_eq _ _ _ _ h5 hj⟩
            · simp only
              intro h; omega
          · simp only [h5, if_false]
            have hm : min (64 * k') bv.size - 64 * k = 64 * (k' - k) + 0 := by omega
            refine ⟨_, rfl, rfl, by simp; omega, by simp; omega, ?_, ?_, ?_⟩
            · simp only [hm]; rfl
            · simp only [hm]
              rw [Nat.add_zero, bits.expand_uniform _ _ h2 (by omega)]
              have := bv.segment_uniform k k' _ 0 h2 (by omega) (by omega) hB
                (fun j hj => absurd hj (Nat.not_lt_zero j))
              simpa using this.symm
            · simp only
              intro _
              refine ⟨by omega, Or.inr (Or.inr ⟨trivial, ?_⟩)⟩
              rw [List.getD_eq_getElem _ _ (by omega : k' < bv.blocks.length), hgk]
              exact h5
        · simp only [h4, if_false]
          by_cases h5 : bv.blocks[k'] = bv.blocks[k]
          · simp only [h5, if_true]
            have hm : min (64 * (k' + 1)) bv.size - 64 * k = 64 * (k' - k) + 64 := by omega
            refine ⟨_, rfl, rfl, by simp; omega, by simp; omega, ?_, ?_, ?_⟩
            · simp only [hm]
            · simp only [hm]
              rw [bits.expand_uniform _ _ h2 (by omega)]
              refine (bv.segment_uniform k k' _ _ h2 (by omega) (by omega) hB ?_).symm
              intro j _
              exact ⟨_, hlast, by rw [h5]⟩
            · simp only
              intro h; omega
          · simp only [h5, if_false]
            have hm : min (64 * k') bv.size - 64 * k = 64 * (k' - k) + 0 := by omega
            refine ⟨_, rfl, rfl, by simp; omega, by simp; omega, ?_, ?_, ?_⟩
            · simp only [hm]; rfl
            · simp only [hm]
              rw [Nat.add_zero, bits.expand_uniform _ _ h2 (by omega)]
              have := bv.segment_uniform k k' _ 0 h2 (by omega) (by omega) hB
                (fun j hj => absurd hj (Nat.not_lt_zero j))
              simpa using this.symm
            · simp only
              intro _
              refine ⟨by omega, Or.inr (Or.inr ⟨trivial, ?_⟩)⟩
              rw [List.getD_eq_getElem _ _ (by omega : k' < bv.blocks.length), hgk]
              exact h5
      · simp only [h3, if_false]
        have hm : min (64 * k') bv.size - 64 * k = 64 * (k' - k) + 0 := by omega
        refine ⟨_, rfl, rfl, by simp; omega, by simp; omega, ?_, ?_, ?_⟩
        · simp only [hm]; rfl
        · simp only [hm]
          rw [Nat.add_zero, bits.expand_uniform _ _ h2 (by omega)]
          have := bv.segment_uniform k k' _ 0 h2 (by omega) (by omega) hB
            (fun j hj => absurd hj (Nat.not_lt_zero j))
          simpa using this.symm
        · simp only
          intro _
          refine ⟨by omega, Or.inr (Or.inl ⟨by omega, ?_⟩)⟩
          rw [hgk]
          exact a4 h3
    · -- an inhomogeneous block before the last
      simp only [h2, Bool.not_false, if_true]
      have hm : min (64 * (k + 1)) bv.size - 64 * k = 64 := by omega
      refine ⟨_, rfl, rfl, by simp, by simp; omega, ?_, ?_, ?_⟩
      · simp only [hm]
      · simp only [hm]
        rw [bits.expand_block _ _ (by omega)]
        exact (bv.segment_block k _ _ hcur (by omega)).symm
      · simp only
        intro _
        refine ⟨by omega, Or.inl ?_⟩
        rw [hgk]
        simpa using h2

/-! ## Consuming the range -/

theorem null_bitmap_range.collect_done (fuel : Nat) (r : null_bitmap_range)
    (h : r.bitvector_ = none) : null_bitmap_range.collect (fuel + 1) r = some [] := by
  simp [null_bitmap_range.collect, null_bitmap_range.done, h]

theorem null_bitmap_range.collect_spec (bv : bitvector) (hwf : bv.wf) :
    ∀ (d : Nat) (r : null_bitmap_range) (fuel : Nat),
      r.bitvector_ = some bv → r.block_ ≤ bv.blocks.length →
      bv.blocks.length - r.block_ ≤ d → d + 2 ≤ fuel →
      ∃ rs, null_bitmap_range.collect fuel r = some (r.bits_ :: rs)
        ∧ rs.length ≤ d
        ∧ (rs.map bits.expand).flatten
            = bv.segment (min (64 * r.block_) bv.size) (bv.size - min (64 * r.block_) bv.size) := by
  have hL := (bitvector.wf_iff bv).1 hwf
  intro d
  induction d with
  | zero =>
    intro r fuel hb hk hd hf
    obtain ⟨f, rfl⟩ : ∃ f, fuel = f + 2 := ⟨fuel - 2, by omega⟩
    have hk' : r.block_ = bv.blocks.length := by omega
    refine ⟨[], ?_, by simp, ?_⟩
    · rw [null_bitmap_range.collect]
      simp only [null_bitmap_range.done, hb, Option.isNone_some, Bool.false_eq_true, if_false,
        null_bitmap_range.next, hk', if_true]
      rw [null_bitmap_range.collect_done f _ rfl]
    · have : bv.size - min (64 * r.block_) bv.size = 0 := by omega
      simp [this, bitvector.segment_zero]
  | succ d ih =>
    intro r fuel hb hk hd hf
    obtain ⟨f, rfl⟩ : ∃ f, fuel = f + 1 := ⟨fuel - 1, by omega⟩
    by_cases hk' : r.block_ = bv.blocks.length
    · refine ⟨[], ?_, by simp, ?_⟩
      · obtain ⟨g, rfl⟩ : ∃ g, f = g + 1 := ⟨f - 1, by omega⟩
        rw [null_bitmap_range.collect]
        simp only [null_bitmap_range.done, hb, Option.isNone_some, Bool.false_eq_true, if_false,
          null_bitmap_range.next, hk', if_true]
        rw [null_bitmap_range.collect_done g _ rfl]
      · have : bv.size - min (64 * r.block_) bv.size = 0 := by omega
        simp [this, bitvector.segment_zero]
    · obtain ⟨r', e, b1, b2, b3, b4, b5, _⟩ :=
        null_bitmap_range.scan_spec bv hwf r hb (by omega)
      obtain ⟨rs, c1, c2, c3⟩ := ih r' f b1 b3 (by omega) (by omega)
      refine ⟨r'.bits_ :: rs, ?_, by simp; omega, ?_⟩
      · rw [null_bitmap_range.collect]
        simp only [null_bitmap_range.done, hb, Option.isNone_some, Bool.false_eq_true, if_false,
          null_bitmap_range.next, hk', e, c1]
      · simp only [List.map_cons, List.flatten_cons, b5, c3]
        have h1 : min (64 * r.block_) bv.size = 64 * r.block_ := by omega
        have h2 : 64 * r.block_ + (min (64 * r'.block_) bv.size - 64 * r.block_)
            = min (64 * r'.block_) bv.size := by omega
        have h3 : bv.size - 64 * r.block_
            = (min (64 * r'.block_) bv.size - 64 * r.block_)
              + (bv.size - min (64 * r'.block_) bv.size) := by omega
        rw [h1, h3, bitvector.segment_add, h2]

theorem null_bitmap.runs_spec (bm : null_bitmap) (hwf : bm.bitvector_.wf) :
    ∃ rs, bm.runs = some rs ∧ rs.length ≤ bm.bitvector_.blocks.length
      ∧ (rs.map bits.expand).flatten = bm.bitvector_.bits := by
  have hL := (bitvector.wf_iff bm.bitvector_).1 hwf
  by_cases h0 : bm.bitvector_.size = 0
  · refine ⟨[], ?_, by simp, ?_⟩
    · simp [null_bitmap.runs, null_bitmap_range.init, null_bitmap.empty, bitvector.empty, h0,
        null_bitmap_range.collect, null_bitmap_range.done]
    · simp [bitvector.bits, h0]
  · have hinit : null_bitmap_range.init bm
        = null_bitmap_range.scan ⟨some bm.bitvector_, 0, ⟨0, 0⟩⟩ := by
      simp [null_bitmap_range.init, null_bitmap.empty, bitvector.empty, h0]
    obtain ⟨r', e, b1, b2, b3, b4, b5, _⟩ :=
      null_bitmap_range.scan_spec bm.bitvector_ hwf ⟨some bm.bitvector_, 0, ⟨0, 0⟩⟩ rfl
        (by simp only; omega)
    obtain ⟨rs, c1, c2, c3⟩ :=
      null_bitmap_range.collect_spec bm.bitvector_ hwf (bm.bitvector_.blocks.length - 1) r'
        (bm.bitvector_.blocks.length + 2) b1 b3 (by omega) (by omega)
    refine ⟨r'.bits_ :: rs, ?_, by simp; omega, ?_⟩
    · simp only [null_bitmap.runs, hinit, e, c1]
    · simp only [List.map_cons, List.flatten_cons, b5, c3, bitvector.bits_eq_segment]
      simp only [Nat.mul_zero, Nat.sub_zero]
      have h3 : bm.bitvector_.size = min (64 * r'.block_) bm.bitvector_.size
          + (bm.bitvector_.size - min (64 * r'.block_) bm.bitvector_.size) := by omega
      conv_rhs => rw [h3, bitvector.segment_add]
      simp

theorem bitvector.wf_of_bits (l : List Bool) : (bitvector.of_bits l).wf := by
  rw [bitvector.wf_iff, bitvector.length_blocks_of_bits, bitvector.size_of_bits]

theorem null_bitmap.of_appends_eq (bs : List Bool) :
    null_bitmap.of_appends bs = ⟨bitvector.of_bits bs⟩ := by
  have h : ∀ (l acc : List Bool),
      l.foldl null_bitmap.append_bit ⟨bitvector.of_bits acc⟩ = ⟨bitvector.of_bits (acc ++ l)⟩ := by
    intro l
    induction l with
    | nil => intro acc; simp
    | cons b l ih =>
      intro acc
      simp only [List.foldl_cons, null_bitmap.append_bit, bitvector.push_back,
        bitvector.bits_of_bits, ih]
      simp
  have h0 : null_bitmap.nil = ⟨bitvector.of_bits []⟩ := by
    simp [null_bitmap.nil, bitvector.of_bits, word.width]
  rw [null_bitmap.of_appends, h0, h]
  simp

theorem bits.sum_size (rs : List bits) :
    (rs.map bits.size).sum = ((rs.map bits.expand).flatten).length := by
  induction rs with
  | nil => simp
  | cons r rs ih => simp [ih, bits.length_expand]

/-! ## Properties of `null_bitmap_range` -/

/-- C2: for the bitmap built by appending the bits `bs` one after the other,
the range (constructor, then `next()` until `done()`) produces a list of runs
whose expansions, concatenated, are exactly `bs`; the lengths of the runs sum
to `size()`. -/
theorem null_bitmap_range_roundtrip (bs : List Bool) :
    ∃ rs, (null_bitmap.of_appends bs).runs = some rs
      ∧ (rs.map bits.expand).flatten = bs
      ∧ (rs.map bits.size).sum = (null_bitmap.of_appends bs).size := by
  rw [null_bitmap.of_appends_eq]
  obtain ⟨rs, h1, _, h3⟩ :=
    null_bitmap.runs_spec ⟨bitvector.of_bits bs⟩ (bitvector.wf_of_bits bs)
  rw [bitvector.bits_of_bits] at h3
  refine ⟨rs, h1, h3, ?_⟩
  rw [bits.sum_size, h3]
  rfl

/-! ## Bitmaps whose bits are all equal -/

theorem word.of_bits_replicate (p : Nat) (b : Bool) :
    word.of_bits (List.replicate p b) = if b then 2 ^ p - 1 else 0 := by
  induction p with
  | zero => cases b <;> simp [word.of_bits]
  | succ p ih =>
    cases b
    · simpa [List.replicate_succ, word.of_bits] using ih
    · have h1 : 0 < 2 ^ p := Nat.pow_pos (by decide)
      simp only [List.replicate_succ, word.of_bits, ih, if_true, Bool.toNat_true, Nat.pow_succ]
      omega

theorem bitvector.block_of_bits_replicate (m : Nat) (b : Bool) (j : Nat)
    (hj : j < (bitvector.of_bits (List.replicate m b)).blocks.length) :
    (bitvector.of_bits (List.replicate m b)).blocks.getD j 0
      = if b then 2 ^ (min 64 (m - 64 * j)) - 1 else 0 := by
  rw [List.getD_eq_getElem _ _ hj]
  simp [bitvector.of_bits, word.width, word.of_bits_replicate]

theorem null_bitmap.init_eq (n : Nat) (b : Bool) :
    null_bitmap.init n b = ⟨bitvector.of_bits (List.replicate n b)⟩ := by
  simp [null_bitmap.init, null_bitmap.append_bits, null_bitmap.nil, bitvector.resize,
    bitvector.bits]

theorem word.mask_and_all (p : Nat) (hp : p ≤ 64) :
    (2 ^ p - 1) &&& word.mask p = (2 ^ 64 - 1) &&& word.mask p := by
  apply Nat.eq_of_testBit_eq
  intro i
  simp only [word.mask, Nat.testBit_and, Nat.testBit_two_pow_sub_one]
  by_cases h : i < p
  · have : i < 64 := by omega
    simp [h, this]
  · simp [h]

/-- C6: the bitmap of `n + 1` copies of a bit `b` yields exactly one run, of
length `n + 1`, that expands to `n + 1` copies of `b`; for the empty bitmap
the constructed range is `done()` at once and no run is produced. -/
theorem null_bitmap_range_uniform (n : Nat) (b : Bool) :
    (null_bitmap_range.init (null_bitmap.init 0 b)).map null_bitmap_range.done = some true
      ∧ (null_bitmap.init 0 b).runs = some []
      ∧ ∃ r, (null_bitmap.init (n + 1) b).runs = some [r] ∧ r.size = n + 1
          ∧ r.expand = List.replicate (n + 1) b := by
  refine ⟨by cases b <;> decide, by cases b <;> decide, ?_⟩
  rw [null_bitmap.init_eq]
  have hwf := bitvector.wf_of_bits (List.replicate (n + 1) b)
  have hL := (bitvector.wf_iff _).1 hwf
  have hS : (bitvector.of_bits (List.replicate (n + 1) b)).size = n + 1 := by
    simp [bitvector.size_of_bits]
  have hinit : null_bitmap_range.init ⟨bitvector.of_bits (List.replicate (n + 1) b)⟩
      = null_bitmap_range.scan
          ⟨some (bitvector.of_bits (List.replicate (n + 1) b)), 0, ⟨0, 0⟩⟩ := by
    simp [null_bitmap_range.init, null_bitmap.empty, bitvector.empty, hS]
  obtain ⟨r', e, b1, b2, b3, b4, b5, b6⟩ :=
    null_bitmap_range.scan_spec _ hwf
      ⟨some (bitvector.of_bits (List.replicate (n + 1) b)), 0, ⟨0, 0⟩⟩ rfl
      (by simp only; omega)
  simp only at b2 b4 b5 b6
  have hend : r'.block_ = (bitvector.of_bits (List.replicate (n + 1) b)).blocks.length := by
    by_contra hne
    obtain ⟨c0, c⟩ := b6 (by omega)
    have hB0 := bitvector.block_of_bits_replicate (n + 1) b 0 (by omega)
    have hm0 : min 64 (n + 1 - 64 * 0) = 64 := by omega
    rw [hm0] at hB0
    rcases c with c | ⟨c1, c2⟩ | ⟨c1, c2⟩
    · rw [hB0] at c
      cases b <;> simp [word.all_or_none, word.all, word.width] at c
    · apply c2
      rw [List.getElem?_eq_getElem (by omega), ← List.getD_eq_getElem _ 0 (by omega),
        bitvector.block_of_bits_replicate (n + 1) b _ (by omega), hB0]
      have hm : min 64 (n + 1 - 64 * r'.block_) = 64 := by omega
      rw [hm]
    · apply c2
      rw [bitvector.block_of_bits_replicate (n + 1) b _ (by omega), hB0, hS]
      by_cases hp : (n + 1) % 64 > 0
      · have hm : min 64 (n + 1 - 64 * ((bitvector.of_bits (List.replicate (n + 1) b)).blocks.length - 1))
            = (n + 1) % 64 := by omega
        rw [hm]
        simp only [hp, if_true]
        cases b
        · simp
        · simpa using word.mask_and_all ((n + 1) % 64) (by omega)
      · have hm : min 64 (n + 1 - 64 * ((bitvector.of_bits (List.replicate (n + 1) b)).blocks.length - 1))
            = 64 := by omega
        rw [hm]
        simp [hp]
  obtain ⟨rs, c1, c2, c3⟩ :=
    null_bitmap_range.collect_spec _ hwf 0 r'
      ((bitvector.of_bits (List.replicate (n + 1) b)).blocks.length + 2) b1 b3
      (by omega) (by omega)
  have hrs : rs = [] := List.length_eq_zero.1 (by omega)
  subst hrs
  refine ⟨r'.bits_, ?_, ?_, ?_⟩
  · simp only [null_bitmap.runs, hinit, e, c1]
  · rw [b4, hS]; omega
  · have hm : min (64 * r'.block_) (bitvector.of_bits (List.replicate (n + 1) b)).size - 64 * 0
        = (bitvector.of_bits (List.replicate (n + 1) b)).size := by omega
    rw [b5, hm, Nat.mul_zero, ← bitvector.bits_eq_segment, bitvector.bits_of_bits]

/-! ## `type_fragment::index_impl` leaf by leaf -/

theorem type_fragment.append_leaves_append (id : Nat) (xs ys : List value)
    (self : type_fragment) :
    type_fragment.append_leaves id (xs ++ ys) self
      = if (type_fragment.append_leaves id xs self).1 then
          type_fragment.append_leaves id ys (type_fragment.append_leaves id xs self).2
        else (false, (type_fragment.append_leaves id xs self).2) := by
  induction xs generalizing self with
  | nil => simp [type_fragment.append_leaves]
  | cons x xs ih =>
    simp only [List.cons_append, type_fragment.append_leaves]
    by_cases h : (type_fragment.index_impl self id x).1 = true
    · simp [h, ih]
    · simp [h]

theorem type_fragment.append_leaves_singleton (id : Nat) (l : value)
    (self : type_fragment) :
    type_fragment.append_leaves id [l] self = type_fragment.index_impl self id l := by
  simp only [type_fragment.append_leaves]
  cases h : (type_fragment.index_impl self id l).1
  · simp only [Bool.not_false, if_true]
    exact Prod.ext h.symm rfl
  · simp only [Bool.not_true, Bool.false_eq_true, if_false]
    exact Prod.ext h.symm rfl

mutual
theorem type_fragment.index_impl_eq_append_leaves :
    ∀ (v : value) (self : type_fragment) (id : Nat),
      type_fragment.index_impl self id v = type_fragment.append_leaves id v.leaves self
  | .record r, self, id => by
    rw [type_fragment.index_impl, value.leaves]
    exact type_fragment.index_impl_for_eq_append_leaves r self id
  | .nil, self, id => by
    simp [type_fragment.index_impl, value.leaves, type_fragment.append_leaves]
  | .bool b, self, id => by
    rw [value.leaves, type_fragment.append_leaves_singleton]
  | .int b, self, id => by
    rw [value.leaves, type_fragment.append_leaves_singleton]
  | .uint b, self, id => by
    rw [value.leaves, type_fragment.append_leaves_singleton]
  | .double b, self, id => by
    rw [value.leaves, type_fragment.append_leaves_singleton]
  | .time_range b, self, id => by
    rw [value.leaves, type_fragment.append_leaves_singleton]
  | .time_point b, self, id => by
    rw [value.leaves, type_fragment.append_leaves_singleton]
  | .string b, self, id => by
    rw [value.leaves, type_fragment.append_leaves_singleton]
  | .regex b, self, id => by
    simp [type_fragment.index_impl, value.leaves, type_fragment.append_leaves]
  | .address b, self, id => by
    rw [value.leaves, type_fragment.append_leaves_singleton]
  | .pfx a b, self, id => by
    simp [type_fragment.index_impl, value.leaves, type_fragment.append_leaves]
  | .port b, self, id => by
    rw [value.leaves, type_fragment.append_leaves_singleton]
theorem type_fragment.index_impl_for_eq_append_leaves :
    ∀ (r : List value) (self : type_fragment) (id : Nat),
      type_fragment.index_impl_for self id r
        = type_fragment.append_leaves id (value.leaves_list r) self
  | [], self, id => by
    simp [type_fragment.index_impl_for, value.leaves_list, type_fragment.append_leaves]
  | rv :: rest, self, id => by
    rw [type_fragment.index_impl_for, value.leaves_list,
      type_fragment.append_leaves_append,
      ← type_fragment.index_impl_eq_append_leaves rv self id]
    by_cases h : (type_fragment.index_impl self id rv).1 = true
    · simp [h, type_fragment.index_impl_for_eq_append_leaves rest]
    · simp [h]
end

/-- C11, counterexample: on a fresh fragment at ID 0 the event with the single
top-level value `[1, 2, "x"]` appends 1 to the integer index, fails to append
2 (ID 0 is below the size 1), and with that leaves the nested record: the
string index stays empty, although an append of "x" at ID 0 to the empty
string index succeeds. -/
theorem type_fragment_index_skips_leaf_after_failure :
    (type_fragment.fresh.index
        ⟨0, 0, "e", [.record [.int 1, .int 2, .string "x"]]⟩).int_
        = ⟨.int_type, [some (.int 1)]⟩
      ∧ (type_fragment.fresh.index
          ⟨0, 0, "e", [.record [.int 1, .int 2, .string "x"]]⟩).string_
        = bitmap_index.create .string_type
      ∧ (fragment.append_value (bitmap_index.create .string_type) 0 (.string "x")).1
        = true := by
  decide

/-- C11, amended: `type_fragment::index` processes every top-level value at
its first occurrence, whatever happened to the earlier ones; within one
top-level value the leaves are handed to `index_impl` in order up to and
including the first one whose append fails, and the leaves after a failed one
are skipped. -/
theorem type_fragment_index_leaves_until_failure :
    (∀ (self : type_fragment) (e : event),
        self.index e = (first_occurrences e.fields).foldl
          (fun s v => (type_fragment.append_leaves e.id v.leaves s).2) self)
      ∧ (∀ (self : type_fragment) (id : Nat) (xs ys : List value) (l : value),
          (type_fragment.append_leaves id xs self).1 = true →
          (type_fragment.index_impl (type_fragment.append_leaves id xs self).2 id l).1
            = false →
          type_fragment.append_leaves id (xs ++ l :: ys) self
            = (false,
                (type_fragment.index_impl
                  (type_fragment.append_leaves id xs self).2 id l).2)) := by
  refine ⟨?_, ?_⟩
  · intro self e
    rw [type_fragment.index, type_fragment.index_for_eq]
    simp only [List.not_mem_nil, not_false_eq_true, decide_True, List.filter_true]
    congr 1
    funext s v
    rw [type_fragment.index_impl_eq_append_leaves]
  · intro self id xs ys l h1 h2
    rw [type_fragment.append_leaves_append]
    simp [h1, type_fragment.append_leaves, h2]

theorem type_fragment_index_leaves_until_failure_witness :
    (type_fragment.append_leaves 0 [.int 1] type_fragment.fresh).1 = true
      ∧ (type_fragment.index_impl
          (type_fragment.append_leaves 0 [.int 1] type_fragment.fresh).2 0 (.int 2)).1
        = false
      ∧ type_fragment.append_leaves 0 ([.int 1] ++ .int 2 :: [.string "x"])
          type_fragment.fresh
        = (false,
            (type_fragment.index_impl
              (type_fragment.append_leaves 0 [.int 1] type_fragment.fresh).2 0
              (.int 2)).2) :=
  ⟨by decide, by decide,
    type_fragment_index_leaves_until_failure.2 type_fragment.fresh 0 [.int 1]
      [.string "x"] (.int 2) (by decide) (by decide)⟩

/-- C17, counterexample: with an integer index of size 3, `index_impl` at ID 1
on the record `[7, true]` fails at the leaf 7 and returns without a call for
the leaf `true`: the boolean index is unchanged, although an append of `true`
at ID 1 to it succeeds. -/
theorem type_fragment_index_impl_record_stops :
    type_fragment.index_impl
        { type_fragment.fresh with int_ := ⟨.int_type, [none, none, none]⟩ } 1
        (.record [.int 7, .bool true])
      = (false, { type_fragment.fresh with int_ := ⟨.int_type, [none, none, none]⟩ })
      ∧ (fragment.append_value type_fragment.fresh.bool_ 1 (.bool true)).1 = true := by
  decide

/-- C17, amended: for a value of one of the nine primitive types `index_impl`
returns what `append_value` returns on the index of that type, stores the
index `append_value` leaves there, and leaves the other eight indexes
unchanged; for a record value it does this for the leaves of the record in
order, up to and including the first leaf whose append fails. -/
theorem type_fragment_index_impl_routes :
    (∀ (self : type_fragment) (id : Nat) (v : value) (idx : bitmap_index),
        self.column v.which = some idx →
        (type_fragment.index_impl self id v).1 = (fragment.append_value idx id v).1
          ∧ (type_fragment.index_impl self id v).2.column v.which
              = some (fragment.append_value idx id v).2
          ∧ ∀ t, t ≠ v.which →
              (type_fragment.index_impl self id v).2.column t = self.column t)
      ∧ (∀ (self : type_fragment) (id : Nat) (r : List value),
          type_fragment.index_impl self id (.record r)
            = type_fragment.append_leaves id (value.leaves_list r) self) := by
  refine ⟨?_, ?_⟩
  · intro self id v idx h
    cases v <;> simp only [value.which, type_fragment.column, Option.some.injEq,
      reduceCtorEq] at h <;> subst h <;>
      refine ⟨by simp [type_fragment.index_impl],
        by simp [type_fragment.index_impl, type_fragment.column, value.which], ?_⟩ <;>
      intro t ht <;> cases t <;>
      simp_all [type_fragment.index_impl, type_fragment.column, value.which]
  · intro self id r
    rw [type_fragment.index_impl_eq_append_leaves, value.leaves]

theorem type_fragment_index_impl_routes_witness :
    type_fragment.fresh.column (value.int 5).which = some (bitmap_index.create .int_type)
      ∧ (type_fragment.index_impl type_fragment.fresh 0 (.int 5)).2.column .int_type
          = some ⟨.int_type, [some (.int 5)]⟩
      ∧ (type_fragment.index_impl type_fragment.fresh 0 (.int 5)).2.column .string_type
          = some (bitmap_index.create .string_type) :=
  have h := type_fragment_index_impl_routes.1 type_fragment.fresh 0 (.int 5)
    (bitmap_index.create .int_type) (by decide)
  ⟨by decide, h.2.1.trans (by decide), (h.2.2 .string_type (by decide)).trans (by decide)⟩

/-- C18, counterexample: on a fresh fragment at ID 5 the event with the two
top-level values `["s", 1, 2]` and `[3, "s"]` appends "s" once only.  In the
second record the append of 3 fails (the integer index has size 6 after 1 and
2), which ends that record before its leaf "s" is reached; the string index
holds a single "s", although one more append of "s" at ID 5 to it succeeds. -/
theorem type_fragment_index_second_record_unreached :
    (type_fragment.fresh.index
        ⟨5, 0, "e", [.record [.string "s", .int 1, .int 2],
          .record [.int 3, .string "s"]]⟩).string_
        = ⟨.string_type, [none, none, none, none, some (.string "s")]⟩
      ∧ (fragment.append_value
          ⟨.string_type, [none, none, none, none, some (.string "s")]⟩ 5
          (.string "s")).1 = true := by
  decide

/-- C18, amended: `type_fragment::index` hands every top-level value of the
event to `index_impl` exactly once, at its first occurrence, so two different
top-level records are processed one after the other; inside a record there is
no dedup: its leaves are appended in order, and a leaf `s` is appended
whenever the appends of the leaves before it in that record succeeded (a
failed append ends the record). -/
theorem type_fragment_index_no_inner_dedup :
    (∀ (self : type_fragment) (e : event),
        self.index e = (first_occurrences e.fields).foldl
          (fun st v => (type_fragment.append_leaves e.id v.leaves st).2) self)
      ∧ (∀ (r : List value) (v : value), v ∈ r → (first_occurrences r).count v = 1)
      ∧ (∀ (self : type_fragment) (id : Nat) (xs ys : List value) (s : value),
          (type_fragment.append_leaves id xs self).1 = true →
          type_fragment.append_leaves id (xs ++ s :: ys) self
            = if (type_fragment.index_impl
                  (type_fragment.append_leaves id xs self).2 id s).1 then
                type_fragment.append_leaves id ys
                  (type_fragment.index_impl
                    (type_fragment.append_leaves id xs self).2 id s).2
              else
                (false, (type_fragment.index_impl
                  (type_fragment.append_leaves id xs self).2 id s).2)) := by
  refine ⟨?_, ?_, ?_⟩
  · intro self e
    rw [type_fragment.index, type_fragment.index_for_eq]
    simp only [List.not_mem_nil, not_false_eq_true, decide_True, List.filter_true]
    congr 1
    funext s v
    rw [type_fragment.index_impl_eq_append_leaves]
  · intro r v hv
    exact List.count_eq_one_of_mem (first_occurrences_nodup r)
      ((first_occurrences_mem r v).2 hv)
  · intro self id xs ys s h1
    rw [type_fragment.append_leaves_append]
    simp only [h1, if_true, type_fragment.append_leaves]
    cases (type_fragment.index_impl (type_fragment.append_leaves id xs self).2 id s).1 <;>
      simp

theorem type_fragment_index_no_inner_dedup_witness :
    (type_fragment.append_leaves 5 [.int 3] type_fragment.fresh).1 = true
      ∧ (type_fragment.append_leaves 5 ([.int 3] ++ .string "s" :: [])
          type_fragment.fresh).2.string_
        = ⟨.string_type, [none, none, none, none, some (.string "s")]⟩ :=
  ⟨by decide,
    (congrArg (fun p => p.2.string_)
      (type_fragment_index_no_inner_dedup.2.2 type_fragment.fresh 5 [.int 3] []
        (.string "s") (by decide))).trans (by decide)⟩

/-! ## The map of an `argument_fragment` -/

theorem argument_fragment.find_assign (self : argument_fragment) (o o' : offset)
    (bmi : bitmap_index) :
    (self.assign o bmi).find o'
      = if o' = o then (self.find o').map (fun _ => bmi) else self.find o' := by
  obtain ⟨l⟩ := self
  simp only [argument_fragment.assign, argument_fragment.find]
  induction l with
  | nil => simp
  | cons p l ih =>
    obtain ⟨k, b⟩ := p
    rw [List.map_cons]
    by_cases h2 : k = o
    · rw [if_pos h2]
      by_cases h1 : o' = k
      · subst h2
        subst h1
        simp [List.lookup]
      · have h1' : (o' == k) = false := by simpa using h1
        simp only [List.lookup, h1', ih]
    · rw [if_neg h2]
      by_cases h1 : o' = k
      · subst h1
        simp [List.lookup, h2]
      · have h1' : (o' == k) = false := by simpa using h1
        simp only [List.lookup, h1', ih]

theorem argument_fragment.find_emplace (self : argument_fragment) (o o' : offset)
    (bmi : bitmap_index) (h : self.find o = none) :
    (self.emplace o bmi).find o' = if o' = o then some bmi else self.find o' := by
  obtain ⟨l⟩ := self
  simp only [argument_fragment.find] at h
  simp only [argument_fragment.emplace, argument_fragment.find, h, Option.isSome_none,
    Bool.false_eq_true, if_false]
  by_cases h1 : o' = o
  · subst h1
    simp [List.lookup_append, h, List.lookup]
  · have h1' : (o' == o) = false := by simpa using h1
    simp only [h1, if_false, List.lookup_append, List.lookup, h1']
    cases List.lookup o' l <;> rfl

/-- The scalar branch of the loop body: the value is appended to the index of
the current path, which is created first when the path is new. -/
theorem argument_fragment.index_impl_body_scalar (v : value) (id : Nat)
    (self : argument_fragment) (o : offset) (hv : v.which ≠ .record_type) :
    ∃ self2,
      argument_fragment.index_impl_body v id (self, o)
        = ((fragment.append_value
              ((self.find o).getD (bitmap_index.create v.which)) id v).1,
            self2,
            if (fragment.append_value
                ((self.find o).getD (bitmap_index.create v.which)) id v).1
            then offset_incr_back o else o)
      ∧ ∀ o', self2.find o'
          = if o' = o then
              some (fragment.append_value
                ((self.find o).getD (bitmap_index.create v.which)) id v).2
            else self.find o' := by
  cases hf : self.find o with
  | none =>
    have he := argument_fragment.find_emplace self o o (bitmap_index.create v.which) hf
    simp only [if_true] at he
    refine ⟨(self.emplace o (bitmap_index.create v.which)).assign o
      (fragment.append_value (bitmap_index.create v.which) id v).2, ?_, ?_⟩
    · cases v <;> first
        | exact absurd rfl hv
        | (simp only [argument_fragment.index_impl_body, hf, he, Option.getD_none]
           split <;> simp_all)
    · intro o'
      rw [argument_fragment.find_assign, argument_fragment.find_emplace _ _ _ _ hf]
      by_cases h : o' = o <;> simp [h]
  | some idx =>
    refine ⟨self.assign o (fragment.append_value idx id v).2, ?_, ?_⟩
    · cases v <;> first
        | exact absurd rfl hv
        | (simp only [argument_fragment.index_impl_body, hf, Option.getD_some]
           split <;> simp_all)
    · intro o'
      rw [argument_fragment.find_assign]
      by_cases h : o' = o
      · subst h; simp [hf]
      · simp [h]

theorem argument_fragment.index_impl_for_scalars (id : Nat) :
    ∀ (fields : List value) (k : Nat) (self : argument_fragment),
      (∀ v ∈ fields, v.which ≠ .record_type) →
      (∀ i (h : i < fields.length),
        (fragment.append_value
          ((self.find [k + i]).getD (bitmap_index.create fields[i].which)) id
          fields[i]).1 = true) →
      ∃ self',
        argument_fragment.index_impl_for fields id (self, [k])
          = (true, self', [k + fields.length])
        ∧ (∀ i (h : i < fields.length),
            self'.find [k + i]
              = some (fragment.append_value
                  ((self.find [k + i]).getD (bitmap_index.create fields[i].which)) id
                  fields[i]).2)
        ∧ (∀ o, (∀ i, i < fields.length → o ≠ [k + i]) → self'.find o = self.find o) := by
  intro fields
  induction fields with
  | nil =>
    intro k self _ _
    exact ⟨self, by simp [argument_fragment.index_impl_for],
      fun i h => absurd h (Nat.not_lt_zero i), fun o _ => rfl⟩
  | cons v vs ih =>
    intro k self hsc hok
    obtain ⟨self2, e2, f2⟩ :=
      argument_fragment.index_impl_body_scalar v id self [k] (hsc v (List.mem_cons_self v vs))
    have h0 := hok 0 (by simp)
    simp only [Nat.add_zero, List.getElem_cons_zero] at h0
    simp only [h0, if_true] at e2
    have hinc : offset_incr_back [k] = [k + 1] := by simp [offset_incr_back]
    rw [hinc] at e2
    have hfind : ∀ j, self2.find [k + 1 + j] = self.find [k + 1 + j] := by
      intro j
      rw [f2]
      have : ¬ [k + 1 + j] = [k] := by simp; omega
      simp [this]
    obtain ⟨self', e3, f3, g3⟩ := ih (k + 1) self2
      (fun w hw => hsc w (List.mem_cons_of_mem v hw))
      (by
        intro i h
        rw [hfind]
        have := hok (i + 1) (by simpa using h)
        simpa [Nat.add_assoc, Nat.add_comm 1 i] using this)
    refine ⟨self', ?_, ?_, ?_⟩
    · rw [argument_fragment.index_impl_for, e2]
      simp only [Bool.not_true, Bool.false_eq_true, if_false, e3, List.length_cons]
      have : k + 1 + vs.length = k + (vs.length + 1) := by omega
      rw [this]
    · intro i h
      cases i with
      | zero =>
        simp only [Nat.add_zero, List.getElem_cons_zero]
        rw [g3 [k] (by intro j _; simp; omega), f2]
        simp
      | succ j =>
        have hj : j < vs.length := by simpa using h
        have := f3 j hj
        rw [hfind] at this
        simpa [Nat.add_assoc, Nat.add_comm 1 j] using this
    · intro o ho
      rw [g3 o (by
        intro j hj
        have := ho (j + 1) (by simpa using hj)
        simpa [Nat.add_assoc, Nat.add_comm 1 j] using this), f2]
      have : ¬ o = [k] := by simpa using ho 0 (by simp)
      simp [this]

/-! ## Properties of `argument_fragment::index`, continued -/

/-- C12, counterexample: with an index of size 3 under the path `[0]`, the
event of ID 1 with the record `[1, 2]` fails at the first field and returns:
the fragment is unchanged and no index exists for the path `[1]` of the second
field, although an append of 2 at ID 1 to a new index succeeds. -/
theorem argument_fragment_index_stops_at_failed_field :
    (argument_fragment.mk [([0], ⟨.int_type, [none, none, none]⟩)]).index
        ⟨1, 0, "e", [.int 1, .int 2]⟩
      = ⟨[([0], ⟨.int_type, [none, none, none]⟩)]⟩
      ∧ ((argument_fragment.mk [([0], ⟨.int_type, [none, none, none]⟩)]).index
          ⟨1, 0, "e", [.int 1, .int 2]⟩).find [1] = none
      ∧ (fragment.append_value (bitmap_index.create .int_type) 1 (.int 2)).1 = true := by
  decide

/-- C12, amended: when the append of a field fails, the loop of `index_impl`
returns at once and the remaining fields of that record are not processed; the
loop of an enclosing record goes on with its next field after a nested record,
whatever happened inside the nested record. -/
theorem argument_fragment_index_impl_failure_scope :
    (∀ (v : value) (rest : List value) (id : Nat) (st : argument_fragment × offset),
        (argument_fragment.index_impl_body v id st).1 = false →
        argument_fragment.index_impl_for (v :: rest) id st
          = (false, (argument_fragment.index_impl_body v id st).2))
      ∧ (∀ (inner rest : List value) (id : Nat) (st : argument_fragment × offset),
          argument_fragment.index_impl_for (.record inner :: rest) id st
            = argument_fragment.index_impl_for rest id
                (argument_fragment.index_impl_body (.record inner) id st).2) := by
  refine ⟨?_, ?_⟩
  · intro v rest id st h
    rw [argument_fragment.index_impl_for]
    simp [h]
  · intro inner rest id st
    rw [argument_fragment.index_impl_for]
    have h : (argument_fragment.index_impl_body (.record inner) id st).1 = true := by
      rw [argument_fragment.index_impl_body]
      split <;> rfl
    simp [h]

theorem argument_fragment_index_impl_failure_scope_witness :
    (argument_fragment.index_impl_body (.int 1) 1
        (⟨[([0], ⟨.int_type, [none, none, none]⟩)]⟩, [0])).1 = false
      ∧ argument_fragment.index_impl_for (.int 1 :: [.int 2]) 1
          (⟨[([0], ⟨.int_type, [none, none, none]⟩)]⟩, [0])
        = (false, (argument_fragment.index_impl_body (.int 1) 1
            (⟨[([0], ⟨.int_type, [none, none, none]⟩)]⟩, [0])).2) :=
  ⟨by decide,
    argument_fragment_index_impl_failure_scope.1 (.int 1) [.int 2] 1
      (⟨[([0], ⟨.int_type, [none, none, none]⟩)]⟩, [0]) (by decide)⟩

/-- C19: for an event whose fields are all scalars and an ID at which every
append succeeds, `argument_fragment::index` leaves under the path `[i]` the
index that `append_value` makes of field `i` and the index found under `[i]`
before the call (a newly created one of the field's type when there was none),
for every `i` below the number of fields, and every other path maps to what it
mapped to before. -/
theorem argument_fragment_index_scalar_fields (self : argument_fragment) (e : event)
    (hsc : ∀ v ∈ e.fields, v.which ≠ .record_type)
    (hok : ∀ i (h : i < e.fields.length),
      (fragment.append_value
        ((self.find [i]).getD (bitmap_index.create e.fields[i].which)) e.id
        e.fields[i]).1 = true) :
    (∀ i (h : i < e.fields.length),
        (self.index e).find [i]
          = some (fragment.append_value
              ((self.find [i]).getD (bitmap_index.create e.fields[i].which)) e.id
              e.fields[i]).2)
      ∧ (∀ o, (∀ i, i < e.fields.length → o ≠ [i]) →
          (self.index e).find o = self.find o) := by
  by_cases hempty : e.fields = []
  · simp [argument_fragment.index, hempty]
  · obtain ⟨self', e1, f1, g1⟩ :=
      argument_fragment.index_impl_for_scalars e.id e.fields 0 self hsc
        (by simpa using hok)
    have hidx : self.index e = self' := by
      simp [argument_fragment.index, hempty, argument_fragment.index_impl, e1]
    rw [hidx]
    exact ⟨by simpa using f1, by simpa using g1⟩

theorem argument_fragment_index_scalar_fields_witness :
    (argument_fragment.fresh.index ⟨0, 0, "e", [.int 1, .string "a"]⟩).find [1]
        = some ⟨.string_type, [some (.string "a")]⟩
      ∧ (argument_fragment.fresh.index ⟨0, 0, "e", [.int 1, .string "a"]⟩).find [2]
        = none :=
  have h := argument_fragment_index_scalar_fields argument_fragment.fresh
    ⟨0, 0, "e", [.int 1, .string "a"]⟩ (by decide) (by decide)
  ⟨(h.1 1 (by decide)).trans (by decide), (h.2 [2] (by decide)).trans (by decide)⟩

/-- C20: `argument_fragment::index` on an event whose record is empty returns
the fragment as it was. -/
theorem argument_fragment_index_empty_record (self : argument_fragment) (id : Nat)
    (timestamp : Int) (name : String) :
    self.index ⟨id, timestamp, name, []⟩ = self := by
  simp [argument_fragment.index]

/-! ## `flip` and `append_bits` -/

theorem bitvector.bits_flip (bv : bitvector) : bv.flip.bits = bv.bits.map not := by
  rw [bitvector.flip, bitvector.bits_of_bits]

theorem bitvector.bits_flip_flip (bv : bitvector) : bv.flip.flip.bits = bv.bits := by
  rw [bitvector.bits_flip, bitvector.bits_flip, List.map_map]
  have h : (not ∘ not) = (id : Bool → Bool) := by
    funext b
    cases b <;> rfl
  rw [h, List.map_id]

theorem bitvector.get_eq_getD_bits (bv : bitvector) (i : Nat) (h : i < bv.size) :
    bv.get i = bv.bits.getD i false :=
  (bitvector.getD_bits bv i h).symm

theorem bitvector.bits_resize_grow (bv : bitvector) (n : Nat) (bit : Bool) :
    (bv.resize (bv.size + n) bit).bits = bv.bits ++ List.replicate n bit := by
  rw [bitvector.resize, bitvector.bits_of_bits]
  have h1 : bv.bits.take (bv.size + n) = bv.bits :=
    List.take_of_length_le (by rw [bitvector.length_bits]; omega)
  have h2 : bv.size + n - bv.size = n := by omega
  rw [h1, h2]

/-- C15: `flip` applied twice (on a `null_bitmap` and on a `null_bitstream`)
gives a bitmap of the same size that compares equal to the original and has
the same bit at every position below the size. -/
theorem flip_flip_restores (bm : null_bitmap) (bs : null_bitstream) :
    (bm.flip.flip.size = bm.size
        ∧ bm.flip.flip.equals bm = true
        ∧ ∀ i, i < bm.size → bm.flip.flip.bitvector_.get i = bm.bitvector_.get i)
      ∧ (bs.flip.flip.size = bs.size
        ∧ bs.flip.flip.equals bs = true
        ∧ ∀ i, i < bs.size → bs.flip.flip.get i = bs.get i) := by
  have key : ∀ bv : bitvector, bv.flip.flip.size = bv.size
      ∧ bv.flip.flip.equals bv = true
      ∧ ∀ i, i < bv.size → bv.flip.flip.get i = bv.get i := by
    intro bv
    have hs : bv.flip.flip.size = bv.size := by
      simp [bitvector.flip, bitvector.size_of_bits, bitvector.bits_of_bits,
        bitvector.length_bits]
    refine ⟨hs, by simp [bitvector.equals, bitvector.bits_flip_flip], ?_⟩
    intro i hi
    rw [bitvector.get_eq_getD_bits _ i (hs ▸ hi), bitvector.bits_flip_flip,
      bitvector.getD_bits bv i hi]
  exact ⟨key bm.bitvector_, key bs.bits_⟩

theorem flip_flip_restores_witness :
    1 < (null_bitmap.of_appends [true, false, true]).size
      ∧ (null_bitmap.of_appends [true, false, true]).flip.flip.bitvector_.get 1
          = (null_bitmap.of_appends [true, false, true]).bitvector_.get 1 :=
  ⟨by decide,
    (flip_flip_restores (null_bitmap.of_appends [true, false, true])
      ⟨bitvector.of_bits [true]⟩).1.2.2 1 (by decide)⟩

/-- C16: `append_bits(b, n)` on a `null_bitmap` of size `s` (and `append_impl(n,
b)` on a `null_bitstream`) gives size `s + n`, keeps the bit at every position
below `s`, and has the bit `b` at every position from `s` up to `s + n - 1`. -/
theorem append_bits_extends (bm : null_bitmap) (bs : null_bitstream) (b : Bool)
    (n : Nat) :
    ((bm.append_bits b n).size = bm.size + n
        ∧ (∀ i, i < bm.size → (bm.append_bits b n).bitvector_.get i = bm.bitvector_.get i)
        ∧ (∀ i, bm.size ≤ i → i < bm.size + n →
            (bm.append_bits b n).bitvector_.get i = b))
      ∧ ((bs.append_impl n b).size = bs.size + n
        ∧ (∀ i, i < bs.size → (bs.append_impl n b).get i = bs.get i)
        ∧ (∀ i, bs.size ≤ i → i < bs.size + n → (bs.append_impl n b).get i = b)) := by
  have key : ∀ bv : bitvector, (bv.resize (bv.size + n) b).size = bv.size + n
      ∧ (∀ i, i < bv.size → (bv.resize (bv.size + n) b).get i = bv.get i)
      ∧ (∀ i, bv.size ≤ i → i < bv.size + n → (bv.resize (bv.size + n) b).get i = b) := by
    intro bv
    have hs : (bv.resize (bv.size + n) b).size = bv.size + n := by
      have := congrArg List.length (bitvector.bits_resize_grow bv n b)
      simpa [bitvector.length_bits] using this
    refine ⟨hs, ?_, ?_⟩
    · intro i hi
      rw [bitvector.get_eq_getD_bits _ i (by omega), bitvector.bits_resize_grow,
        ← bitvector.getD_bits bv i hi]
      simp [List.getD_eq_getElem?_getD,
        List.getElem?_append_left (by rw [bitvector.length_bits]; exact hi)]
    · intro i h1 h2
      rw [bitvector.get_eq_getD_bits _ i (by omega), bitvector.bits_resize_grow]
      have hl : bv.bits.length ≤ i := by rw [bitvector.length_bits]; exact h1
      simp only [List.getD_eq_getElem?_getD, List.getElem?_append_right hl,
        bitvector.length_bits]
      rw [List.getElem?_replicate]
      simp [show i - bv.size < n by omega]
  exact ⟨key bm.bitvector_, key bs.bits_⟩

theorem append_bits_extends_witness :
    0 < (null_bitmap.of_appends [true, false]).size
      ∧ ((null_bitmap.of_appends [true, false]).append_bits true 70).bitvector_.get 0
          = (null_bitmap.of_appends [true, false]).bitvector_.get 0 :=
  ⟨by decide,
    (append_bits_extends (null_bitmap.of_appends [true, false])
      ⟨bitvector.of_bits [true]⟩ true 70).1.2.1 0 (by decide)⟩

/-! ## Decimal strings -/

theorem digit_char_all :
    ∀ d, d < 10 →
      ((digit_char d).isDigit = true ∧ (digit_char d).toNat - 48 = d
        ∧ digit_char d ≠ ',') := by
  decide

theorem digit_char_spec (d : Nat) (h : d < 10) :
    (digit_char d).isDigit = true ∧ (digit_char d).toNat - 48 = d
      ∧ digit_char d ≠ ',' :=
  digit_char_all d h

theorem decimal_digits_spec :
    ∀ (fuel n : Nat), n < fuel →
      (∀ d ∈ decimal_digits fuel n, d < 10) ∧ decimal_digits fuel n ≠ []
        ∧ (decimal_digits fuel n).foldr (fun d acc => d + 10 * acc) 0 = n := by
  intro fuel
  induction fuel with
  | zero => intro n h; omega
  | succ f ih =>
    intro n h
    rw [decimal_digits]
    by_cases h1 : n < 10
    · simp [h1]
    · obtain ⟨a1, _, a3⟩ := ih (n / 10) (by omega)
      simp only [h1, if_false]
      refine ⟨?_, by simp, ?_⟩
      · intro d hd
        rcases List.mem_cons.1 hd with rfl | hd
        · omega
        · exact a1 d hd
      · simp only [List.foldr_cons, a3]
        omega

theorem to_size_t_digits (ds : List Nat) (h : ∀ d ∈ ds, d < 10) :
    (ds.reverse.map digit_char).foldl to_size_t_step (some 0)
      = some (ds.foldr (fun d acc => d + 10 * acc) 0) := by
  induction ds with
  | nil => simp
  | cons d ds ih =>
    obtain ⟨b1, b2, _⟩ := digit_char_spec d (h d (List.mem_cons_self d ds))
    rw [List.reverse_cons, List.map_append, List.foldl_append,
      ih (fun x hx => h x (List.mem_cons_of_mem d hx))]
    simp only [List.map_cons, List.map_nil, List.foldl_cons, List.foldl_nil, to_size_t_step,
      b1, if_true, b2, List.foldr_cons]
    congr 1
    omega

theorem to_size_t_to_string (n : Nat) : to_size_t (to_string n) = some n := by
  obtain ⟨a1, a2, a3⟩ := decimal_digits_spec (n + 1) n (by omega)
  have hne : to_string n ≠ [] := by
    simp [to_string, a2]
  rw [to_size_t, if_neg hne, to_string, to_size_t_digits _ a1, a3]

theorem to_string_no_comma (n : Nat) : ',' ∉ to_string n := by
  obtain ⟨a1, _, _⟩ := decimal_digits_spec (n + 1) n (by omega)
  intro h
  simp only [to_string, List.mem_map, List.mem_reverse] at h
  obtain ⟨d, hd, e⟩ := h
  exact (digit_char_spec d (a1 d hd)).2.2 e

/-! ## Splitting and the file name of a path -/

theorem split_of_not_mem (sep : Char) (a : List Char) (h : sep ∉ a) :
    split sep a = [a] := by
  induction a with
  | nil => simp [split]
  | cons c cs ih =>
    have h1 : ¬ c = sep := fun e => h (e ▸ List.mem_cons_self c cs)
    have h2 : sep ∉ cs := fun m => h (List.mem_cons_of_mem c m)
    rw [split, if_neg h1, ih h2]

theorem split_append_sep (sep : Char) (a b : List Char) (h : sep ∉ a) :
    split sep (a ++ sep :: b) = a :: split sep b := by
  induction a with
  | nil => simp [split]
  | cons c cs ih =>
    have h1 : ¬ c = sep := fun e => h (e ▸ List.mem_cons_self c cs)
    have h2 : sep ∉ cs := fun m => h (List.mem_cons_of_mem c m)
    rw [List.cons_append, split, if_neg h1, ih h2]

theorem argument_fragment.split_store_offset (p : offset) (hp : p ≠ []) :
    split ',' (argument_fragment.store_offset p) = p.map to_string := by
  induction p with
  | nil => exact absurd rfl hp
  | cons x xs ih =>
    cases xs with
    | nil =>
      simp [argument_fragment.store_offset, split_of_not_mem _ _ (to_string_no_comma x)]
    | cons y ys =>
      rw [argument_fragment.store_offset, split_append_sep _ _ _ (to_string_no_comma x),
        ih (by simp)]
      simp

theorem argument_fragment.load_pieces_to_string (p : offset) :
    argument_fragment.load_pieces (p.map to_string) = some p := by
  induction p with
  | nil => simp [argument_fragment.load_pieces]
  | cons x xs ih =>
    simp [argument_fragment.load_pieces, to_size_t_to_string, ih]

theorem basename_stripped_idx (s : List Char) :
    basename_stripped (s ++ ".idx".toList) = s := by
  have h : (s ++ ".idx".toList).reverse = 'x' :: 'd' :: 'i' :: '.' :: s.reverse := by
    simp
  rw [basename_stripped, h]
  simp [List.dropWhile]

theorem argument_fragment.load_offset_store_filename (p : offset) (hp : p ≠ []) :
    argument_fragment.load_offset (argument_fragment.store_filename p) = some p := by
  rw [argument_fragment.load_offset, argument_fragment.store_filename,
    basename_stripped_idx]
  simp [argument_fragment.split_store_offset p hp,
    argument_fragment.load_pieces_to_string]

/-- C13: for a non-empty offset-path `p`, the path that `load` derives from the
file name that `store` gives `p` is `p`; so two non-empty paths with the same
file name are equal. -/
theorem argument_fragment_filename_roundtrip (p : offset) (hp : p ≠ []) :
    argument_fragment.load_offset (argument_fragment.store_filename p) = some p
      ∧ ∀ q : offset, q ≠ [] →
          argument_fragment.store_filename p = argument_fragment.store_filename q →
          p = q := by
  refine ⟨argument_fragment.load_offset_store_filename p hp, ?_⟩
  intro q hq e
  have h1 := argument_fragment.load_offset_store_filename p hp
  rw [e, argument_fragment.load_offset_store_filename q hq] at h1
  exact (Option.some.inj h1).symm

theorem argument_fragment_filename_roundtrip_witness :
    ([2, 0] : offset) ≠ []
      ∧ argument_fragment.load_offset (argument_fragment.store_filename [2, 0])
          = some [2, 0] :=
  ⟨by decide, (argument_fragment_filename_roundtrip [2, 0] (by decide)).1⟩

/-! ## Association lists -/

theorem lookup_map_update {α β : Type} [BEq α] [LawfulBEq α] [DecidableEq α]
    (l : List (α × β)) (k k' : α) (b : β) :
    (l.map (fun p => if p.1 = k then (p.1, b) else p)).lookup k'
      = if k' = k then (l.lookup k').map (fun _ => b) else l.lookup k' := by
  induction l with
  | nil => simp only [List.map_nil, List.lookup, Option.map_none', ite_self]
  | cons p l ih =>
    obtain ⟨a, c⟩ := p
    rw [List.map_cons]
    by_cases h2 : a = k
    · rw [if_pos h2]
      by_cases h1 : k' = a
      · subst h2
        subst h1
        simp [List.lookup]
      · have h1' : (k' == a) = false := by simpa using h1
        simp only [List.lookup, h1', ih]
    · rw [if_neg h2]
      by_cases h1 : k' = a
      · subst h1
        simp [List.lookup, h2]
      · have h1' : (k' == a) = false := by simpa using h1
        simp only [List.lookup, h1', ih]

theorem lookup_append_singleton {α β : Type} [BEq α] [LawfulBEq α] [DecidableEq α]
    (l : List (α × β)) (k k' : α) (b : β) :
    (l ++ [(k, b)]).lookup k'
      = match l.lookup k' with
        | some x => some x
        | none => if k' = k then some b else none := by
  induction l with
  | nil =>
    by_cases h1 : k' = k
    · subst h1; simp [List.lookup]
    · have h1' : (k' == k) = false := by simpa using h1
      simp [List.lookup, h1', h1]
  | cons p l ih =>
    obtain ⟨a, c⟩ := p
    by_cases h1 : k' = a
    · subst h1; simp [List.lookup]
    · have h1' : (k' == a) = false := by simpa using h1
      simp only [List.cons_append, List.lookup, h1']
      exact ih

theorem lookup_isSome_of_mem {α β : Type} [BEq α] [LawfulBEq α] [DecidableEq α]
    (l : List (α × β)) (k : α) (h : k ∈ l.map Prod.fst) : ∃ b, l.lookup k = some b := by
  induction l with
  | nil => exact absurd h (List.not_mem_nil k)
  | cons p l ih =>
    obtain ⟨a, c⟩ := p
    by_cases h1 : k = a
    · subst h1
      exact ⟨c, by simp [List.lookup]⟩
    · have h1' : (k == a) = false := by simpa using h1
      rw [List.map_cons, List.mem_cons] at h
      rcases h with h | h
      · exact absurd h h1
      · obtain ⟨b', hb⟩ := ih h
        exact ⟨b', by simp only [List.lookup, h1', hb]⟩

theorem mem_of_lookup_eq_some {α β : Type} [BEq α] [LawfulBEq α] [DecidableEq α]
    (l : List (α × β)) (k : α) (b : β) (h : l.lookup k = some b) :
    k ∈ l.map Prod.fst := by
  induction l with
  | nil => exact absurd h (by simp only [List.lookup, reduceCtorEq, not_false_eq_true])
  | cons p l ih =>
    obtain ⟨a, c⟩ := p
    by_cases h1 : k = a
    · subst h1
      exact List.mem_cons_self _ _
    · have h1' : (k == a) = false := by simpa using h1
      simp only [List.lookup, h1'] at h
      exact List.mem_cons_of_mem _ (ih h)

theorem lookup_eq_none_of_not_mem {α β : Type} [BEq α] [LawfulBEq α] [DecidableEq α]
    (l : List (α × β)) (k : α) (h : k ∉ l.map Prod.fst) : l.lookup k = none := by
  cases hl : l.lookup k with
  | none => rfl
  | some b => exact absurd (mem_of_lookup_eq_some l k b hl) h

/-! ## Files of a directory -/

theorem serialization.unarchive_archive (d : directory) (n n' : List Char)
    (bmi : bitmap_index) :
    serialization.unarchive (serialization.archive d n bmi) n'
      = if n' = n then some bmi else serialization.unarchive d n' := by
  simp only [serialization.unarchive, serialization.archive]
  cases hl : List.lookup n d with
  | some b0 =>
    simp only [Option.isSome_some, if_true]
    rw [lookup_map_update]
    by_cases h1 : n' = n
    · subst h1
      simp [hl]
    · simp [h1]
  | none =>
    simp only [Option.isSome_none, Bool.false_eq_true, if_false]
    rw [lookup_append_singleton]
    by_cases h1 : n' = n
    · subst h1
      simp [hl]
    · simp only [h1, if_false]
      cases List.lookup n' d <;> rfl

theorem serialization.mem_names_archive (d : directory) (n p : List Char)
    (bmi : bitmap_index) (h : p ∈ (serialization.archive d n bmi).map Prod.fst) :
    p ∈ d.map Prod.fst ∨ p = n := by
  simp only [serialization.archive] at h
  split at h
  · left
    rw [List.map_map] at h
    obtain ⟨f, hf, e⟩ := List.mem_map.1 h
    have : f.1 = p := by
      by_cases hk : f.1 = n
      · simpa [hk] using e
      · simpa [hk] using e
    exact List.mem_map.2 ⟨f, hf, this⟩
  · rw [List.map_append, List.mem_append] at h
    rcases h with h | h
    · exact Or.inl h
    · right
      simpa using h

/-! ## `store` followed by `load` -/

theorem argument_fragment.store_filename_injective (p q : offset) (hp : p ≠ [])
    (hq : q ≠ [])
    (e : argument_fragment.store_filename p = argument_fragment.store_filename q) :
    p = q := by
  have h1 := argument_fragment.load_offset_store_filename p hp
  rw [e, argument_fragment.load_offset_store_filename q hq] at h1
  exact (Option.some.inj h1).symm

theorem argument_fragment.unarchive_store (entries : List (offset × bitmap_index)) :
    ∀ (d : directory) (o : offset), o ≠ [] → (∀ p ∈ entries, p.1 ≠ []) →
      (entries.map Prod.fst).Nodup →
      serialization.unarchive
          (entries.foldl
            (fun d p => serialization.archive d (argument_fragment.store_filename p.1) p.2)
            d)
          (argument_fragment.store_filename o)
        = match entries.lookup o with
          | some b => some b
          | none => serialization.unarchive d (argument_fragment.store_filename o) := by
  induction entries with
  | nil => intro d o _ _ _; simp only [List.foldl_nil, List.lookup]
  | cons p rest ih =>
    intro d o ho hne hnd
    obtain ⟨o0, b0⟩ := p
    rw [List.map_cons, List.nodup_cons] at hnd
    have hne' : ∀ q ∈ rest, q.1 ≠ [] := fun q hq => hne q (List.mem_cons_of_mem _ hq)
    have ho0 : o0 ≠ [] := hne (o0, b0) (List.mem_cons_self _ _)
    rw [List.foldl_cons, ih _ o ho hne' hnd.2, serialization.unarchive_archive]
    by_cases h1 : o = o0
    · subst h1
      have hl : List.lookup o rest = none := lookup_eq_none_of_not_mem rest o hnd.1
      simp [hl, List.lookup]
    · have h1' : (o == o0) = false := by simpa using h1
      have h2 : ¬ argument_fragment.store_filename o = argument_fragment.store_filename o0 :=
        fun e => h1 (argument_fragment.store_filename_injective o o0 ho ho0 e)
      simp only [List.lookup, h1', h2, if_false]

theorem argument_fragment.mem_names_store (entries : List (offset × bitmap_index)) :
    ∀ (d : directory) (n : List Char),
      n ∈ (entries.foldl
            (fun d p => serialization.archive d (argument_fragment.store_filename p.1) p.2)
            d).map Prod.fst →
      n ∈ d.map Prod.fst ∨ ∃ q ∈ entries, n = argument_fragment.store_filename q.1 := by
  induction entries with
  | nil => intro d n h; exact Or.inl h
  | cons p rest ih =>
    intro d n h
    rw [List.foldl_cons] at h
    rcases ih _ n h with h1 | ⟨q, hq, e⟩
    · rcases serialization.mem_names_archive d _ n _ h1 with h2 | h2
      · exact Or.inl h2
      · exact Or.inr ⟨p, List.mem_cons_self _ _, h2⟩
    · exact Or.inr ⟨q, List.mem_cons_of_mem _ hq, e⟩

theorem argument_fragment.load_paths_spec (d : directory) :
    ∀ (ps : List (List Char)) (acc : argument_fragment),
      (∀ p ∈ ps, ∃ o b, argument_fragment.load_offset p = some o
        ∧ serialization.unarchive d p = some b) →
      ∃ res, argument_fragment.load_paths d ps acc = some res
        ∧ ∀ o, res.find o
            = match acc.find o with
              | some x => some x
              | none =>
                (ps.find? (fun p => decide (argument_fragment.load_offset p = some o))).bind
                  (serialization.unarchive d) := by
  intro ps
  induction ps with
  | nil =>
    intro acc _
    refine ⟨acc, rfl, ?_⟩
    intro o
    cases acc.find o <;> rfl
  | cons p ps ih =>
    intro acc h
    obtain ⟨o0, b0, e1, e2⟩ := h p (List.mem_cons_self _ _)
    obtain ⟨res, r1, r2⟩ := ih (acc.emplace o0 b0)
      (fun q hq => h q (List.mem_cons_of_mem _ hq))
    refine ⟨res, ?_, ?_⟩
    · rw [argument_fragment.load_paths, e1, e2]
      exact r1
    · intro o
      rw [r2 o]
      cases h0 : acc.find o0 with
      | some x0 =>
        have hem : acc.emplace o0 b0 = acc := by
          have h0' : List.lookup o0 acc.indexes_ = some x0 := h0
          simp [argument_fragment.emplace, h0']
        rw [hem]
        cases h3 : acc.find o with
        | some x => rfl
        | none =>
          have hne : ¬ o0 = o := by
            intro e
            rw [e, h3] at h0
            cases h0
          have hd : decide (argument_fragment.load_offset p = some o) = false := by
            rw [e1]
            simpa using hne
          simp only [List.find?, hd]
      | none =>
        rw [argument_fragment.find_emplace acc o0 o b0 h0]
        by_cases h3 : o = o0
        · subst h3
          have hd : decide (argument_fragment.load_offset p = some o) = true := by
            rw [e1]
            simp
          simp only [if_true, h0, List.find?, hd, Option.bind, e2]
        · have hd : decide (argument_fragment.load_offset p = some o) = false := by
            rw [e1]
            simpa using fun e : o0 = o => h3 e.symm
          simp only [h3, if_false, List.find?, hd]

theorem meta_fragment.meta_load_store (self other : meta_fragment) (d : directory) :
    other.load (self.store d) = some self := by
  simp +decide [meta_fragment.load, meta_fragment.store, serialization.unarchive_archive]

theorem type_fragment.type_load_store (self other : type_fragment) (d : directory) :
    other.load (self.store d) = some self := by
  simp +decide [type_fragment.load, type_fragment.store, serialization.unarchive_archive]

theorem argument_fragment.argument_load_store (self : argument_fragment) (d : directory)
    (hnd : (self.indexes_.map Prod.fst).Nodup)
    (hne : ∀ p ∈ self.indexes_, p.1 ≠ [])
    (hd : ∀ n ∈ d.map Prod.fst,
      ∃ q ∈ self.indexes_, n = argument_fragment.store_filename q.1) :
    ∃ loaded, argument_fragment.fresh.load (self.store d) = some loaded
      ∧ ∀ o, loaded.find o = self.find o := by
  have H1 : ∀ n ∈ (self.store d).map Prod.fst,
      ∃ q ∈ self.indexes_, n = argument_fragment.store_filename q.1 := by
    intro n hn
    rcases argument_fragment.mem_names_store self.indexes_ d n hn with h | h
    · exact hd n h
    · exact h
  have H2 : ∀ n ∈ (self.store d).map Prod.fst,
      ∃ o b, argument_fragment.load_offset n = some o
        ∧ serialization.unarchive (self.store d) n = some b := by
    intro n hn
    obtain ⟨q, hq, e⟩ := H1 n hn
    obtain ⟨b, hb⟩ := lookup_isSome_of_mem (self.store d) n hn
    exact ⟨q.1, b, by rw [e, argument_fragment.load_offset_store_filename q.1 (hne q hq)], hb⟩
  obtain ⟨res, r1, r2⟩ :=
    argument_fragment.load_paths_spec (self.store d) ((self.store d).map Prod.fst)
      argument_fragment.fresh H2
  refine ⟨res, r1, ?_⟩
  intro o
  rw [r2 o]
  have hfresh : argument_fragment.fresh.find o = none := rfl
  rw [hfresh]
  simp only
  cases hs : self.find o with
  | some b =>
    have hmem : o ∈ self.indexes_.map Prod.fst := mem_of_lookup_eq_some _ o b hs
    obtain ⟨q, hq, eq⟩ := List.mem_map.1 hmem
    have ho : o ≠ [] := eq ▸ hne q hq
    have hu : serialization.unarchive (self.store d) (argument_fragment.store_filename o)
        = some b := by
      have := argument_fragment.unarchive_store self.indexes_ d o ho hne hnd
      have hs' : List.lookup o self.indexes_ = some b := hs
      rw [hs'] at this
      exact this
    have hin : argument_fragment.store_filename o ∈ (self.store d).map Prod.fst :=
      mem_of_lookup_eq_some _ _ b hu
    cases hf : List.find?
        (fun p => decide (argument_fragment.load_offset p = some o))
        ((self.store d).map Prod.fst) with
    | none =>
      have := List.find?_eq_none.1 hf _ hin
      simp [argument_fragment.load_offset_store_filename o ho] at this
    | some p0 =>
      have hp := List.find?_some hf
      have hm := List.mem_of_find?_eq_some hf
      obtain ⟨q', hq', e'⟩ := H1 p0 hm
      rw [e', argument_fragment.load_offset_store_filename q'.1 (hne q' hq')] at hp
      have : q'.1 = o := by simpa using hp
      rw [this] at e'
      rw [Option.bind, e', hu]
  | none =>
    cases hf : List.find?
        (fun p => decide (argument_fragment.load_offset p = some o))
        ((self.store d).map Prod.fst) with
    | none => rfl
    | some p0 =>
      have hp := List.find?_some hf
      have hm := List.mem_of_find?_eq_some hf
      obtain ⟨q', hq', e'⟩ := H1 p0 hm
      rw [e', argument_fragment.load_offset_store_filename q'.1 (hne q' hq')] at hp
      have h1 : q'.1 = o := by simpa using hp
      have h2 : o ∈ self.indexes_.map Prod.fst := List.mem_map.2 ⟨q', hq', h1⟩
      obtain ⟨b, hb⟩ := lookup_isSome_of_mem self.indexes_ o h2
      have hs' : List.lookup o self.indexes_ = none := hs
      rw [hs'] at hb
      cases hb

/-- C14: `store()` followed by `load()` on another instance of the fragment
and the same directory gives back the indexes that were stored.  For
`meta_fragment` and `type_fragment` the loaded fragment is the stored one, and
the file names of each are pairwise distinct.  For `argument_fragment` (a map
with one entry per path, all paths non-empty, storing into a directory whose
files all belong to paths of the fragment) the fresh instance loads a map that
holds under every path the index the stored fragment holds there, and the file
names of different paths differ. -/
theorem fragment_store_load_roundtrip :
    (∀ (self other : meta_fragment) (d : directory),
        other.load (self.store d) = some self)
      ∧ ["timestamp.idx".toList, "name.idx".toList].Nodup
      ∧ (∀ (self other : type_fragment) (d : directory),
          other.load (self.store d) = some self)
      ∧ ["bool.idx".toList, "int.idx".toList, "uint.idx".toList, "double.idx".toList,
          "time-range.idx".toList, "time-point.idx".toList, "string.idx".toList,
          "address.idx".toList, "port.idx".toList].Nodup
      ∧ (∀ (self : argument_fragment) (d : directory),
          (self.indexes_.map Prod.fst).Nodup →
          (∀ p ∈ self.indexes_, p.1 ≠ []) →
          (∀ n ∈ d.map Prod.fst,
            ∃ q ∈ self.indexes_, n = argument_fragment.store_filename q.1) →
          (∃ loaded, argument_fragment.fresh.load (self.store d) = some loaded
            ∧ ∀ o, loaded.find o = self.find o)
          ∧ ∀ p ∈ self.indexes_, ∀ q ∈ self.indexes_,
              argument_fragment.store_filename p.1 = argument_fragment.store_filename q.1 →
              p.1 = q.1) := by
  refine ⟨meta_fragment.meta_load_store, by decide, type_fragment.type_load_store, by decide, ?_⟩
  intro self d hnd hne hd
  refine ⟨argument_fragment.argument_load_store self d hnd hne hd, ?_⟩
  intro p hp q hq e
  exact argument_fragment.store_filename_injective p.1 q.1 (hne p hp) (hne q hq) e

theorem fragment_store_load_roundtrip_witness :
    ((argument_fragment.mk
        [([0], ⟨.int_type, [some (.int 1)]⟩), ([1, 0], ⟨.string_type, []⟩)]).indexes_.map
        Prod.fst).Nodup
      ∧ ∃ loaded,
          argument_fragment.fresh.load
              ((argument_fragment.mk
                [([0], ⟨.int_type, [some (.int 1)]⟩), ([1, 0], ⟨.string_type, []⟩)]).store [])
            = some loaded
          ∧ ∀ o, loaded.find o
              = (argument_fragment.mk
                  [([0], ⟨.int_type, [some (.int 1)]⟩),
                    ([1, 0], ⟨.string_type, []⟩)]).find o :=
  ⟨by decide,
    (fragment_store_load_roundtrip.2.2.2.2
      ⟨[([0], ⟨.int_type, [some (.int 1)]⟩), ([1, 0], ⟨.string_type, []⟩)]⟩ []
      (by decide) (by decide) (by simp)).1⟩

/-! ## The file name that `store` gives a path -/

theorem digit_char_eq_digitChar : ∀ d, d < 10 → Nat.digitChar d = digit_char d := by
  decide

theorem toDigitsCore_eq_decimal_digits :
    ∀ (fuel n : Nat) (ds : List Char),
      Nat.toDigitsCore 10 fuel n ds
        = (decimal_digits fuel n).reverse.map digit_char ++ ds := by
  intro fuel
  induction fuel with
  | zero => intro n ds; simp [Nat.toDigitsCore, decimal_digits]
  | succ f ih =>
    intro n ds
    rw [Nat.toDigitsCore, decimal_digits]
    by_cases h : n < 10
    · have h1 : n / 10 = 0 := by omega
      have h2 : n % 10 = n := by omega
      simp [h, h1, h2, digit_char_eq_digitChar n h]
    · have h1 : ¬ n / 10 = 0 := by omega
      simp only [h1, h, if_false, ih, List.reverse_cons, List.map_append, List.map_cons,
        List.map_nil, List.append_assoc, List.singleton_append]
      rw [digit_char_eq_digitChar (n % 10) (by omega)]

theorem to_string_eq_toDigits (n : Nat) : to_string n = Nat.toDigits 10 n := by
  rw [Nat.toDigits, toDigitsCore_eq_decimal_digits, to_string, List.append_nil]

theorem argument_fragment.store_offset_eq_intercalate (p : offset) :
    argument_fragment.store_offset p = List.intercalate [','] (p.map to_string) := by
  induction p with
  | nil => simp [argument_fragment.store_offset, List.intercalate]
  | cons x xs ih =>
    cases xs with
    | nil => simp [argument_fragment.store_offset, List.intercalate]
    | cons y ys =>
      rw [argument_fragment.store_offset, ih]
      simp [List.intercalate, List.intersperse]

/-- C21: the file name that `argument_fragment::store` gives an offset-path is
the character `@`, then the decimal renderings of the components of the path
with one comma between two neighbours (none at the end), then `.idx`; the path
`[2,0]` is stored as `@2,0.idx`. -/
theorem argument_fragment_store_filename_shape :
    (∀ p : offset,
        argument_fragment.store_filename p
          = '@' :: (List.intercalate [','] (p.map to_string) ++ ['.', 'i', 'd', 'x']))
      ∧ (∀ n : Nat, to_string n = Nat.toDigits 10 n)
      ∧ argument_fragment.store_filename [2, 0] = "@2,0.idx".toList := by
  refine ⟨?_, to_string_eq_toDigits, by decide⟩
  intro p
  rw [argument_fragment.store_filename, argument_fragment.store_offset_eq_intercalate]
  rfl

/-! ## `load` on a directory with a foreign file -/

theorem argument_fragment.load_offset_of_assert (p : List Char)
    (h : argument_fragment.load_assert p = false) :
    argument_fragment.load_offset p = none := by
  unfold argument_fragment.load_assert at h
  unfold argument_fragment.load_offset
  cases hb : basename_stripped p with
  | nil => rfl
  | cons c rest =>
    rw [hb] at h
    have hc : ¬ c = '@' := by simpa using h
    simp only [hc, if_false]

theorem argument_fragment.load_paths_eq_members (d : directory) :
    ∀ (ps : List (List Char)) (self : argument_fragment),
      argument_fragment.load_paths d ps self
        = (argument_fragment.load_paths_outcome d ps self).members := by
  intro ps
  induction ps with
  | nil =>
    intro self
    simp [argument_fragment.load_paths, argument_fragment.load_paths_outcome,
      load_outcome.members]
  | cons p ps ih =>
    intro self
    rw [argument_fragment.load_paths, argument_fragment.load_paths_outcome]
    by_cases ha : argument_fragment.load_assert p = false
    · rw [argument_fragment.load_offset_of_assert p ha]
      simp only [ha, if_true, load_outcome.members]
    · simp only [ha, if_false]
      cases argument_fragment.load_offset p with
      | none => rfl
      | some o =>
        cases serialization.unarchive d p with
        | none => rfl
        | some bi => exact ih _

theorem argument_fragment.load_paths_invalid (d : directory) :
    ∀ (ps : List (List Char)) (self : argument_fragment),
      (∃ p ∈ ps, argument_fragment.load_offset p = none) →
      argument_fragment.load_paths d ps self = none := by
  intro ps
  induction ps with
  | nil => intro self h; obtain ⟨p, hp, _⟩ := h; cases hp
  | cons q qs ih =>
    intro self h
    rw [argument_fragment.load_paths]
    cases hq : argument_fragment.load_offset q with
    | none => rfl
    | some o =>
      cases serialization.unarchive d q with
      | none => rfl
      | some bi =>
        apply ih
        obtain ⟨p, hp, e⟩ := h
        rcases List.mem_cons.1 hp with rfl | hp
        · rw [hq] at e; cases e
        · exact ⟨p, hp, e⟩

theorem argument_fragment.load_paths_assertion (d : directory) :
    ∀ (ps : List (List Char)) (self : argument_fragment),
      (∀ p ∈ ps, p ∈ d.map Prod.fst) →
      (∃ p ∈ ps, argument_fragment.load_offset p = none) →
      (∀ p ∈ ps, argument_fragment.load_offset p = none →
        argument_fragment.load_assert p = false) →
      argument_fragment.load_paths_outcome d ps self = .assertion_failed := by
  intro ps
  induction ps with
  | nil => intro self _ h; obtain ⟨p, hp, _⟩ := h; cases hp
  | cons q qs ih =>
    intro self hm h ha
    rw [argument_fragment.load_paths_outcome]
    by_cases hq : argument_fragment.load_assert q = false
    · simp only [hq, if_true]
    · simp only [hq, if_false]
      cases ho : argument_fragment.load_offset q with
      | none => exact absurd (ha q (List.mem_cons_self q qs) ho) hq
      | some o =>
        obtain ⟨bi, hbi⟩ := lookup_isSome_of_mem d q (hm q (List.mem_cons_self q qs))
        have hu : serialization.unarchive d q = some bi := hbi
        simp only [hu]
        apply ih
        · exact fun p hp => hm p (List.mem_cons_of_mem q hp)
        · obtain ⟨p, hp, e⟩ := h
          rcases List.mem_cons.1 hp with rfl | hp
          · rw [ho] at e; cases e
          · exact ⟨p, hp, e⟩
        · exact fun p hp => ha p (List.mem_cons_of_mem q hp)

/-- C22, counterexample: for the directory with the two files `@0.idx` and
`x.idx`, `load` on a fresh fragment ends by the failed assertion
`str[0] == '@'` at `x.idx`, which aborts the program; it does not end by
reporting a format error. -/
theorem argument_fragment_load_assertion_not_format_error :
    argument_fragment.fresh.load_outcome
        [("@0.idx".toList, ⟨.int_type, [some (.int 1)]⟩),
          ("x.idx".toList, ⟨.int_type, []⟩)] = .assertion_failed
      ∧ argument_fragment.fresh.load_outcome
        [("@0.idx".toList, ⟨.int_type, [some (.int 1)]⟩),
          ("x.idx".toList, ⟨.int_type, []⟩)] ≠ .error ec.format_error := by
  decide

/-- C22, amended: when the directory holds a file whose name is not the
encoding of a path, `argument_fragment::load` does not reach its end, in
whatever order `ps` the files are visited, and `fragment::init` starts no
fragment, so that no partly loaded fragment exists; when each such name fails
the assertion `str[0] == '@'`, the call ends by the failed assertion, which is
not the report of an error. -/
theorem argument_fragment_load_stops_at_invalid_name (self : argument_fragment)
    (d : directory) (ps : List (List Char)) (hps : ps.Perm (d.map Prod.fst))
    (h : ∃ p ∈ d.map Prod.fst, argument_fragment.load_offset p = none) :
    (∀ s, argument_fragment.load_paths_outcome d ps self ≠ .returned s)
      ∧ argument_fragment.load_paths d ps self = none
      ∧ self.load d = none
      ∧ fragment.init argument_fragment.kind self (some d) = none
      ∧ ((∀ p ∈ d.map Prod.fst, argument_fragment.load_offset p = none →
            argument_fragment.load_assert p = false) →
          argument_fragment.load_paths_outcome d ps self = .assertion_failed
            ∧ ∀ e, argument_fragment.load_paths_outcome d ps self ≠ .error e) := by
  have h' : ∃ p ∈ ps, argument_fragment.load_offset p = none := by
    obtain ⟨p, hp, e⟩ := h
    exact ⟨p, hps.mem_iff.2 hp, e⟩
  have h1 := argument_fragment.load_paths_invalid d ps self h'
  have h2 : self.load d = none := argument_fragment.load_paths_invalid d _ self h
  refine ⟨?_, h1, h2, ?_, ?_⟩
  · intro s hs
    rw [argument_fragment.load_paths_eq_members, hs] at h1
    cases h1
  · simp only [fragment.init, argument_fragment.kind, h2]
  · intro ha
    have e := argument_fragment.load_paths_assertion d ps self
      (fun p hp => hps.mem_iff.1 hp) h' (fun p hp => ha p (hps.mem_iff.1 hp))
    refine ⟨e, ?_⟩
    intro x hx
    rw [e] at hx
    cases hx

theorem argument_fragment_load_stops_at_invalid_name_witness :
    argument_fragment.load_offset "x.idx".toList = none
      ∧ argument_fragment.load_paths_outcome
          [("x.idx".toList, ⟨.int_type, []⟩),
            ("@0.idx".toList, ⟨.int_type, [some (.int 1)]⟩)]
          ["@0.idx".toList, "x.idx".toList] argument_fragment.fresh = .assertion_failed
      ∧ fragment.init argument_fragment.kind argument_fragment.fresh
          (some [("x.idx".toList, ⟨.int_type, []⟩),
            ("@0.idx".toList, ⟨.int_type, [some (.int 1)]⟩)]) = none :=
  have h := argument_fragment_load_stops_at_invalid_name argument_fragment.fresh
    [("x.idx".toList, ⟨.int_type, []⟩), ("@0.idx".toList, ⟨.int_type, [some (.int 1)]⟩)]
    ["@0.idx".toList, "x.idx".toList] (List.Perm.swap _ _ _)
    ⟨"x.idx".toList, by decide, by decide⟩
  ⟨by decide, (h.2.2.2.2 (by decide)).1, h.2.2.2.1⟩

/-! ## `meta_fragment::index` -/

theorem fragment.append_value_cases (bmi : bitmap_index) (id : Nat) (v : value) :
    (fragment.append_value bmi id v).1 = decide (bmi.size ≤ id)
      ∧ (fragment.append_value bmi id v).2.size
          = if id < bmi.size then bmi.size
            else if id = bmi.size then bmi.size + 1 else id := by
  unfold fragment.append_value
  by_cases h1 : id < bmi.size
  · have h2 : ¬ bmi.size ≤ id := by omega
    simp [h1, h2]
  · have h2 : bmi.size ≤ id := by omega
    simp only [h1, if_false, h2, decide_True]
    by_cases h3 : id - bmi.size > 1
    · have h4 : ¬ id = bmi.size := by omega
      simp only [h3, if_true, bitmap_index.append, Bool.not_true, Bool.false_eq_true, if_false,
        bitmap_index.push_back, h4, true_and]
      simp only [bitmap_index.size] at h3 h4 ⊢
      simp only [List.length_append, List.length_replicate, List.length_singleton]
      omega
    · simp only [h3, if_false, bitmap_index.push_back, true_and]
      simp only [bitmap_index.size] at h3 h2 ⊢
      simp only [List.length_append, List.length_singleton]
      split <;> omega

theorem meta_fragment.index_lockstep (self : meta_fragment) (e : event)
    (h : self.timestamp_.size = self.name_.size) :
    (self.index e).1.timestamp_.size = (self.index e).1.name_.size := by
  simp only [meta_fragment.index]
  rw [(fragment.append_value_cases self.timestamp_ e.id _).2,
    (fragment.append_value_cases self.name_ e.id _).2, h]

/-- C23: when the timestamp index and the name index have equal size before
`meta_fragment::index(e)`, they have equal size after it (both appends succeed
or both fail, since they test the same ID against the same size); so from two
empty indexes the sizes are equal after every sequence of `index` calls. -/
theorem meta_fragment_index_lockstep :
    (∀ (self : meta_fragment) (e : event),
        self.timestamp_.size = self.name_.size →
        (self.index e).1.timestamp_.size = (self.index e).1.name_.size
          ∧ ((self.index e).2 = 0 ∨ (self.index e).2 = 2))
      ∧ (∀ es : List event,
          (es.foldl (fun s e => (meta_fragment.index s e).1)
              meta_fragment.fresh).timestamp_.size
            = (es.foldl (fun s e => (meta_fragment.index s e).1)
                meta_fragment.fresh).name_.size) := by
  refine ⟨?_, ?_⟩
  · intro self e h
    refine ⟨meta_fragment.index_lockstep self e h, ?_⟩
    simp only [meta_fragment.index]
    rw [(fragment.append_value_cases self.timestamp_ e.id _).1,
      (fragment.append_value_cases self.name_ e.id _).1, h]
    by_cases h1 : self.name_.size ≤ e.id <;> simp [h1]
  · intro es
    have key : ∀ (l : List event) (s : meta_fragment),
        s.timestamp_.size = s.name_.size →
        (l.foldl (fun s e => (meta_fragment.index s e).1) s).timestamp_.size
          = (l.foldl (fun s e => (meta_fragment.index s e).1) s).name_.size := by
      intro l
      induction l with
      | nil => intro s h; exact h
      | cons e l ih =>
        intro s h
        rw [List.foldl_cons]
        exact ih _ (meta_fragment.index_lockstep s e h)
    exact key es meta_fragment.fresh rfl

theorem meta_fragment_index_lockstep_witness :
    meta_fragment.fresh.timestamp_.size = meta_fragment.fresh.name_.size
      ∧ (meta_fragment.fresh.index ⟨5, 0, "e", []⟩).1.timestamp_.size
          = (meta_fragment.fresh.index ⟨5, 0, "e", []⟩).1.name_.size :=
  ⟨by decide,
    (meta_fragment_index_lockstep.1 meta_fragment.fresh ⟨5, 0, "e", []⟩ (by decide)).1⟩

/-! ## Termination of a fragment -/

/-- C24, counterexample: a meta fragment started on a missing directory that
receives two events of ID 0 has called `quit()` after the second `index`
(both appends fail), with no `store` among its calls and nothing in its
directory. -/
theorem meta_fragment_quits_without_store :
    (fragment.init meta_fragment.kind meta_fragment.fresh none).map
        (fun a =>
          ((fragment.run meta_fragment.kind a
              [.event ⟨0, 0, "e", []⟩, .event ⟨0, 0, "e", []⟩]).exited,
            (fragment.run meta_fragment.kind a
              [.event ⟨0, 0, "e", []⟩, .event ⟨0, 0, "e", []⟩]).calls,
            (fragment.run meta_fragment.kind a
              [.event ⟨0, 0, "e", []⟩, .event ⟨0, 0, "e", []⟩]).dir_))
      = some (true, [.mkdir, .index, .index, .quit, .quit], []) := by
  decide

/-- C24, amended: on the message kill a fragment performs `store()` and then
`quit()`; a type fragment and an argument fragment call `quit()` on no other
message; a meta fragment also calls `quit()` in `index()`, once for each of
its two appends that fails, and on that path it performs no `store()`. -/
theorem fragment_quit_paths :
    (∀ (σ : Type) (k : fragment_kind σ) (a : fragment_actor σ),
        a.exited = false →
        (fragment.handle k a .kill).1.exited = true
          ∧ (fragment.handle k a .kill).1.calls = a.calls ++ [.store, .quit]
          ∧ (fragment.handle k a .kill).1.dir_ = k.store a.members a.dir_)
      ∧ (∀ (a : fragment_actor type_fragment) (m : message),
          a.exited = false → (fragment.handle type_fragment.kind a m).1.exited = true →
          (fragment.handle type_fragment.kind a m).1.calls = a.calls ++ [.store, .quit])
      ∧ (∀ (a : fragment_actor argument_fragment) (m : message),
          a.exited = false →
          (fragment.handle argument_fragment.kind a m).1.exited = true →
          (fragment.handle argument_fragment.kind a m).1.calls
            = a.calls ++ [.store, .quit])
      ∧ (∀ (a : fragment_actor meta_fragment) (e : event),
          a.exited = false →
          (fragment.handle meta_fragment.kind a (.event e)).1.exited
              = decide (0 < (a.members.index e).2)
            ∧ (fragment.handle meta_fragment.kind a (.event e)).1.calls
              = a.calls ++ .index :: List.replicate (a.members.index e).2 .quit
            ∧ (fragment.handle meta_fragment.kind a (.event e)).1.dir_ = a.dir_) := by
  refine ⟨?_, ?_, ?_, ?_⟩
  · intro σ k a h
    simp [fragment.handle, h]
  · intro a m h
    cases m <;> simp [fragment.handle, h, type_fragment.kind]
  · intro a m h
    cases m <;> simp [fragment.handle, h, argument_fragment.kind]
  · intro a e h
    simp [fragment.handle, h, meta_fragment.kind]

theorem fragment_quit_paths_witness :
    (fragment_actor.mk meta_fragment.fresh [] false [.mkdir]).exited = false
      ∧ (fragment.handle meta_fragment.kind
          (fragment_actor.mk meta_fragment.fresh [] false [.mkdir]) .kill).1.calls
        = [.mkdir] ++ [.store, .quit] :=
  ⟨rfl,
    (fragment_quit_paths.1 meta_fragment meta_fragment.kind
      (fragment_actor.mk meta_fragment.fresh [] false [.mkdir]) rfl).2.1⟩

/-! ## Values without an index, and `lookup` -/

/-- C25, counterexample: `index_impl` on the nil value (its type has no index)
returns `true`. -/
theorem type_fragment_index_impl_unsupported_true :
    (type_fragment.index_impl type_fragment.fresh 0 .nil).1 = true := by
  decide

/-- C25, amended: `index_impl` applied to a value that is not a record and
whose type is none of the nine primitive types returns `true` (the error is
only logged) and leaves every index unchanged. -/
theorem type_fragment_index_impl_unsupported (self : type_fragment) (id : Nat)
    (v : value) (hr : v.which ≠ .record_type) (hc : self.column v.which = none) :
    type_fragment.index_impl self id v = (true, self) := by
  cases v <;> first
    | exact absurd rfl hr
    | (simp [type_fragment.index_impl]; done)
    | simp [type_fragment.column, value.which] at hc

theorem type_fragment_index_impl_unsupported_witness :
    (value.regex "a").which ≠ .record_type
      ∧ type_fragment.fresh.column (value.regex "a").which = none
      ∧ type_fragment.index_impl type_fragment.fresh 3 (.regex "a")
          = (true, type_fragment.fresh) :=
  ⟨by decide, by decide,
    type_fragment_index_impl_unsupported type_fragment.fresh 3 (.regex "a")
      (by decide) (by decide)⟩

/-- C27: `lookup` of each fragment kind returns the empty option and the
fragment as it was; a running fragment of each kind answers an expression with
a miss and keeps its members and its directory. -/
theorem fragment_lookup_miss :
    (∀ (self : meta_fragment) (x : expression), self.lookup x = (none, self))
      ∧ (∀ (self : type_fragment) (x : expression), self.lookup x = (none, self))
      ∧ (∀ (self : argument_fragment) (x : expression), self.lookup x = (none, self))
      ∧ (∀ (s : meta_fragment) (d : directory) (cs : List call) (x : expression),
          fragment.handle meta_fragment.kind ⟨s, d, false, cs⟩ (.expression x)
            = (⟨s, d, false, cs ++ [.lookup]⟩, some .miss))
      ∧ (∀ (s : type_fragment) (d : directory) (cs : List call) (x : expression),
          fragment.handle type_fragment.kind ⟨s, d, false, cs⟩ (.expression x)
            = (⟨s, d, false, cs ++ [.lookup]⟩, some .miss))
      ∧ (∀ (s : argument_fragment) (d : directory) (cs : List call) (x : expression),
          fragment.handle argument_fragment.kind ⟨s, d, false, cs⟩ (.expression x)
            = (⟨s, d, false, cs ++ [.lookup]⟩, some .miss)) := by
  refine ⟨fun _ _ => rfl, fun _ _ => rfl, fun _ _ => rfl, ?_, ?_, ?_⟩ <;>
    intro s d cs x <;> rfl

/-! ## The paths of an `argument_fragment` persist -/

theorem bitmap_index.extends_refl (b : bitmap_index) : b.extends_ b :=
  ⟨rfl, List.prefix_refl _⟩

theorem bitmap_index.extends_trans (a b c : bitmap_index) (h1 : a.extends_ b)
    (h2 : b.extends_ c) : a.extends_ c :=
  ⟨h2.1.trans h1.1, h1.2.trans h2.2⟩

theorem bitmap_index.extends_append_value (b : bitmap_index) (id : Nat) (v : value) :
    b.extends_ (fragment.append_value b id v).2 := by
  unfold fragment.append_value
  by_cases h1 : id < b.size
  · simp only [h1, if_true]
    exact bitmap_index.extends_refl b
  · simp only [h1, if_false]
    by_cases h3 : id - b.size > 1
    · simp only [h3, if_true, bitmap_index.append, Bool.not_true, Bool.false_eq_true,
        if_false, bitmap_index.push_back]
      exact ⟨rfl, by simp [List.append_assoc]⟩
    · simp only [h3, if_false, bitmap_index.push_back]
      exact ⟨rfl, by simp⟩

theorem bitmap_index.first_value_of_extends (b b' : bitmap_index) (v : value)
    (h : b.extends_ b') (hv : b.first_value = some v) : b'.first_value = some v := by
  obtain ⟨t, ht⟩ := h.2
  simp only [bitmap_index.first_value] at hv ⊢
  rw [← ht, List.filterMap_append]
  cases hl : List.filterMap id b.entries with
  | nil => rw [hl] at hv; cases hv
  | cons x xs =>
    rw [hl] at hv
    simpa using hv

theorem bitmap_index.filterMap_replicate_none (n : Nat) :
    List.filterMap (fun x => x) (List.replicate n (none : Option value)) = [] := by
  induction n with
  | zero => rfl
  | succ n ih => simp [List.replicate_succ, ih]

theorem bitmap_index.first_value_create (k : value_type) (i : Nat) (v : value) :
    (fragment.append_value (bitmap_index.create k) i v).2.kind = k
      ∧ (fragment.append_value (bitmap_index.create k) i v).2.first_value = some v := by
  have hid : (id : Option value → Option value) = fun x => x := rfl
  by_cases h : (bitmap_index.create k).size < i
  · rw [fragment.append_value_gap _ i v h]
    refine ⟨rfl, ?_⟩
    simp only [bitmap_index.first_value, bitmap_index.create, List.nil_append,
      List.filterMap_append, hid, bitmap_index.filterMap_replicate_none]
    rfl
  · have h0 : i = 0 := by
      simp only [bitmap_index.create, bitmap_index.size, List.length_nil] at h
      omega
    subst h0
    exact ⟨rfl, rfl⟩

theorem argument_fragment.grows_refl (ls : List value) (s : argument_fragment) :
    argument_fragment.grows ls s s := by
  refine ⟨fun o b h => ⟨b, h, bitmap_index.extends_refl b⟩, ?_⟩
  intro o b' h1 h2
  rw [h1] at h2
  cases h2

theorem argument_fragment.grows_trans (l1 l2 : List value) (s s1 s2 : argument_fragment)
    (h1 : argument_fragment.grows l1 s s1) (h2 : argument_fragment.grows l2 s1 s2) :
    argument_fragment.grows (l1 ++ l2) s s2 := by
  refine ⟨?_, ?_⟩
  · intro o b hb
    obtain ⟨b1, e1, x1⟩ := h1.1 o b hb
    obtain ⟨b2, e2, x2⟩ := h2.1 o b1 e1
    exact ⟨b2, e2, bitmap_index.extends_trans b b1 b2 x1 x2⟩
  · intro o b2 hn hb2
    cases e1 : s1.find o with
    | none =>
      obtain ⟨v, hv, k, f⟩ := h2.2 o b2 e1 hb2
      exact ⟨v, List.mem_append_right _ hv, k, f⟩
    | some b1 =>
      obtain ⟨v, hv, k, f⟩ := h1.2 o b1 hn e1
      obtain ⟨b2', e2, x2⟩ := h2.1 o b1 e1
      rw [hb2] at e2
      cases e2
      exact ⟨v, List.mem_append_left _ hv, x2.1.trans k,
        bitmap_index.first_value_of_extends b1 b2 v x2 f⟩

theorem argument_fragment.grows_append_left (l1 l2 : List value)
    (s s1 : argument_fragment) (h1 : argument_fragment.grows l1 s s1) :
    argument_fragment.grows (l1 ++ l2) s s1 := by
  have := argument_fragment.grows_trans l1 l2 s s1 s1 h1 (argument_fragment.grows_refl l2 s1)
  exact this

theorem argument_fragment.grows_body_scalar (v : value) (id : Nat)
    (st : argument_fragment × offset) (hv : v.which ≠ .record_type) :
    argument_fragment.grows [v] st.1 (argument_fragment.index_impl_body v id st).2.1 := by
  obtain ⟨self, o⟩ := st
  obtain ⟨self2, e, f⟩ := argument_fragment.index_impl_body_scalar v id self o hv
  rw [e]
  refine ⟨?_, ?_⟩
  · intro o' b hb
    simp only
    rw [f o']
    by_cases h : o' = o
    · subst h
      simp only [if_true]
      have hb' : self.find o' = some b := hb
      rw [hb', Option.getD_some]
      exact ⟨_, rfl, bitmap_index.extends_append_value b id v⟩
    · simp only [h, if_false]
      exact ⟨b, hb, bitmap_index.extends_refl b⟩
  · intro o' b' hn hb'
    simp only at hn hb'
    rw [f o'] at hb'
    by_cases h : o' = o
    · subst h
      simp only [if_true, hn, Option.getD_none, Option.some.injEq] at hb'
      subst hb'
      exact ⟨v, List.mem_singleton_self v,
        (bitmap_index.first_value_create v.which id v).1,
        (bitmap_index.first_value_create v.which id v).2⟩
    · simp only [h, if_false] at hb'
      rw [hn] at hb'
      cases hb'

mutual
theorem argument_fragment.grows_body :
    ∀ (v : value) (id : Nat) (st : argument_fragment × offset),
      argument_fragment.grows v.leaves st.1 (argument_fragment.index_impl_body v id st).2.1
  | .record inner, id, st => by
    rw [argument_fragment.index_impl_body, value.leaves]
    by_cases h : inner.isEmpty = true
    · simp only [h, Bool.not_true, Bool.false_eq_true, if_false]
      exact argument_fragment.grows_refl _ _
    · have h1 : (st.2 ++ [0]).isEmpty = false := by
        cases st.2 <;> rfl
      simp only [h, Bool.not_false, if_true, h1, Bool.false_eq_true, if_false]
      exact argument_fragment.grows_for inner id (st.1, st.2 ++ [0])
  | .nil, id, st => argument_fragment.grows_body_scalar .nil id st (by intro h; cases h)
  | .bool b, id, st => argument_fragment.grows_body_scalar (.bool b) id st (by intro h; cases h)
  | .int b, id, st => argument_fragment.grows_body_scalar (.int b) id st (by intro h; cases h)
  | .uint b, id, st => argument_fragment.grows_body_scalar (.uint b) id st (by intro h; cases h)
  | .double b, id, st => argument_fragment.grows_body_scalar (.double b) id st (by intro h; cases h)
  | .time_range b, id, st =>
    argument_fragment.grows_body_scalar (.time_range b) id st (by intro h; cases h)
  | .time_point b, id, st =>
    argument_fragment.grows_body_scalar (.time_point b) id st (by intro h; cases h)
  | .string b, id, st => argument_fragment.grows_body_scalar (.string b) id st (by intro h; cases h)
  | .regex b, id, st => argument_fragment.grows_body_scalar (.regex b) id st (by intro h; cases h)
  | .address b, id, st => argument_fragment.grows_body_scalar (.address b) id st (by intro h; cases h)
  | .pfx a b, id, st => argument_fragment.grows_body_scalar (.pfx a b) id st (by intro h; cases h)
  | .port b, id, st => argument_fragment.grows_body_scalar (.port b) id st (by intro h; cases h)
theorem argument_fragment.grows_for :
    ∀ (vs : List value) (id : Nat) (st : argument_fragment × offset),
      argument_fragment.grows (value.leaves_list vs) st.1
        (argument_fragment.index_impl_for vs id st).2.1
  | [], id, st => by
    rw [argument_fragment.index_impl_for]
    exact argument_fragment.grows_refl _ _
  | v :: rest, id, st => by
    rw [argument_fragment.index_impl_for, value.leaves_list]
    have hb := argument_fragment.grows_body v id st
    by_cases h : (argument_fragment.index_impl_body v id st).1 = true
    · simp only [h, Bool.not_true, Bool.false_eq_true, if_false]
      exact argument_fragment.grows_trans _ _ _ _ _ hb
        (argument_fragment.grows_for rest id (argument_fragment.index_impl_body v id st).2)
    · simp only [h, Bool.not_false, if_true]
      exact argument_fragment.grows_append_left _ _ _ _ hb
end

mutual
theorem value.leaves_not_record :
    ∀ (v w : value), w ∈ v.leaves → w.which ≠ .record_type
  | .record r, w, h => by
    rw [value.leaves] at h
    exact value.leaves_list_not_record r w h
  | .nil, w, h => by
    rw [value.leaves, List.mem_singleton] at h; subst h; intro e; cases e
  | .bool b, w, h => by
    rw [value.leaves, List.mem_singleton] at h; subst h; intro e; cases e
  | .int b, w, h => by
    rw [value.leaves, List.mem_singleton] at h; subst h; intro e; cases e
  | .uint b, w, h => by
    rw [value.leaves, List.mem_singleton] at h; subst h; intro e; cases e
  | .double b, w, h => by
    rw [value.leaves, List.mem_singleton] at h; subst h; intro e; cases e
  | .time_range b, w, h => by
    rw [value.leaves, List.mem_singleton] at h; subst h; intro e; cases e
  | .time_point b, w, h => by
    rw [value.leaves, List.mem_singleton] at h; subst h; intro e; cases e
  | .string b, w, h => by
    rw [value.leaves, List.mem_singleton] at h; subst h; intro e; cases e
  | .regex b, w, h => by
    rw [value.leaves, List.mem_singleton] at h; subst h; intro e; cases e
  | .address b, w, h => by
    rw [value.leaves, List.mem_singleton] at h; subst h; intro e; cases e
  | .pfx a b, w, h => by
    rw [value.leaves, List.mem_singleton] at h; subst h; intro e; cases e
  | .port b, w, h => by
    rw [value.leaves, List.mem_singleton] at h; subst h; intro e; cases e
theorem value.leaves_list_not_record :
    ∀ (l : List value) (w : value), w ∈ value.leaves_list l → w.which ≠ .record_type
  | [], w, h => by
    rw [value.leaves_list] at h
    cases h
  | v :: vs, w, h => by
    rw [value.leaves_list, List.mem_append] at h
    rcases h with h | h
    · exact value.leaves_not_record v w h
    · exact value.leaves_list_not_record vs w h
end

/-- C26: `argument_fragment::index` keeps every path of the map, with an index
of the same type whose entries start with the entries it had (nothing is
removed or replaced); a path that is new after the call holds an index whose
type is the type of a scalar of the record, and that scalar is the first value
of the index. -/
theorem argument_fragment_index_keeps_paths (self : argument_fragment) (e : event) :
    (∀ o b, self.find o = some b →
        ∃ b', (self.index e).find o = some b' ∧ b'.kind = b.kind
          ∧ b.entries <+: b'.entries)
      ∧ (∀ o b', self.find o = none → (self.index e).find o = some b' →
          ∃ v ∈ value.leaves_list e.fields,
            v.which ≠ .record_type ∧ b'.kind = v.which ∧ b'.first_value = some v) := by
  have hg : argument_fragment.grows (value.leaves_list e.fields) self (self.index e) := by
    rw [argument_fragment.index]
    by_cases h : e.fields.isEmpty = true
    · simp only [h, if_true]
      exact argument_fragment.grows_refl _ _
    · simp only [h, Bool.false_eq_true, if_false, argument_fragment.index_impl,
        List.isEmpty_cons]
      exact argument_fragment.grows_for e.fields e.id (self, [0])
  refine ⟨hg.1, ?_⟩
  intro o b' h1 h2
  obtain ⟨v, hv, k, f⟩ := hg.2 o b' h1 h2
  refine ⟨v, hv, ?_, k, f⟩
  exact value.leaves_list_not_record e.fields v hv

theorem argument_fragment_index_keeps_paths_witness :
    (argument_fragment.mk [([0], ⟨.int_type, [some (.int 1)]⟩)]).find [0]
        = some ⟨.int_type, [some (.int 1)]⟩
      ∧ ∃ b', ((argument_fragment.mk [([0], ⟨.int_type, [some (.int 1)]⟩)]).index
            ⟨1, 0, "e", [.int 2, .string "a"]⟩).find [0] = some b'
          ∧ b'.kind = (bitmap_index.mk .int_type [some (.int 1)]).kind
          ∧ (bitmap_index.mk .int_type [some (.int 1)]).entries <+: b'.entries :=
  ⟨by decide,
    (argument_fragment_index_keeps_paths
      (argument_fragment.mk [([0], ⟨.int_type, [some (.int 1)]⟩)])
      ⟨1, 0, "e", [.int 2, .string "a"]⟩).1 [0] ⟨.int_type, [some (.int 1)]⟩ (by decide)⟩

/-! ## The runs of a range, one after the other -/

theorem bitvector.get_of_segment_eq_replicate (bv : bitvector) (a m : Nat) (c : Bool)
    (h : bv.segment a m = List.replicate m c) (i : Nat) (h1 : a ≤ i) (h2 : i < a + m) :
    bv.get i = c := by
  have hmem : bv.get i ∈ bv.segment a m := by
    simp only [bitvector.segment, List.mem_map, List.mem_range'_1]
    exact ⟨i, ⟨h1, h2⟩, rfl⟩
  rw [h] at hmem
  exact (List.mem_replicate.1 hmem).2

theorem word.testBit_all (j : Nat) : word.all.testBit j = decide (j < 64) := by
  rw [word.all, word.width, Nat.testBit_two_pow_sub_one]

theorem word.eq_of_uniform_bits (w : Nat) (c : Bool) (hw : w < 2 ^ 64)
    (h : ∀ j, j < 64 → w.testBit j = c) : w = if c then word.all else 0 := by
  apply Nat.eq_of_testBit_eq
  intro j
  by_cases hj : j < 64
  · rw [h j hj]
    cases c
    · simp
    · simp only [if_true, word.testBit_all, hj, decide_True]
  · have h1 : w.testBit j = false :=
      Nat.testBit_lt_two_pow (Nat.lt_of_lt_of_le hw (Nat.pow_le_pow_right (by decide) (by omega)))
    rw [h1]
    cases c
    · simp
    · simp only [if_true, word.testBit_all, hj, decide_False]

theorem word.mask_eq_of_testBit_eq (x y p : Nat)
    (h : ∀ j, j < p → x.testBit j = y.testBit j) :
    x &&& word.mask p = y &&& word.mask p := by
  apply Nat.eq_of_testBit_eq
  intro j
  simp only [word.mask, Nat.testBit_and, Nat.testBit_two_pow_sub_one]
  by_cases hj : j < p
  · simp [hj, h j hj]
  · simp [hj]

theorem bits.segment_of_uniform (bv : bitvector) (r : bits) (a m : Nat) (c : Bool)
    (he : r.expand = bv.segment a m) (hu : r.uniform c) :
    bv.segment a m = List.replicate m c := by
  have hl : r.size = m := by
    have := congrArg List.length he
    rw [bits.length_expand, bitvector.length_segment] at this
    exact this
  rw [← he, hu, hl]

theorem null_bitmap_range.collect_ind (bv : bitvector) (hwf : bv.wf)
    (P : bits → Prop) (R : bits → bits → Prop)
    (hP : ∀ r0 r : null_bitmap_range, r0.bitvector_ = some bv →
      r0.block_ < bv.blocks.length → r0.scan = some r → P r.bits_)
    (hR : ∀ r0 r r' : null_bitmap_range, r0.bitvector_ = some bv →
      r0.block_ < bv.blocks.length → r0.scan = some r → r.block_ < bv.blocks.length →
      r.scan = some r' → R r.bits_ r'.bits_) :
    ∀ (d : Nat) (r0 r : null_bitmap_range) (fuel : Nat),
      r0.bitvector_ = some bv → r0.block_ < bv.blocks.length → r0.scan = some r →
      bv.blocks.length - r.block_ ≤ d → d + 2 ≤ fuel →
      ∃ rs, null_bitmap_range.collect fuel r = some (r.bits_ :: rs)
        ∧ (r.bits_ :: rs).Chain' R ∧ ∀ x ∈ r.bits_ :: rs, P x := by
  intro d
  induction d with
  | zero =>
    intro r0 r fuel hb hk hs hd hf
    obtain ⟨r1, e, b1, _, b3, _⟩ := null_bitmap_range.scan_spec bv hwf r0 hb hk
    rw [hs] at e
    cases e
    obtain ⟨rs, c1, c2, _⟩ := null_bitmap_range.collect_spec bv hwf 0 r fuel b1 b3 hd hf
    have hrs : rs = [] := List.length_eq_zero.1 (by omega)
    subst hrs
    refine ⟨[], c1, List.chain'_singleton _, ?_⟩
    intro x hx
    rw [List.mem_singleton] at hx
    subst hx
    exact hP r0 r hb hk hs
  | succ d ih =>
    intro r0 r fuel hb hk hs hd hf
    obtain ⟨r1, e, b1, _, b3, _⟩ := null_bitmap_range.scan_spec bv hwf r0 hb hk
    rw [hs] at e
    cases e
    by_cases hend : r.block_ = bv.blocks.length
    · obtain ⟨rs, c1, c2, _⟩ :=
        null_bitmap_range.collect_spec bv hwf 0 r fuel b1 b3 (by omega) (by omega)
      have hrs : rs = [] := List.length_eq_zero.1 (by omega)
      subst hrs
      refine ⟨[], c1, List.chain'_singleton _, ?_⟩
      intro x hx
      rw [List.mem_singleton] at hx
      subst hx
      exact hP r0 r hb hk hs
    · have hk' : r.block_ < bv.blocks.length := by omega
      obtain ⟨r', e', b1', b2', b3', _⟩ := null_bitmap_range.scan_spec bv hwf r b1 hk'
      obtain ⟨f, rfl⟩ : ∃ f, fuel = f + 1 := ⟨fuel - 1, by omega⟩
      obtain ⟨rs, c1, c2, c3⟩ := ih r r' f b1 hk' e' (by omega) (by omega)
      refine ⟨r'.bits_ :: rs, ?_, ?_, ?_⟩
      · rw [null_bitmap_range.collect]
        simp only [null_bitmap_range.done, b1, Option.isNone_some, Bool.false_eq_true,
          if_false, null_bitmap_range.next, hend, e', c1]
      · exact List.Chain'.cons (hR r0 r r' hb hk hs hk' e') c2
      · intro x hx
        rcases List.mem_cons.1 hx with rfl | hx
        · exact hP r0 r hb hk hs
        · exact c3 x hx

theorem null_bitmap.runs_ind (bm : null_bitmap) (hwf : bm.bitvector_.wf)
    (P : bits → Prop) (R : bits → bits → Prop)
    (hP : ∀ r0 r : null_bitmap_range, r0.bitvector_ = some bm.bitvector_ →
      r0.block_ < bm.bitvector_.blocks.length → r0.scan = some r → P r.bits_)
    (hR : ∀ r0 r r' : null_bitmap_range, r0.bitvector_ = some bm.bitvector_ →
      r0.block_ < bm.bitvector_.blocks.length → r0.scan = some r →
      r.block_ < bm.bitvector_.blocks.length → r.scan = some r' → R r.bits_ r'.bits_) :
    ∃ rs, bm.runs = some rs ∧ rs.Chain' R ∧ ∀ x ∈ rs, P x := by
  have hL := (bitvector.wf_iff bm.bitvector_).1 hwf
  by_cases h0 : bm.bitvector_.size = 0
  · refine ⟨[], ?_, List.chain'_nil, fun x hx => absurd hx (List.not_mem_nil x)⟩
    simp [null_bitmap.runs, null_bitmap_range.init, null_bitmap.empty, bitvector.empty, h0,
      null_bitmap_range.collect, null_bitmap_range.done]
  · have hinit : null_bitmap_range.init bm
        = null_bitmap_range.scan ⟨some bm.bitvector_, 0, ⟨0, 0⟩⟩ := by
      simp [null_bitmap_range.init, null_bitmap.empty, bitvector.empty, h0]
    have hk : (null_bitmap_range.mk (some bm.bitvector_) 0 ⟨0, 0⟩).block_
        < bm.bitvector_.blocks.length := by
      simp only; omega
    obtain ⟨r', e, b1, b2, b3, _⟩ :=
      null_bitmap_range.scan_spec bm.bitvector_ hwf ⟨some bm.bitvector_, 0, ⟨0, 0⟩⟩ rfl hk
    obtain ⟨rs, c1, c2, c3⟩ :=
      null_bitmap_range.collect_ind bm.bitvector_ hwf P R hP hR
        (bm.bitvector_.blocks.length - 1) ⟨some bm.bitvector_, 0, ⟨0, 0⟩⟩ r'
        (bm.bitvector_.blocks.length + 2) rfl hk e (by omega) (by omega)
    exact ⟨r'.bits_ :: rs, by simp only [null_bitmap.runs, hinit, e, c1], c2, c3⟩

theorem bitvector.block_of_uniform_segment (bv : bitvector) (hbd : bv.bounded) (k m : Nat)
    (c : Bool) (hk : k < bv.blocks.length) (hm : 64 ≤ m)
    (h : bv.segment (64 * k) m = List.replicate m c) :
    bv.blocks[k] = if c then word.all else 0 := by
  have hcur : bv.blocks[k]? = some bv.blocks[k] := List.getElem?_eq_getElem hk
  apply word.eq_of_uniform_bits _ c (hbd _ (List.getElem_mem hk))
  intro j hj
  rw [← bv.get_block k j _ hcur hj]
  exact bv.get_of_segment_eq_replicate _ _ c h _ (by omega) (by omega)

theorem null_bitmap_range.scan_pair (bv : bitvector) (hwf : bv.wf) (hbd : bv.bounded)
    (r0 r r' : null_bitmap_range) (hb : r0.bitvector_ = some bv)
    (hk : r0.block_ < bv.blocks.length) (hs : r0.scan = some r)
    (hk' : r.block_ < bv.blocks.length) (hs' : r.scan = some r') :
    ¬ ∃ c, r.bits_.uniform c ∧ r'.bits_.uniform c := by
  rintro ⟨c, hu, hu'⟩
  have hL := (bitvector.wf_iff bv).1 hwf
  obtain ⟨r1, e, b1, b2, b3, b4, b5, b6⟩ := null_bitmap_range.scan_spec bv hwf r0 hb hk
  rw [hs] at e
  cases e
  obtain ⟨r2, e', b1', b2', b3', b4', b5', _⟩ := null_bitmap_range.scan_spec bv hwf r b1 hk'
  rw [hs'] at e'
  cases e'
  obtain ⟨hk0, hstop⟩ := b6 hk'
  have hseg := bits.segment_of_uniform bv r.bits_ _ _ c b5 hu
  have hseg' := bits.segment_of_uniform bv r'.bits_ _ _ c b5' hu'
  have hg0 : bv.blocks.getD r0.block_ 0 = bv.blocks[r0.block_] := List.getD_eq_getElem _ _ hk
  have hd0 : bv.blocks[r0.block_] = if c then word.all else 0 :=
    bv.block_of_uniform_segment hbd _ _ c hk (by omega) hseg
  have hcur' : bv.blocks[r.block_]? = some bv.blocks[r.block_] := List.getElem?_eq_getElem hk'
  rw [hg0] at hstop
  rcases hstop with hA | ⟨hB1, hB2⟩ | ⟨hC1, hC2⟩
  · rw [hd0] at hA
    cases c
    · simp [word.all_or_none] at hA
    · simp [word.all_or_none] at hA
  · have hd : bv.blocks[r.block_] = if c then word.all else 0 :=
      bv.block_of_uniform_segment hbd _ _ c hk' (by omega) hseg'
    apply hB2
    rw [hcur', hd, hd0]
  · have hgl : bv.blocks.getD (bv.blocks.length - 1) 0 = bv.blocks[r.block_] := by
      rw [← hC1]
      exact List.getD_eq_getElem _ _ hk'
    rw [hgl] at hC2
    apply hC2
    by_cases hp : bv.size % 64 > 0
    · rw [if_pos hp]
      apply word.mask_eq_of_testBit_eq
      intro j hj
      have h1 : bv.blocks[r.block_].testBit j = c := by
        rw [← bv.get_block r.block_ j _ hcur' (by omega)]
        exact bv.get_of_segment_eq_replicate _ _ c hseg' _ (by omega) (by omega)
      have h2 : bv.blocks[r0.block_].testBit j = c := by
        rw [hd0]
        cases c
        · simp
        · simp only [if_true, word.testBit_all]
          simp
          omega
      rw [h1, h2]
    · rw [if_neg hp]
      have hd : bv.blocks[r.block_] = if c then word.all else 0 :=
        bv.block_of_uniform_segment hbd _ _ c hk' (by omega) hseg'
      rw [hd, hd0]

/-! ## Maximal runs, termination and run lengths of `null_bitmap_range` -/

/-- C28: for a bitmap whose bit vector is well formed and whose blocks are
words, the range emits its runs, and no two consecutive runs are both uniform
with the same bit value.  A call of `scan()` on a homogeneous block that stops
before the end of the block sequence stops at a full block that differs from
the scanned one, or at the last block when its valid bits do not match. -/
theorem null_bitmap_range_uniform_runs_maximal (bm : null_bitmap)
    (hwf : bm.bitvector_.wf) (hbd : bm.bitvector_.bounded) :
    (∃ rs, bm.runs = some rs
      ∧ rs.Chain' (fun r1 r2 => ¬ ∃ c, r1.uniform c ∧ r2.uniform c))
    ∧ ∀ r r' : null_bitmap_range, r.bitvector_ = some bm.bitvector_ →
        r.block_ < bm.bitvector_.blocks.length → r.scan = some r' →
        word.all_or_none (bm.bitvector_.blocks.getD r.block_ 0) = true →
        r'.block_ < bm.bitvector_.blocks.length →
        (r'.block_ < bm.bitvector_.blocks.length - 1
          ∧ bm.bitvector_.blocks[r'.block_]? ≠ some (bm.bitvector_.blocks.getD r.block_ 0))
        ∨ (r'.block_ = bm.bitvector_.blocks.length - 1
          ∧ ¬ (if bm.bitvector_.size % 64 > 0 then
                bm.bitvector_.blocks.getD (bm.bitvector_.blocks.length - 1) 0
                    &&& word.mask (bm.bitvector_.size % 64)
                  = bm.bitvector_.blocks.getD r.block_ 0
                    &&& word.mask (bm.bitvector_.size % 64)
              else bm.bitvector_.blocks.getD (bm.bitvector_.blocks.length - 1) 0
                  = bm.bitvector_.blocks.getD r.block_ 0)) := by
  constructor
  · obtain ⟨rs, h1, h2, _⟩ :=
      null_bitmap.runs_ind bm hwf (fun _ => True)
        (fun r1 r2 => ¬ ∃ c, r1.uniform c ∧ r2.uniform c)
        (fun _ _ _ _ _ => trivial)
        (fun r0 r r' hb hk hs hk' hs' =>
          null_bitmap_range.scan_pair bm.bitvector_ hwf hbd r0 r r' hb hk hs hk' hs')
    exact ⟨rs, h1, h2⟩
  · intro r r' hb hk hs hu hk'
    obtain ⟨r1, e, _, _, _, _, _, b6⟩ := null_bitmap_range.scan_spec bm.bitvector_ hwf r hb hk
    rw [hs] at e
    cases e
    rcases (b6 hk').2 with hA | hB | hC
    · rw [hu] at hA
      cases hA
    · exact Or.inl hB
    · exact Or.inr hC

theorem null_bitmap_range_uniform_runs_maximal_witness :
    (null_bitmap.mk ⟨[0, 0, 5, 0], 200⟩).bitvector_.wf
      ∧ (null_bitmap.mk ⟨[0, 0, 5, 0], 200⟩).bitvector_.bounded
      ∧ ∃ rs, (null_bitmap.mk ⟨[0, 0, 5, 0], 200⟩).runs = some rs
          ∧ rs.Chain' (fun r1 r2 => ¬ ∃ c, r1.uniform c ∧ r2.uniform c) :=
  ⟨by simp [bitvector.wf, word.width], by simp [bitvector.bounded, word.width],
    (null_bitmap_range_uniform_runs_maximal ⟨⟨[0, 0, 5, 0], 200⟩⟩
      (by simp [bitvector.wf, word.width])
      (by simp [bitvector.bounded, word.width])).1⟩

/-- C29: for a bitmap whose bit vector is well formed, with `k` blocks: a call
of `scan()` with the cursor inside the block sequence returns, advances the
cursor by at least one block and leaves it at most at the end; the iteration
returns at most `k` runs; and `next()` on a range that is not done returns, the
resulting range being `done()` exactly when the cursor stood at the end. -/
theorem null_bitmap_range_terminates (bm : null_bitmap) (hwf : bm.bitvector_.wf) :
    (∀ r : null_bitmap_range, r.bitvector_ = some bm.bitvector_ →
        r.block_ < bm.bitvector_.blocks.length →
        ∃ r', r.scan = some r' ∧ r'.bitvector_ = some bm.bitvector_
          ∧ r.block_ < r'.block_ ∧ r'.block_ ≤ bm.bitvector_.blocks.length)
    ∧ (∃ rs, bm.runs = some rs ∧ rs.length ≤ bm.bitvector_.blocks.length)
    ∧ (∀ r : null_bitmap_range, r.bitvector_ = some bm.bitvector_ →
        r.block_ ≤ bm.bitvector_.blocks.length →
        ∃ r', r.next = some r'
          ∧ (r'.done = true ↔ r.block_ = bm.bitvector_.blocks.length)) := by
  refine ⟨?_, ?_, ?_⟩
  · intro r hb hk
    obtain ⟨r', e, b1, b2, b3, _⟩ := null_bitmap_range.scan_spec bm.bitvector_ hwf r hb hk
    exact ⟨r', e, b1, b2, b3⟩
  · obtain ⟨rs, h1, h2, _⟩ := null_bitmap.runs_spec bm hwf
    exact ⟨rs, h1, h2⟩
  · intro r hb hk
    by_cases hend : r.block_ = bm.bitvector_.blocks.length
    · refine ⟨{ r with bitvector_ := none }, ?_, ?_⟩
      · simp only [null_bitmap_range.next, hb, hend, if_true]
      · simp [null_bitmap_range.done, hend]
    · obtain ⟨r', e, b1, _⟩ :=
        null_bitmap_range.scan_spec bm.bitvector_ hwf r hb (by omega)
      refine ⟨r', ?_, ?_⟩
      · simp only [null_bitmap_range.next, hb, hend, if_false, e]
      · simp [null_bitmap_range.done, b1, hend]

theorem null_bitmap_range_terminates_witness :
    (null_bitmap.mk ⟨[7, 0, 0], 130⟩).bitvector_.wf
      ∧ ∃ rs, (null_bitmap.mk ⟨[7, 0, 0], 130⟩).runs = some rs ∧ rs.length ≤ 3 :=
  ⟨by simp [bitvector.wf, word.width],
    (null_bitmap_range_terminates ⟨⟨[7, 0, 0], 130⟩⟩ (by simp [bitvector.wf, word.width])).2.1⟩

/-- C30: for a bitmap whose bit vector is well formed, the iteration returns
runs that all have a length greater than 0 and at most `size()`; and `scan()`
called with the cursor on the last block emits the raw block with the length
`size() mod 64`, or 64 when that remainder is 0, and moves the cursor to the
end. -/
theorem null_bitmap_range_run_lengths (bm : null_bitmap) (hwf : bm.bitvector_.wf) :
    (∃ rs, bm.runs = some rs ∧ ∀ x ∈ rs, 0 < x.size ∧ x.size ≤ bm.size)
    ∧ ∀ r : null_bitmap_range, r.bitvector_ = some bm.bitvector_ →
        r.block_ + 1 = bm.bitvector_.blocks.length →
        ∃ r', r.scan = some r'
          ∧ r'.bits_ = ⟨bm.bitvector_.blocks.getD r.block_ 0,
              if bm.bitvector_.size % word.width = 0 then word.width
              else bm.bitvector_.size % word.width⟩
          ∧ r'.block_ = bm.bitvector_.blocks.length := by
  have hL := (bitvector.wf_iff bm.bitvector_).1 hwf
  constructor
  · obtain ⟨rs, h1, _, h3⟩ :=
      null_bitmap.runs_ind bm hwf (fun x => 0 < x.size ∧ x.size ≤ bm.size) (fun _ _ => True)
        (fun r0 r hb hk hs => by
          obtain ⟨r1, e, _, b2, b3, b4, _⟩ :=
            null_bitmap_range.scan_spec bm.bitvector_ hwf r0 hb hk
          rw [hs] at e
          cases e
          simp only [null_bitmap.size]
          omega)
        (fun _ _ _ _ _ _ _ _ => trivial)
    exact ⟨rs, h1, h3⟩
  · intro r hb hk
    have hk1 : r.block_ < bm.bitvector_.blocks.length := by omega
    have hne : r.block_ ≠ bm.bitvector_.blocks.length := by omega
    have hlast : r.block_ = bm.bitvector_.blocks.length - 1 := by omega
    have hcur : bm.bitvector_.blocks[r.block_]? = some bm.bitvector_.blocks[r.block_] :=
      List.getElem?_eq_getElem hk1
    have hg : bm.bitvector_.blocks.getD r.block_ 0 = bm.bitvector_.blocks[r.block_] :=
      List.getD_eq_getElem _ _ hk1
    have e : r.scan = some { r with
        bits_ := ⟨bm.bitvector_.blocks[r.block_],
          if bm.bitvector_.size % word.width = 0 then word.width
          else bm.bitvector_.size % word.width⟩,
        block_ := r.block_ + 1 } := by
      unfold null_bitmap_range.scan
      simp only [hb, hne, if_false, hcur, hlast.symm, if_true]
    exact ⟨_, e, by simp only [hg], hk⟩

theorem null_bitmap_range_run_lengths_witness :
    (null_bitmap.mk ⟨[0, 3], 66⟩).bitvector_.wf
      ∧ ∃ rs, (null_bitmap.mk ⟨[0, 3], 66⟩).runs = some rs
          ∧ ∀ x ∈ rs, 0 < x.size ∧ x.size ≤ (null_bitmap.mk ⟨[0, 3], 66⟩).size :=
  ⟨by simp [bitvector.wf, word.width],
    (null_bitmap_range_run_lengths ⟨⟨[0, 3], 66⟩⟩ (by simp [bitvector.wf, word.width])).1⟩

/-! ## `broccoli::subscribe` keeps the list of names sorted -/

theorem source.broccoli.subscribe_nil (e : List Char) :
    source.broccoli.subscribe [] e = [e] := by
  simp [source.broccoli.subscribe, lower_bound]

theorem source.broccoli.subscribe_cons (y : List Char) (l : List (List Char)) (e : List Char) :
    source.broccoli.subscribe (y :: l) e
      = if y < e then y :: source.broccoli.subscribe l e
        else if e < y then e :: y :: l else y :: l := by
  by_cases h : y < e
  · simp only [source.broccoli.subscribe, lower_bound, List.takeWhile_cons, h, decide_True,
      if_true, List.length_cons, List.getElem?_cons_succ]
    cases l[(l.takeWhile (fun x => decide (x < e))).length]? with
    | none => simp
    | some x => by_cases hx : e < x <;> simp [hx]
  · simp only [source.broccoli.subscribe, lower_bound, List.takeWhile_cons, h, decide_False,
      Bool.false_eq_true, if_false, List.length_nil, List.getElem?_cons_zero, List.take_zero,
      List.drop_zero, List.nil_append]

theorem source.broccoli.mem_subscribe (l : List (List Char)) (e x : List Char) :
    x ∈ source.broccoli.subscribe l e ↔ x = e ∨ x ∈ l := by
  induction l with
  | nil => simp [source.broccoli.subscribe_nil]
  | cons y l ih =>
    rw [source.broccoli.subscribe_cons]
    by_cases h : y < e
    · simp only [h, if_true, List.mem_cons, ih]
      tauto
    · by_cases h' : e < y
      · simp only [h, h', if_false, if_true, List.mem_cons]
      · have hye : y = e := le_antisymm (not_lt.1 h') (not_lt.1 h)
        subst hye
        simp only [h, if_false, List.mem_cons]
        tauto

theorem source.broccoli.sorted_subscribe (l : List (List Char)) (e : List Char)
    (hs : l.Sorted (fun a b => a < b)) :
    (source.broccoli.subscribe l e).Sorted (fun a b => a < b) := by
  induction l with
  | nil => simp [source.broccoli.subscribe_nil]
  | cons y l ih =>
    rw [List.sorted_cons] at hs
    rw [source.broccoli.subscribe_cons]
    by_cases h : y < e
    · simp only [h, if_true]
      rw [List.sorted_cons]
      refine ⟨?_, ih hs.2⟩
      intro b hb
      rcases (source.broccoli.mem_subscribe l e b).1 hb with rfl | hb
      · exact h
      · exact hs.1 b hb
    · by_cases h' : e < y
      · simp only [h, h', if_false, if_true]
        rw [List.sorted_cons, List.sorted_cons]
        refine ⟨?_, hs⟩
        intro b hb
        rcases List.mem_cons.1 hb with rfl | hb
        · exact h'
        · exact lt_trans h' (hs.1 b hb)
      · simp only [h, h', if_false]
        exact List.sorted_cons.2 hs

theorem source.broccoli.subscribe_of_mem (l : List (List Char)) (e : List Char)
    (hs : l.Sorted (fun a b => a < b)) (he : e ∈ l) :
    source.broccoli.subscribe l e = l := by
  induction l with
  | nil => exact absurd he (List.not_mem_nil e)
  | cons y l ih =>
    rw [List.sorted_cons] at hs
    rw [source.broccoli.subscribe_cons]
    by_cases h : y < e
    · simp only [h, if_true]
      rcases List.mem_cons.1 he with rfl | he
      · exact absurd h (lt_irrefl _)
      · rw [ih hs.2 he]
    · by_cases h' : e < y
      · rcases List.mem_cons.1 he with rfl | he
        · exact absurd h' (lt_irrefl _)
        · exact absurd (hs.1 e he) h
      · simp only [h, h', if_false]

/-- C34: for a sorted list `event_names_` without duplicates (strictly
increasing) and a name `e`, the list after `broccoli::subscribe(e)` is sorted
without duplicates, its elements are `e` and the elements of the old list, and
it is the old list when `e` was in it. -/
theorem broccoli_subscribe_sorted_set (event_names_ : List (List Char)) (e : List Char)
    (hs : event_names_.Sorted (fun a b => a < b)) :
    (source.broccoli.subscribe event_names_ e).Sorted (fun a b => a < b)
      ∧ (source.broccoli.subscribe event_names_ e).Nodup
      ∧ (∀ x, x ∈ source.broccoli.subscribe event_names_ e ↔ x = e ∨ x ∈ event_names_)
      ∧ (e ∈ event_names_ → source.broccoli.subscribe event_names_ e = event_names_)
      ∧ source.broccoli.subscribe (source.broccoli.subscribe event_names_ e) e
          = source.broccoli.subscribe event_names_ e := by
  have h1 := source.broccoli.sorted_subscribe event_names_ e hs
  refine ⟨h1, h1.nodup, source.broccoli.mem_subscribe event_names_ e,
    source.broccoli.subscribe_of_mem event_names_ e hs, ?_⟩
  exact source.broccoli.subscribe_of_mem _ e h1
    ((source.broccoli.mem_subscribe event_names_ e e).2 (Or.inl rfl))

theorem broccoli_subscribe_sorted_set_witness :
    ["conn".toList, "http".toList].Sorted (fun a b => a < b)
      ∧ source.broccoli.subscribe ["conn".toList, "http".toList] "dns".toList
          = ["conn".toList, "dns".toList, "http".toList]
      ∧ (source.broccoli.subscribe ["conn".toList, "http".toList] "dns".toList).Sorted
          (fun a b => a < b) :=
  ⟨by decide, by decide,
    (broccoli_subscribe_sorted_set ["conn".toList, "http".toList] "dns".toList
      (by decide)).1⟩

/-! ## The entry assertions of `scan` -/

theorem null_bitmap_range.scan_of_asserts_false (r : null_bitmap_range)
    (h : r.scan_asserts = false) : r.scan = none := by
  unfold null_bitmap_range.scan
  unfold null_bitmap_range.scan_asserts at h
  cases hb : r.bitvector_ with
  | none => rfl
  | some bv =>
    rw [hb] at h
    have h' : r.block_ = bv.blocks.length := by simpa using h
    simp only [h', if_true]

theorem null_bitmap_range.init_of_not_empty (bm : null_bitmap) (h : bm.empty = false) :
    null_bitmap_range.init bm = (null_bitmap_range.start bm).scan := by
  simp [null_bitmap_range.init, null_bitmap_range.start, h]

theorem null_bitmap_range.start_lt (bm : null_bitmap) (hwf : bm.bitvector_.wf)
    (h : bm.empty = false) :
    (null_bitmap_range.start bm).block_ < bm.bitvector_.blocks.length := by
  have hL := (bitvector.wf_iff bm.bitvector_).1 hwf
  have h0 : bm.bitvector_.size ≠ 0 := by
    simpa [null_bitmap.empty, bitvector.empty] using h
  simp only [null_bitmap_range.start]
  omega

theorem null_bitmap_range.reachable_inv (bm : null_bitmap) (hwf : bm.bitvector_.wf)
    (r : null_bitmap_range) (h : null_bitmap_range.reachable bm r) :
    (r.bitvector_ = none ∨ r.bitvector_ = some bm.bitvector_)
      ∧ r.block_ ≤ bm.bitvector_.blocks.length := by
  induction h with
  | init r hi =>
    cases he : bm.empty with
    | true =>
      have hr : r = ⟨none, 0, ⟨0, 0⟩⟩ := by
        simpa [null_bitmap_range.init, he] using hi.symm
      subst hr
      exact ⟨Or.inl rfl, Nat.zero_le _⟩
    | false =>
      rw [null_bitmap_range.init_of_not_empty bm he] at hi
      obtain ⟨r', e, b1, _, b3, _⟩ :=
        null_bitmap_range.scan_spec bm.bitvector_ hwf (null_bitmap_range.start bm) rfl
          (null_bitmap_range.start_lt bm hwf he)
      rw [hi] at e
      cases e
      exact ⟨Or.inr b1, b3⟩
  | next r r' _ hd hn ih =>
    have hb : r.bitvector_ = some bm.bitvector_ := by
      rcases ih.1 with h | h
      · simp [null_bitmap_range.done, h] at hd
      · exact h
    by_cases hend : r.block_ = bm.bitvector_.blocks.length
    · have hr : r' = { r with bitvector_ := none } := by
        simpa [null_bitmap_range.next, hb, hend] using hn.symm
      subst hr
      exact ⟨Or.inl rfl, ih.2⟩
    · obtain ⟨r1, e, b1, _, b3, _⟩ :=
        null_bitmap_range.scan_spec bm.bitvector_ hwf r hb
          (Nat.lt_of_le_of_ne ih.2 hend)
      have hn' : r.scan = some r' := by
        simpa [null_bitmap_range.next, hb, hend] using hn
      rw [hn'] at e
      cases e
      exact ⟨Or.inr b1, b3⟩

/-- C31: for a bitmap whose bit vector is well formed: `scan()` returns
nothing when one of its two entry assertions fails; the constructor calls
`scan()` only for a bitmap that is not empty, in a state where both assertions
hold, and the call returns; `next()` on a state reached by the constructor and
calls of `next()` while `done()` is false calls `scan()` only when the cursor
is not at the end, in a state where both assertions hold, and the call returns
(no block is read outside the block sequence). -/
theorem null_bitmap_range_scan_assertions (bm : null_bitmap) (hwf : bm.bitvector_.wf) :
    (∀ r : null_bitmap_range, r.scan_asserts = false → r.scan = none)
      ∧ (bm.empty = true → null_bitmap_range.init bm = some ⟨none, 0, ⟨0, 0⟩⟩)
      ∧ (bm.empty = false →
          (null_bitmap_range.start bm).scan_asserts = true
            ∧ null_bitmap_range.init bm = (null_bitmap_range.start bm).scan
            ∧ ∃ r, (null_bitmap_range.start bm).scan = some r)
      ∧ (∀ r : null_bitmap_range, null_bitmap_range.reachable bm r → r.done = false →
          r.bitvector_ = some bm.bitvector_
            ∧ (r.block_ = bm.bitvector_.blocks.length →
                r.next = some { r with bitvector_ := none })
            ∧ (r.block_ ≠ bm.bitvector_.blocks.length →
                r.scan_asserts = true ∧ r.next = r.scan ∧ ∃ r', r.scan = some r')) := by
  refine ⟨null_bitmap_range.scan_of_asserts_false, ?_, ?_, ?_⟩
  · intro he
    simp [null_bitmap_range.init, he]
  · intro he
    have hk := null_bitmap_range.start_lt bm hwf he
    obtain ⟨r', e, _⟩ :=
      null_bitmap_range.scan_spec bm.bitvector_ hwf (null_bitmap_range.start bm) rfl hk
    refine ⟨?_, null_bitmap_range.init_of_not_empty bm he, r', e⟩
    simp only [null_bitmap_range.start] at hk
    simp only [null_bitmap_range.scan_asserts, null_bitmap_range.start, bne_iff_ne, ne_eq]
    omega
  · intro r hr hd
    obtain ⟨h1, h2⟩ := null_bitmap_range.reachable_inv bm hwf r hr
    have hb : r.bitvector_ = some bm.bitvector_ := by
      rcases h1 with h | h
      · simp [null_bitmap_range.done, h] at hd
      · exact h
    refine ⟨hb, ?_, ?_⟩
    · intro hend
      simp only [null_bitmap_range.next, hb, hend, if_true]
    · intro hend
      obtain ⟨r', e, _⟩ :=
        null_bitmap_range.scan_spec bm.bitvector_ hwf r hb (Nat.lt_of_le_of_ne h2 hend)
      refine ⟨?_, ?_, r', e⟩
      · simp only [null_bitmap_range.scan_asserts, hb, bne_iff_ne, ne_eq]
        exact hend
      · simp only [null_bitmap_range.next, hb, hend, if_false]

theorem null_bitmap_range_scan_assertions_witness :
    (null_bitmap.mk ⟨[0, 0, 6], 131⟩).bitvector_.wf
      ∧ (null_bitmap.mk ⟨[0, 0, 6], 131⟩).empty = false
      ∧ (null_bitmap_range.start ⟨⟨[0, 0, 6], 131⟩⟩).scan_asserts = true
      ∧ null_bitmap_range.init ⟨⟨[0, 0, 6], 131⟩⟩
          = (null_bitmap_range.start ⟨⟨[0, 0, 6], 131⟩⟩).scan
      ∧ ∃ r, (null_bitmap_range.start ⟨⟨[0, 0, 6], 131⟩⟩).scan = some r :=
  ⟨by simp [bitvector.wf, word.width], by decide,
    (null_bitmap_range_scan_assertions ⟨⟨[0, 0, 6], 131⟩⟩
      (by simp [bitvector.wf, word.width])).2.2.1 (by decide)⟩

/-! ## The columns read by `bro15conn::parse` -/

theorem source.bro15conn.getD_set_ne (fs : List (Nat × Nat)) (p : Nat × Nat) (k : Nat)
    (hk : k ≠ 9) : (fs.set 9 p).getD k (0, 0) = fs.getD k (0, 0) := by
  simp only [List.getD_eq_getElem?_getD]
  rw [List.getElem?_set_ne (Ne.symm hk)]

/-- C32: the outcome of `bro15conn::parse` does not depend on the column with
index 9 of the line: the positions of that column can be replaced by any
others.  On the line `1 2 a b s 5 6 tcp 100 200 S D` the value pushed for the
responder bytes is 100, the number in the column with index 8, as is the value
pushed for the originator bytes; with `x` in the column with index 9 the line
is accepted with the same values. -/
theorem bro15conn_parse_responder_bytes_column :
    (∀ (α : Type) (z : ze.library α) (line_ : List Char) (fs : List (Nat × Nat))
        (p : Nat × Nat),
        source.bro15conn.parse_fields z line_ (fs.set 9 p)
          = source.bro15conn.parse_fields z line_ fs)
      ∧ (source.bro15conn.parse ze.simple
            "1 2 a b s 5 6 tcp 100 200 S D".toList).toOption.map (fun e => e.values)
          = some [.string "1", .string "2", .string "a", .string "b", .string "s",
              .string "5", .string "6", .string "tcp", .uint 100, .uint 100,
              .string "S", .string "D"]
      ∧ (source.bro15conn.parse ze.simple
            "1 2 a b s 5 6 tcp 100 x S D".toList).toOption.map (fun e => e.values)
          = some [.string "1", .string "2", .string "a", .string "b", .string "s",
              .string "5", .string "6", .string "tcp", .uint 100, .uint 100,
              .string "S", .string "D"] := by
  refine ⟨?_, by decide, by decide⟩
  intro α z line_ fs p
  simp only [source.bro15conn.parse_fields, List.length_set]
  rw [source.bro15conn.getD_set_ne fs p 0 (by decide),
    source.bro15conn.getD_set_ne fs p 1 (by decide),
    source.bro15conn.getD_set_ne fs p 2 (by decide),
    source.bro15conn.getD_set_ne fs p 3 (by decide),
    source.bro15conn.getD_set_ne fs p 4 (by decide),
    source.bro15conn.getD_set_ne fs p 5 (by decide),
    source.bro15conn.getD_set_ne fs p 6 (by decide),
    source.bro15conn.getD_set_ne fs p 7 (by decide),
    source.bro15conn.getD_set_ne fs p 8 (by decide),
    source.bro15conn.getD_set_ne fs p 10 (by decide),
    source.bro15conn.getD_set_ne fs p 11 (by decide),
    source.bro15conn.getD_set_ne fs p 12 (by decide)]

/-! ## The comparison with the unset marker in `bro2::parse` -/

theorem source.bro2.marker_loop_iff (line_ : List Char) (start : Nat) :
    ∀ (marker : List Char) (i : Nat),
      source.bro2.marker_loop line_ start marker i = true
        ↔ marker <+: line_.drop (start + i) := by
  intro marker
  induction marker with
  | nil => intro i; simp [source.bro2.marker_loop]
  | cons c cs ih =>
    intro i
    rw [source.bro2.marker_loop]
    by_cases hlt : start + i < line_.length
    · rw [List.drop_eq_getElem_cons hlt, List.getElem?_eq_getElem hlt, List.cons_prefix_cons]
      by_cases hc : c = line_[start + i]
      · simp only [hc, ne_eq, not_true_eq_false, if_false, true_and]
        exact ih (i + 1)
      · have hne : some c ≠ some line_[start + i] := fun h => hc (Option.some.inj h)
        simp only [hne, ne_eq, not_false_eq_true, if_true, hc, false_and]
        exact ⟨fun h => absurd h (by decide), fun h => h.elim⟩
    · have hnone : line_[start + i]? = none := List.getElem?_eq_none (by omega)
      rw [hnone, List.drop_eq_nil_of_le (by omega)]
      simp

/-- C33: the flag `unset` of `bro2::parse` is true exactly when the unset
marker is a beginning of the line from the start of the field on, whatever
the end of the field.  With the marker `-`, the line `-5` with one integer
column gives the event with the single value nil, while the line `5` gives
the integer 5; and on the line whose first field is empty, the comparison
reads the position 0, which is the end of that field. -/
theorem bro2_parse_unset_marker_is_a_beginning :
    (∀ (line_ : List Char) (start : Nat) (marker : List Char),
        source.bro2.marker_loop line_ start marker 0 = true
          ↔ marker <+: line_.drop start)
      ∧ (source.bro2.parse ze.simple
            ⟨"\t".toList, ",".toList, "(empty)".toList, "-".toList, "bro::conn",
              ["n".toList], [.int_type], []⟩ "-5".toList).map
            (fun r => r.toOption.map (fun e => e.values))
          = some (some [.nil])
      ∧ (source.bro2.parse ze.simple
            ⟨"\t".toList, ",".toList, "(empty)".toList, "-".toList, "bro::conn",
              ["n".toList], [.int_type], []⟩ "5".toList).map
            (fun r => r.toOption.map (fun e => e.values))
          = some (some [.int 5])
      ∧ ze.simple.split (some "\t".toList) none "\t5".toList = [(0, 0), (1, 2)]
      ∧ source.bro2.marker_reads "\t5".toList 0 "-".toList 0 = [0] := by
  refine ⟨?_, by decide, by decide, by decide, by decide⟩
  intro line_ start marker
  exact source.bro2.marker_loop_iff line_ start marker 0

end vast
